import Mathlib

/-!
Verification of the DIFFuzzer abstract-filesystem core against its
specification.  The Rust sources are shallowly embedded: byte strings are
lists of characters, hash maps are association lists (the hash-map iteration
order is irrelevant to every property proved here: lookups are by key or by a
value that occurs at most once, and path lists are sorted before use),
fallible methods return an `Except` paired with the possibly-mutated state,
exactly as the `&mut self` methods mutate before returning `Err`.
-/

set_option maxHeartbeats 4000000
set_option linter.unusedVariables false
set_option synthInstance.maxHeartbeats 1000000

namespace DIFFuzzer

/-- Rust strings, modelled as lists of characters (the sources only ever
split and concatenate at `/`, `,` and newline boundaries). -/
abbrev Str := List Char

/-- Lexicographic order on strings, as Rust's `Ord for String` compares. -/
def lexLe : Str → Str → Bool
  | [], _ => true
  | _ :: _, [] => false
  | a :: as, b :: bs => if a = b then lexLe as bs else decide (a < b)

/-- Rust `str::split(c)`: split at every occurrence of `c`, keeping empty
pieces (so splitting the empty string yields one empty piece). -/
def splitChar (c : Char) : Str → List Str
  | [] => [[]]
  | x :: xs =>
    if x = c then [] :: splitChar c xs
    else
      match splitChar c xs with
      | [] => [[x]]
      | s :: ss => (x :: s) :: ss

/-- Rust `str::rfind(c)`: index of the last occurrence of `c`. -/
def rfindIdx (c : Char) : Str → Option Nat
  | [] => none
  | x :: xs =>
    match rfindIdx c xs with
    | some i => some (i + 1)
    | none => if x = c then some 0 else none

/-- Rust `str::trim` (the traces are ASCII, where Lean's
`Char.isWhitespace` agrees with Rust's Unicode `char::is_whitespace`). -/
def trimStr (l : Str) : Str :=
  ((l.dropWhile Char.isWhitespace).reverse.dropWhile Char.isWhitespace).reverse

/-- Modelled from the spec: the POSIX mode flags of the missing `flags.rs`
(`S_IRWXU..S_IXOTH`, `S_ISUID`, `S_ISGID`, `S_ISVTX`); their `Display`
implementation prints the flag's name (as the encoder fixture test shows). -/
inductive ModeFlag
  | S_IRWXU | S_IRUSR | S_IWUSR | S_IXUSR
  | S_IRWXG | S_IRGRP | S_IWGRP | S_IXGRP
  | S_IRWXO | S_IROTH | S_IWOTH | S_IXOTH
  | S_ISUID | S_ISGID | S_ISVTX
deriving DecidableEq

/-- Modelled from the spec: `Display for ModeFlag` prints the flag name. -/
def ModeFlag.toStr : ModeFlag → Str
  | .S_IRWXU => "S_IRWXU".data
  | .S_IRUSR => "S_IRUSR".data
  | .S_IWUSR => "S_IWUSR".data
  | .S_IXUSR => "S_IXUSR".data
  | .S_IRWXG => "S_IRWXG".data
  | .S_IRGRP => "S_IRGRP".data
  | .S_IWGRP => "S_IWGRP".data
  | .S_IXGRP => "S_IXGRP".data
  | .S_IRWXO => "S_IRWXO".data
  | .S_IROTH => "S_IROTH".data
  | .S_IWOTH => "S_IWOTH".data
  | .S_IXOTH => "S_IXOTH".data
  | .S_ISUID => "S_ISUID".data
  | .S_ISGID => "S_ISGID".data
  | .S_ISVTX => "S_ISVTX".data

/-- `Mode` is a set of mode flags (`Vec<ModeFlag>` in the source). -/
abbrev Mode := List ModeFlag

/-- Decidable equality for `Except` results. -/
instance {e a : Type} [DecidableEq e] [DecidableEq a] : DecidableEq (Except e a) := fun x y =>
  match x, y with
  | .ok u, .ok v =>
    if h : u = v then .isTrue (by rw [h]) else .isFalse (by intro hc; cases hc; exact h rfl)
  | .error u, .error v =>
    if h : u = v then .isTrue (by rw [h]) else .isFalse (by intro hc; cases hc; exact h rfl)
  | .ok _, .error _ => .isFalse (by intro hc; cases hc)
  | .error _, .ok _ => .isFalse (by intro hc; cases hc)

namespace OldFs

/-- `node.rs` (the revision `executor.rs` builds on): a node is a tagged
arena index. -/
inductive Node
  | FILE (i : Nat)
  | DIR (i : Nat)
deriving DecidableEq

/-- A directory: optional parent index plus a name-keyed children map. -/
structure Dir where
  parent : Option Nat
  children : List (Str × Node)
deriving DecidableEq

/-- A file: the set of directories it is linked from. -/
structure File where
  parents : List Nat
deriving DecidableEq

/-- `operation.rs` of the executor's revision. -/
inductive Operation
  | MKDIR (path : Str) (mode : Mode)
  | CREATE (path : Str) (mode : Mode)
  | REMOVE (path : Str)
  | HARDLINK (old_path : Str) (new_path : Str)
deriving DecidableEq

/-- `Workload` is a wrapper around `Vec<Operation>`; the wrapper is
flattened to the operation list. -/
abbrev Workload := List Operation

/-- `ExecutorError` of `executor.rs`. -/
inductive ExecutorError
  | NotAFile (p : Str)
  | NotADir (p : Str)
  | NameAlreadyExists (p : Str)
  | RootRemovalForbidden
  | NotFound (p : Str)
  | InvalidPath (p : Str)
deriving DecidableEq

/-- `AbstractExecutor` state. -/
structure AbstractExecutor where
  dirs : List Dir
  files : List File
  nodes_created : Nat
  recording : List Operation
deriving DecidableEq

/-- `AbstractExecutor::new()`. -/
def new : AbstractExecutor :=
  { dirs := [{ parent := none, children := [] }]
    files := []
    nodes_created := 0
    recording := [] }

/-- `split_path`: split at the last `/`; an empty parent becomes `/`.
(The source `unwrap`s the `rfind`; paths without `/` never reach it, the
`none` branch is junk.) -/
def split_path (path : Str) : Str × Str :=
  match rfindIdx '/' path with
  | some i =>
    let parent := path.take i
    let name := path.drop (i + 1)
    if parent = [] then (['/'], name) else (parent, name)
  | none => (path, path)

/-- `self.dirs.get(idx).unwrap()`, totalised with a default (out-of-range
indices never occur on states reachable from `new`). -/
def dirD (s : AbstractExecutor) (i : Nat) : Dir :=
  s.dirs.getD i { parent := none, children := [] }

/-- `self.files.get(idx).unwrap()`, totalised likewise. -/
def fileD (s : AbstractExecutor) (i : Nat) : File :=
  s.files.getD i { parents := [] }

/-- Write through `dir_mut` (no-op out of range, matching `getD` above). -/
def updDir (s : AbstractExecutor) (i : Nat) (f : Dir → Dir) : AbstractExecutor :=
  { s with dirs := s.dirs.set i (f (dirD s i)) }

/-- Write through `file_mut`. -/
def updFile (s : AbstractExecutor) (i : Nat) (f : File → File) : AbstractExecutor :=
  { s with files := s.files.set i (f (fileD s i)) }

/-- `HashMap::get` on the children map (keys are unique). -/
def hmGet (l : List (Str × Node)) (k : Str) : Option Node :=
  match l.find? (fun e => decide (e.1 = k)) with
  | some e => some e.2
  | none => none

/-- `HashMap::insert` (every call site first checks the key is absent). -/
def hmInsert (l : List (Str × Node)) (k : Str) (v : Node) : List (Str × Node) :=
  if l.any (fun e => decide (e.1 = k)) then
    l.map (fun e => if e.1 = k then (k, v) else e)
  else l ++ [(k, v)]

/-- `HashMap::remove`. -/
def hmRemove (l : List (Str × Node)) (k : Str) : List (Str × Node) :=
  l.filter (fun e => decide (e.1 ≠ k))

/-- `HashSet::insert` on a file's parents. -/
def hsInsert (l : List Nat) (x : Nat) : List Nat :=
  if x ∈ l then l else l ++ [x]

/-- `HashSet::remove` on a file's parents. -/
def hsRemove (l : List Nat) (x : Nat) : List Nat :=
  l.filter (fun y => decide (y ≠ x))

/-- `name_exists`. -/
def name_exists (s : AbstractExecutor) (idx : Nat) (name : Str) : Bool :=
  (hmGet (dirD s idx).children name).isSome

/-- The segment walk inside `resolve_node`, accumulating the partial path
used in error values. -/
def resolveLoop (s : AbstractExecutor) : Node → Str → List Str → Except ExecutorError Node
  | last, _, [] => .ok last
  | last, acc, seg :: rest =>
    let acc' := acc ++ '/' :: seg
    match last with
    | .FILE _ => .error (.NotADir acc')
    | .DIR d =>
      match hmGet (dirD s d).children seg with
      | none => .error (.NotFound acc')
      | some nxt => resolveLoop s nxt acc' rest

/-- `resolve_node`. -/
def resolve_node (s : AbstractExecutor) (path : Str) : Except ExecutorError Node :=
  if path = [] ∨ path.head? ≠ some '/' ∨ (path ≠ ['/'] ∧ path.getLast? = some '/') then
    .error (.InvalidPath path)
  else
    resolveLoop s (.DIR 0) [] ((splitChar '/' path).filter (fun sg => decide (sg ≠ [])))

/-- `resolve_file`. -/
def resolve_file (s : AbstractExecutor) (path : Str) : Except ExecutorError Nat :=
  match resolve_node s path with
  | .ok (.FILE idx) => .ok idx
  | .ok (.DIR _) => .error (.NotAFile path)
  | .error e => .error e

/-- `resolve_dir`. -/
def resolve_dir (s : AbstractExecutor) (path : Str) : Except ExecutorError Nat :=
  match resolve_node s path with
  | .ok (.DIR idx) => .ok idx
  | .ok (.FILE _) => .error (.NotADir path)
  | .error e => .error e

/-- The name under which `child` sits in `p`'s children (the `find` inside
`resolve_dir_path`; the value occurs at most once on reachable states). -/
def parentNameOf (s : AbstractExecutor) (p child : Nat) : Str :=
  match (dirD s p).children.find? (fun e => decide (e.2 = Node.DIR child)) with
  | some e => e.1
  | none => []

/-- The upward loop of `resolve_dir_path`, collecting names child-first.
Fuel bounds the walk; the call below passes `dirs.length`, which suffices
since on reachable states a parent index is smaller than its child's. -/
def dirSegsRev (s : AbstractExecutor) : Nat → Nat → List Str
  | 0, _ => []
  | fuel + 1, i =>
    match (dirD s i).parent with
    | none => []
    | some p => parentNameOf s p i :: dirSegsRev s fuel p

/-- `resolve_dir_path`. -/
def resolve_dir_path (s : AbstractExecutor) (i : Nat) : Str :=
  '/' :: List.intercalate ['/'] (dirSegsRev s s.dirs.length i).reverse

/-- The root-to-`i` canonical name chain (the list `resolve_dir_path`
joins). -/
def chainOf (s : AbstractExecutor) (i : Nat) : List Str :=
  (dirSegsRev s s.dirs.length i).reverse

/-- `make_path`. -/
def make_path (s : AbstractExecutor) (parent : Nat) (name : Str) : Str :=
  if parent = 0 then '/' :: name
  else resolve_dir_path s parent ++ '/' :: name

/-- Insertion step of the sort below. -/
def insertSorted (x : Str) : List Str → List Str
  | [] => [x]
  | y :: ys => if lexLe x y then x :: y :: ys else y :: insertSorted x ys

/-- Sorting by `lexLe` (Rust `Vec::<String>::sort()`; since `lexLe` is a
total order and equal strings are indistinguishable, any sort yields this
same list). -/
def sortStrs : List Str → List Str
  | [] => []
  | x :: xs => insertSorted x (sortStrs xs)

/-- `resolve_file_path`: every `(dir, name)` link of the file, rendered and
sorted. -/
def resolve_file_path (s : AbstractExecutor) (f : Nat) : List Str :=
  sortStrs ((fileD s f).parents.flatMap fun d =>
    ((dirD s d).children.filter fun e => decide (e.2 = Node.FILE f)).map fun e =>
      make_path s d e.1)

/-- `resolve_path`. -/
def resolve_path (s : AbstractExecutor) : Node → List Str
  | .FILE f => resolve_file_path s f
  | .DIR d => [resolve_dir_path s d]

/-- `mkdir`. -/
def mkdir (s : AbstractExecutor) (path : Str) (mode : Mode) :
    Except ExecutorError Nat × AbstractExecutor :=
  let pr := split_path path
  match resolve_dir s pr.1 with
  | .error e => (.error e, s)
  | .ok parent =>
    if name_exists s parent pr.2 then
      (.error (.NameAlreadyExists (make_path s parent pr.2)), s)
    else
      let dirIdx := s.dirs.length
      let s := { s with dirs := s.dirs ++ [{ parent := some parent, children := [] }] }
      let s := updDir s parent fun d => { d with children := hmInsert d.children pr.2 (Node.DIR dirIdx) }
      let s := { s with recording := s.recording ++ [Operation.MKDIR (resolve_dir_path s dirIdx) mode] }
      let s := { s with nodes_created := s.nodes_created + 1 }
      (.ok dirIdx, s)

/-- `create`. -/
def create (s : AbstractExecutor) (path : Str) (mode : Mode) :
    Except ExecutorError Nat × AbstractExecutor :=
  let pr := split_path path
  match resolve_dir s pr.1 with
  | .error e => (.error e, s)
  | .ok parent =>
    if name_exists s parent pr.2 then
      (.error (.NameAlreadyExists (make_path s parent pr.2)), s)
    else
      let fileIdx := s.files.length
      let s := { s with files := s.files ++ [{ parents := [parent] }] }
      let s := updDir s parent fun d => { d with children := hmInsert d.children pr.2 (Node.FILE fileIdx) }
      let s := { s with recording := s.recording ++ [Operation.CREATE (make_path s parent pr.2) mode] }
      let s := { s with nodes_created := s.nodes_created + 1 }
      (.ok fileIdx, s)

/-- `hardlink`.  Note the recorded `old_path` is `resolve_path(file).pop()`,
the greatest existing link path, computed before the new link is added. -/
def hardlink (s : AbstractExecutor) (old_path new_path : Str) :
    Except ExecutorError Nat × AbstractExecutor :=
  match resolve_file s old_path with
  | .error e => (.error e, s)
  | .ok oldFile =>
    let pr := split_path new_path
    match resolve_dir s pr.1 with
    | .error e => (.error e, s)
    | .ok parent =>
      if name_exists s parent pr.2 then
        (.error (.NameAlreadyExists (make_path s parent pr.2)), s)
      else
        let oldRec := (resolve_path s (.FILE oldFile)).getLast?.getD []
        let s := updFile s oldFile fun f => { f with parents := hsInsert f.parents parent }
        let s := updDir s parent fun d => { d with children := hmInsert d.children pr.2 (Node.FILE oldFile) }
        let s := { s with recording := s.recording ++ [Operation.HARDLINK oldRec (make_path s parent pr.2)] }
        let s := { s with nodes_created := s.nodes_created + 1 }
        (.ok oldFile, s)

/-- Detaching a directory (`parent = None; children.clear()`). -/
def detachDir (s : AbstractExecutor) (i : Nat) : AbstractExecutor :=
  updDir s i fun d => { d with parent := none, children := [] }

/-- Total number of child entries over all directories (used to bound the
removal BFS fuel). -/
def totalChildren (s : AbstractExecutor) : Nat :=
  (s.dirs.map fun d => d.children.length).sum

/-- The BFS loop of `remove`: detach each reachable directory and drop the
per-(parent, file) links.  Fuel bounds the queue processing; `remove` passes
`dirs.length + totalChildren`, which suffices on reachable states where each
directory has a unique parent (each directory, and hence each child entry,
is enqueued at most once). -/
def bfs : Nat → AbstractExecutor → List (Nat × Node) → AbstractExecutor
  | 0, s, _ => s
  | _ + 1, s, [] => s
  | fuel + 1, s, (parent, node) :: rest =>
    match node with
    | .DIR toRemove =>
      let kids := (dirD s toRemove).children.map fun e => (toRemove, e.2)
      bfs fuel (detachDir s toRemove) (rest ++ kids)
    | .FILE fi =>
      bfs fuel (updFile s fi fun f => { f with parents := hsRemove f.parents parent }) rest

/-- `remove`.  Mirrors the source order: the `REMOVE` record is pushed and
the parent entry deleted *before* the root check, so `remove("/")` mutates
and then errors. -/
def remove (s : AbstractExecutor) (path : Str) :
    Except ExecutorError Unit × AbstractExecutor :=
  let pr := split_path path
  match resolve_node s path with
  | .error e => (.error e, s)
  | .ok node =>
    match resolve_dir s pr.1 with
    | .error e => (.error e, s)
    | .ok parentIdx =>
      let s := { s with recording := s.recording ++ [Operation.REMOVE path] }
      let s := updDir s parentIdx fun d => { d with children := hmRemove d.children pr.2 }
      match node with
      | .DIR toRemove =>
        if toRemove = 0 then (.error .RootRemovalForbidden, s)
        else
          let kids := (dirD s toRemove).children.map fun e => (toRemove, e.2)
          (.ok (), bfs (s.dirs.length + totalChildren s) (detachDir s toRemove) kids)
      | .FILE toRemove =>
        let anotherExists :=
          (dirD s parentIdx).children.any fun e => decide (e.2 = Node.FILE toRemove)
        if anotherExists then (.ok (), s)
        else (.ok (), updFile s toRemove fun f => { f with parents := hsRemove f.parents parentIdx })

/-- One step of `replay`. -/
def applyOp (s : AbstractExecutor) : Operation → Except ExecutorError Unit × AbstractExecutor
  | .MKDIR path mode =>
    let r := mkdir s path mode
    (r.1.map fun _ => (), r.2)
  | .CREATE path mode =>
    let r := create s path mode
    (r.1.map fun _ => (), r.2)
  | .REMOVE path => remove s path
  | .HARDLINK old_path new_path =>
    let r := hardlink s old_path new_path
    (r.1.map fun _ => (), r.2)

/-- `replay`: apply the operations in order, stopping at the first error
(`?` in the source). -/
def replay (s : AbstractExecutor) : List Operation → Except ExecutorError Unit × AbstractExecutor
  | [] => (.ok (), s)
  | op :: rest =>
    match applyOp s op with
    | (.error e, s') => (.error e, s')
    | (.ok _, s') => replay s' rest

/-- Replay on a fresh executor; `some s` on success. -/
def replayFresh (ops : List Operation) : Option AbstractExecutor :=
  match replay new ops with
  | (.ok _, s) => some s
  | (.error _, _) => none

/-- The state a successful fresh replay reaches (`new` as a junk default,
used only to state concrete witnesses). -/
def stFrom (ops : List Operation) : AbstractExecutor :=
  (replayFresh ops).getD new

/-- Whether a node is a directory node. -/
def Node.isDirN : Node → Bool
  | .DIR _ => true
  | .FILE _ => false

/-- The arena index carried by a node. -/
def Node.idx : Node → Nat
  | .DIR i => i
  | .FILE i => i

/-- The directory subtree rooted at `d`: `d` itself plus everything below
through children maps.  Recursion is guarded by the index ordering (on
states reachable from `new`, a child's index exceeds its parent's). -/
def subtreeDirs (s : AbstractExecutor) (d : Nat) : List Nat :=
  d :: (dirD s d).children.flatMap fun e =>
    match e.2 with
    | Node.DIR c => if h : d < c ∧ c < s.dirs.length then subtreeDirs s c else []
    | Node.FILE _ => []
termination_by s.dirs.length - d
decreasing_by omega

/-- Fuelled: following parent pointers from `i` reaches the root, every
step's child entry name being non-empty. -/
def attachedNE (s : AbstractExecutor) : Nat → Nat → Bool
  | 0, _ => false
  | fuel + 1, i =>
    match (dirD s i).parent with
    | none => decide (i = 0)
    | some p => decide (parentNameOf s p i ≠ []) && attachedNE s fuel p

/-- Proof device: the ancestors of `j` (inclusive), following parent
pointers; fuel-bounded like the source's upward walks. -/
def ancChain (s : AbstractExecutor) : Nat → Nat → List Nat
  | 0, j => [j]
  | fuel + 1, j =>
    j :: (match (dirD s j).parent with
      | none => []
      | some p => ancChain s fuel p)

/-- Proof device: the directories a removal queue will detach — for each
queued `DIR c` entry, the whole subtree of `c`, read in the pre-removal
state `s`. -/
def removedDirs (s : AbstractExecutor) (q : List (Nat × Node)) : List Nat :=
  q.flatMap fun e => match e.2 with
    | Node.DIR c => subtreeDirs s c
    | Node.FILE _ => []

/-- Proof device: whether processing queue entry `e` eventually deletes
directory `p` from file `k`'s parent set (subtrees and links read in the
pre-removal state `s`). -/
def hitsB (s : AbstractExecutor) (k p : Nat) (e : Nat × Node) : Bool :=
  match e.2 with
  | Node.FILE i => decide (i = k) && decide (e.1 = p)
  | Node.DIR c =>
    decide (p ∈ subtreeDirs s c) &&
      ((dirD s p).children.any fun ch => decide (ch.2 = Node.FILE k))

/-- Well-formedness of one child entry of directory `i`: the name is
slash-free, a `DIR` child is an in-range non-root directory whose parent
pointer is `i`, a `FILE` child is an in-range file registering `i` among
its parents. -/
def childOk (s : AbstractExecutor) (i : Nat) (e : Str × Node) : Prop :=
  (∀ c ∈ e.1, c ≠ '/') ∧
  (e.2.isDirN = true → e.2.idx < s.dirs.length ∧ (dirD s e.2.idx).parent = some i) ∧
  (e.2.isDirN = false → e.2.idx < s.files.length ∧ i ∈ (fileD s e.2.idx).parents)

/-- Bool form of directory-reference uniqueness: if two children entries
both reference the same directory index, they are the same entry of the
same directory. -/
def dirUniqB (i1 i2 : Nat) (e1 e2 : Str × Node) : Bool :=
  !(e1.2.isDirN && e2.2.isDirN && decide (e1.2.idx = e2.2.idx)) ||
    (decide (i1 = i2) && decide (e1.1 = e2.1))

/-- The state invariant, maintained by every successful operation from
`new`: the arena is a parent-pointer forest rooted at index 0 whose parent
indices decrease, children maps have unique keys and consistent
back-pointers, a directory is referenced by at most one entry (and by one
when its parent pointer is set), and every file's parent set lists exactly
the directories holding a link to it, each such directory being attached
under non-empty names. -/
def Inv (s : AbstractExecutor) : Prop :=
  0 < s.dirs.length ∧
  (∀ j < s.dirs.length, ∀ p, (dirD s j).parent = some p → p < j) ∧
  (∀ i < s.dirs.length,
    ((dirD s i).children.map Prod.fst).Nodup ∧
    ∀ e ∈ (dirD s i).children, childOk s i e) ∧
  (∀ i1 < s.dirs.length, ∀ i2 < s.dirs.length,
    ∀ e1 ∈ (dirD s i1).children, ∀ e2 ∈ (dirD s i2).children,
      dirUniqB i1 i2 e1 e2 = true) ∧
  (∀ j < s.dirs.length, ∀ p, (dirD s j).parent = some p →
    ((dirD s p).children.any fun e => decide (e.2 = Node.DIR j)) = true) ∧
  (∀ k < s.files.length,
    (fileD s k).parents.Nodup ∧
    ∀ p ∈ (fileD s k).parents,
      p < s.dirs.length ∧
      attachedNE s s.dirs.length p = true ∧
      ((dirD s p).children.any fun e => decide (e.2 = Node.FILE k)) = true)

instance childOkDecidable (s : AbstractExecutor) (i : Nat) (e : Str × Node) :
    Decidable (childOk s i e) := by
  unfold childOk; infer_instance

instance invDecidable (s : AbstractExecutor) : Decidable (Inv s) := by
  unfold Inv; infer_instance

/-- Every child entry of every directory has a non-empty name. -/
def NamesNonempty (s : AbstractExecutor) : Prop :=
  ∀ i < s.dirs.length, ∀ e ∈ (dirD s i).children, e.1 ≠ []

instance namesNonemptyDecidable (s : AbstractExecutor) : Decidable (NamesNonempty s) := by
  unfold NamesNonempty; infer_instance

/-- The path of an operation that creates a new name, when it ends in `/`,
makes that name empty; round trips only hold without such paths. -/
def opPathOk : Operation → Bool
  | .MKDIR p _ => decide (p.getLast? ≠ some '/')
  | .CREATE p _ => decide (p.getLast? ≠ some '/')
  | .HARDLINK _ new_path => decide (new_path.getLast? ≠ some '/')
  | .REMOVE _ => true

end OldFs

namespace Pathname

/-- `pathname.rs`: `PathName` wraps a string. -/
abbrev PathName := Str

/-- `PathName::split`: split at the last `/`; an empty parent becomes `/`.
(The `none` branch is the source's `unwrap` panic, unreachable for valid
paths.) -/
def split (p : PathName) : PathName × Str :=
  match rfindIdx '/' p with
  | some i =>
    let parent := p.take i
    let name := p.drop (i + 1)
    if parent = [] then (['/'], name) else (parent, name)
  | none => (p, p)

/-- `PathName::segments`. -/
def segments (p : PathName) : List Str :=
  (splitChar '/' p).filter fun sg => decide (sg ≠ [])

/-- `PathName::is_root`. -/
def is_root (p : PathName) : Bool :=
  decide (p = ['/'])

/-- `PathName::join`. -/
def join (p : PathName) (name : Str) : PathName :=
  if is_root p then '/' :: name else p ++ '/' :: name

/-- `PathName::is_valid`. -/
def is_valid (p : PathName) : Bool :=
  !(decide (p = []) || decide (p.head? ≠ some '/') ||
    (!is_root p && decide (p.getLast? = some '/')))

/-- `PathName::is_prefix_of`: compare the first `|segments p|` segments. -/
def is_prefix_of (p other : PathName) : Bool :=
  let segs := segments p
  let otherSegs := segments other
  if otherSegs.length < segs.length then false
  else (List.range segs.length).all fun i => decide (segs.getD i [] = otherSegs.getD i [])

/-- `true` when the string contains two consecutive slashes (used to state
the split/join amendment; not a source function). -/
def hasDoubleSlash : Str → Bool
  | [] => false
  | [_] => false
  | a :: b :: rest => (decide (a = '/') && decide (b = '/')) || hasDoubleSlash (b :: rest)

end Pathname

namespace NewFs

/-- The richer operation vocabulary of the `diffuzzer` crate, as matched by
`encode.rs` (its own `operation.rs` is not in the snapshot; fields are the
ones `encode.rs` destructures and the spec's operation table lists).
Descriptor indices and sizes are the numeric payloads printed with `{}`. -/
inductive Operation
  | Create (path : Str) (mode : Mode)
  | MkDir (path : Str) (mode : Mode)
  | Remove (path : Str)
  | Hardlink (old_path : Str) (new_path : Str)
  | Rename (old_path : Str) (new_path : Str)
  | Open (path : Str) (des : Nat)
  | Close (des : Nat)
  | Read (des : Nat) (size : Nat)
  | Write (des : Nat) (src_offset : Nat) (size : Nat)
  | FSync (des : Nat)
  | Symlink (target : Str) (linkpath : Str)
deriving DecidableEq

/-- `Workload` of the `diffuzzer` crate. -/
structure Workload where
  ops : List Operation
deriving DecidableEq

/-- Decimal digits of a positive number, most significant first. -/
def natDigits (n : Nat) : Str :=
  if n = 0 then []
  else natDigits (n / 10) ++ [Nat.digitChar (n % 10)]
termination_by n
decreasing_by exact Nat.div_lt_self (by omega) (by omega)

/-- Decimal rendering of the numeric payloads (`format!("{}", n)`). -/
def natToStr (n : Nat) : Str :=
  if n = 0 then ['0'] else natDigits n

/-- `descriptor_to_var`. -/
def descriptor_to_var (des : Nat) : Str :=
  "fd_".data ++ natToStr des

/-- `encode_mode`. -/
def encode_mode (mode : Mode) : Str :=
  if mode = [] then "0".data
  else List.intercalate " | ".data (mode.map ModeFlag.toStr)

/-- The `descriptors_n` accumulation of `encode_c`: fold of
`max(n, des.0 + 1)` over the `Open` operations. -/
def descriptorsN (w : Workload) : Nat :=
  w.ops.foldl
    (fun n op =>
      match op with
      | .Open _ des => max n (des + 1)
      | _ => n)
    0

/-- One rendered line of the `encode_c` body (each `format!` ends in
`\n`). -/
def opLine : Operation → Str
  | .Create path mode => "do_create(\"".data ++ path ++ "\", ".data ++ encode_mode mode ++ ");\n".data
  | .MkDir path mode => "do_mkdir(\"".data ++ path ++ "\", ".data ++ encode_mode mode ++ ");\n".data
  | .Remove path => "do_remove(\"".data ++ path ++ "\");\n".data
  | .Hardlink old_path new_path =>
    "do_hardlink(\"".data ++ old_path ++ "\", \"".data ++ new_path ++ "\");\n".data
  | .Rename old_path new_path =>
    "do_rename(\"".data ++ old_path ++ "\", \"".data ++ new_path ++ "\");\n".data
  | .Open path des => descriptor_to_var des ++ " = do_open(\"".data ++ path ++ "\");\n".data
  | .Close des => "do_close(".data ++ descriptor_to_var des ++ ");\n".data
  | .Read des size =>
    "do_read(".data ++ descriptor_to_var des ++ ", ".data ++ natToStr size ++ ");\n".data
  | .Write des src_offset size =>
    "do_write(".data ++ descriptor_to_var des ++ ", ".data ++ natToStr src_offset ++ ", ".data ++
      natToStr size ++ ");\n".data
  | .FSync des => "do_fsync(".data ++ descriptor_to_var des ++ ");\n".data
  | .Symlink target linkpath =>
    "do_symlink(\"".data ++ target ++ "\", \"".data ++ linkpath ++ "\");\n".data

/-- The descriptor index of an `Open` operation. -/
def openDes : Operation → Option Nat
  | .Open _ des => some des
  | _ => none

/-- `opLine` without its trailing newline: the text of the rendered line. -/
def opBody : Operation → Str
  | .Create path mode => "do_create(\"".data ++ path ++ "\", ".data ++ encode_mode mode ++ ");".data
  | .MkDir path mode => "do_mkdir(\"".data ++ path ++ "\", ".data ++ encode_mode mode ++ ");".data
  | .Remove path => "do_remove(\"".data ++ path ++ "\");".data
  | .Hardlink old_path new_path =>
    "do_hardlink(\"".data ++ old_path ++ "\", \"".data ++ new_path ++ "\");".data
  | .Rename old_path new_path =>
    "do_rename(\"".data ++ old_path ++ "\", \"".data ++ new_path ++ "\");".data
  | .Open path des => descriptor_to_var des ++ " = do_open(\"".data ++ path ++ "\");".data
  | .Close des => "do_close(".data ++ descriptor_to_var des ++ ");".data
  | .Read des size =>
    "do_read(".data ++ descriptor_to_var des ++ ", ".data ++ natToStr size ++ ");".data
  | .Write des src_offset size =>
    "do_write(".data ++ descriptor_to_var des ++ ", ".data ++ natToStr src_offset ++ ", ".data ++
      natToStr size ++ ");".data
  | .FSync des => "do_fsync(".data ++ descriptor_to_var des ++ ");".data
  | .Symlink target linkpath =>
    "do_symlink(\"".data ++ target ++ "\", \"".data ++ linkpath ++ "\");".data

/-- `Workload::encode_c`: header, descriptor declarations (or the
`// no descriptors` comment), then one line per operation inside
`void test_workload()`. -/
def encode_c (w : Workload) : Str :=
  let descriptors_n := descriptorsN w
  let descriptorsPart :=
    if descriptors_n > 0 then
      "\nint ".data ++
        List.intercalate ", ".data ((List.range descriptors_n).map descriptor_to_var) ++
        ";\n\n".data
    else "\n// no descriptors\n\n".data
  "#include \"executor.h\"\n".data ++ descriptorsPart ++
    "void test_workload()\n\x7b\n".data ++
    (w.ops.map opLine).flatten ++ "\x7d".data

end NewFs

namespace Trace

/-- `TraceRow` (index is a `u32`, return code an `i32`). -/
structure TraceRow where
  index : Nat
  command : Str
  return_code : Int
  errno : Str
deriving DecidableEq

/-- The kinds of `std::num::ParseIntError`. -/
inductive ParseIntError
  | empty
  | invalidDigit
  | posOverflow
  | negOverflow
deriving DecidableEq

/-- `TraceError`. -/
inductive TraceError
  | EmptyTrace
  | InvalidColumnsCount
  | IntParse (e : ParseIntError)
deriving DecidableEq

/-- Rust `str::parse::<u32>`: optional `+` sign, then decimal digits,
rejecting the empty string, non-digits and values `≥ 2^32`. -/
def parseU32 (s : Str) : Except ParseIntError Nat :=
  match s with
  | [] => .error .empty
  | _ =>
    let body := if s.head? = some '+' then s.tail else s
    if body = [] then .error .invalidDigit
    else if body.all Char.isDigit then
      let n := body.foldl (fun acc c => acc * 10 + (c.toNat - 48)) 0
      if n < 2 ^ 32 then .ok n else .error .posOverflow
    else .error .invalidDigit

/-- Rust `str::parse::<i32>`: optional sign, then decimal digits, with the
`i32` range checks. -/
def parseI32 (s : Str) : Except ParseIntError Int :=
  match s with
  | [] => .error .empty
  | _ =>
    let neg := s.head? = some '-'
    let body := if s.head? = some '+' ∨ s.head? = some '-' then s.tail else s
    if body = [] then .error .invalidDigit
    else if body.all Char.isDigit then
      let n : Nat := body.foldl (fun acc c => acc * 10 + (c.toNat - 48)) 0
      if neg then
        if n ≤ 2 ^ 31 then .ok (-(n : Int)) else .error .negOverflow
      else if n < 2 ^ 31 then .ok (n : Int)
      else .error .posOverflow
    else .error .invalidDigit

/-- The row loop of `parse_trace`: stop at the first blank (after trim)
line, reject rows without exactly four comma-separated columns, parse the
two integer fields. -/
def parseRows : List Str → Except TraceError (List TraceRow)
  | [] => .ok []
  | line :: rest =>
    if trimStr line = [] then .ok []
    else
      let columns := splitChar ',' line
      if columns.length ≠ 4 then .error .InvalidColumnsCount
      else
        match parseU32 (trimStr (columns.getD 0 [])) with
        | .error e => .error (.IntParse e)
        | .ok index =>
          let command := trimStr (columns.getD 1 [])
          match parseI32 (trimStr (columns.getD 2 [])) with
          | .error e => .error (.IntParse e)
          | .ok return_code =>
            let errno := trimStr (columns.getD 3 [])
            match parseRows rest with
            | .error e => .error e
            | .ok rows =>
              .ok ({ index := index, command := command, return_code := return_code,
                     errno := errno } :: rows)

/-- A data line that the row loop accepts: non-blank, exactly four columns
and both integer fields parse. -/
def rowOk (l : Str) : Bool :=
  decide (trimStr l ≠ []) && decide ((splitChar ',' l).length = 4) &&
    (parseU32 (trimStr ((splitChar ',' l).getD 0 []))).isOk &&
    (parseI32 (trimStr ((splitChar ',' l).getD 2 []))).isOk

/-- The row an accepted data line parses to. -/
def parsedRow (l : Str) : TraceRow :=
  { index := ((parseU32 (trimStr ((splitChar ',' l).getD 0 []))).toOption).getD 0
    command := trimStr ((splitChar ',' l).getD 1 [])
    return_code := ((parseI32 (trimStr ((splitChar ',' l).getD 2 []))).toOption).getD 0
    errno := trimStr ((splitChar ',' l).getD 3 []) }

/-- `parse_trace`: split on newlines, require more than one line, then run
the row loop on everything after the header. -/
def parse_trace (trace : Str) : Except TraceError (List TraceRow) :=
  let lines := splitChar '\n' trace
  if lines.length ≤ 1 then .error .EmptyTrace
  else parseRows lines.tail

end Trace

namespace Supervisor

/-- The observable state of the QMP event channel: the number of buffered
events, and whether the producer side is gone. -/
structure EventHandler where
  pending : Nat
  disconnected : Bool
deriving DecidableEq

/-- A fresh, connected handler with no buffered event. -/
def launch : EventHandler := { pending := 0, disconnected := false }

/-- The `try_recv` drain loop of `had_panic_event`: consume every buffered
event, remember whether there was one, then stop at `Empty` or fail at
`Disconnected`. -/
def hadLoop (disconnected : Bool) : Nat → Bool → Except Unit Bool
  | 0, panicked => if disconnected then .error () else .ok panicked
  | n + 1, _ => hadLoop disconnected n true

/-- `had_panic_event`. -/
def had_panic_event (h : EventHandler) : Except Unit Bool × EventHandler :=
  (hadLoop h.disconnected h.pending false, { h with pending := 0 })

/-- The drain loop of `reset`. -/
def resetLoop (disconnected : Bool) : Nat → Except Unit Unit
  | 0 => if disconnected then .error () else .ok ()
  | n + 1 => resetLoop disconnected n

/-- `reset` (called `reset_events` through the `Supervisor` trait). -/
def reset (h : EventHandler) : Except Unit Unit × EventHandler :=
  (resetLoop h.disconnected h.pending, { h with pending := 0 })

/-- One QMP event delivered by the background thread (`tx.send(())`). -/
def arrive (h : EventHandler) : EventHandler :=
  { h with pending := h.pending + 1 }

/-- An interleaving of event arrivals and core-side calls. -/
inductive Action
  | arrive
  | callHad
  | callReset
deriving DecidableEq

/-- Run an interleaving against the channel. -/
def run (h : EventHandler) : List Action → EventHandler
  | [] => h
  | .arrive :: rest => run (arrive h) rest
  | .callHad :: rest => run (had_panic_event h).2 rest
  | .callReset :: rest => run (reset h).2 rest

/-- The property the claim asserts the result of `had_panic_event` equals:
some event arrived since the previous `reset_events` call (`callHad` does
not reset it). -/
def arrivedSinceReset : List Action → Bool :=
  List.foldl
    (fun b a =>
      match a with
      | .arrive => true
      | .callReset => false
      | .callHad => b)
    false

/-- The property the code actually reports: some event arrived since the
previous draining call, i.e. since the previous `reset_events` *or*
`had_panic_event` call. -/
def arrivedSinceDrain : List Action → Bool :=
  List.foldl
    (fun b a =>
      match a with
      | .arrive => true
      | .callReset => false
      | .callHad => false)
    false

end Supervisor

/-! ### String-splitting lemmas -/

theorem splitChar_ne_nil (c : Char) (l : Str) : splitChar c l ≠ [] := by
  cases l with
  | nil => simp [splitChar]
  | cons x xs =>
    by_cases h : x = c
    · simp [splitChar, h]
    · simp only [splitChar, if_neg h]
      cases hs : splitChar c xs <;> simp

theorem splitChar_append (c : Char) (x y : Str) :
    splitChar c (x ++ c :: y) = splitChar c x ++ splitChar c y := by
  induction x with
  | nil => simp [splitChar]
  | cons a as ih =>
    by_cases h : a = c
    · subst h; simp [splitChar, ih]
    · simp only [List.cons_append, splitChar, if_neg h, List.append_eq]
      rw [ih]
      cases hs : splitChar c as with
      | nil => exact absurd hs (splitChar_ne_nil c as)
      | cons s ss => simp

theorem splitChar_of_not_mem {c : Char} {l : Str} (h : c ∉ l) : splitChar c l = [l] := by
  induction l with
  | nil => rfl
  | cons x xs ih =>
    simp only [List.mem_cons, not_or] at h
    have hx : x ≠ c := fun hh => h.1 hh.symm
    simp [splitChar, hx, ih h.2]

theorem rfindIdx_eq_none_iff (c : Char) (l : Str) : rfindIdx c l = none ↔ c ∉ l := by
  induction l with
  | nil => simp [rfindIdx]
  | cons x xs ih =>
    simp only [rfindIdx, List.mem_cons]
    cases h : rfindIdx c xs with
    | some i =>
      have hmem : c ∈ xs := by
        by_contra hm
        rw [ih.mpr hm] at h
        cases h
      simp [hmem]
    | none =>
      have hnm : c ∉ xs := ih.mp h
      by_cases hx : x = c
      · simp [hx, hnm, eq_comm]
      · simp [hx, hnm]
        exact fun hh => hx hh.symm

theorem rfindIdx_eq_some (c : Char) (l : Str) (i : Nat) (h : rfindIdx c l = some i) :
    ∃ a b, l = a ++ c :: b ∧ a.length = i ∧ c ∉ b := by
  induction l generalizing i with
  | nil => simp [rfindIdx] at h
  | cons x xs ih =>
    simp only [rfindIdx] at h
    cases hx : rfindIdx c xs with
    | some j =>
      rw [hx] at h
      obtain ⟨a, b, hab, hlen, hb⟩ := ih j hx
      cases h
      exact ⟨x :: a, b, by simp [hab], by simp [hlen], hb⟩
    | none =>
      rw [hx] at h
      by_cases hc : x = c
      · simp only [if_pos hc] at h
        cases h
        exact ⟨[], xs, by simp [hc], rfl, (rfindIdx_eq_none_iff c xs).mp hx⟩
      · simp [if_neg hc] at h

theorem rfindIdx_append_cons (c : Char) (a b : Str) (hb : c ∉ b) :
    rfindIdx c (a ++ c :: b) = some a.length := by
  induction a with
  | nil => simp [rfindIdx, (rfindIdx_eq_none_iff c b).mpr hb]
  | cons x xs ih => simp [rfindIdx, ih]

/-! ### Trace-parser lemmas -/

theorem parseRows_cons_ok (l : Str) (rest : List Str) (h : Trace.rowOk l = true) :
    Trace.parseRows (l :: rest) =
      match Trace.parseRows rest with
      | .error e => .error e
      | .ok rows => .ok (Trace.parsedRow l :: rows) := by
  unfold Trace.rowOk at h
  simp only [Bool.and_eq_true, decide_eq_true_eq] at h
  obtain ⟨⟨⟨h1, h2⟩, h3⟩, h4⟩ := h
  obtain ⟨u, hu⟩ : ∃ u, Trace.parseU32 (trimStr ((splitChar ',' l).getD 0 [])) = .ok u := by
    cases hp : Trace.parseU32 (trimStr ((splitChar ',' l).getD 0 [])) with
    | ok u => exact ⟨u, rfl⟩
    | error e => rw [hp] at h3; cases h3
  obtain ⟨v, hv⟩ : ∃ v, Trace.parseI32 (trimStr ((splitChar ',' l).getD 2 [])) = .ok v := by
    cases hp : Trace.parseI32 (trimStr ((splitChar ',' l).getD 2 [])) with
    | ok v => exact ⟨v, rfl⟩
    | error e => rw [hp] at h4; cases h4
  simp only [Trace.parseRows]
  rw [if_neg h1]
  simp only [h2]
  rw [if_neg (by omega : ¬(4 : Nat) ≠ 4)]
  rw [hu, hv]
  unfold Trace.parsedRow
  rw [hu, hv]
  cases Trace.parseRows rest <;> rfl

theorem parseRows_append_ok (pre suffix : List Str) (h : ∀ l ∈ pre, Trace.rowOk l = true) :
    Trace.parseRows (pre ++ suffix) =
      match Trace.parseRows suffix with
      | .error e => .error e
      | .ok rows => .ok (pre.map Trace.parsedRow ++ rows) := by
  induction pre with
  | nil =>
    simp only [List.nil_append, List.map_nil]
    cases Trace.parseRows suffix <;> simp
  | cons l ls ih =>
    rw [List.cons_append, parseRows_cons_ok _ _ (h l (by simp))]
    rw [ih fun x hx => h x (by simp [hx])]
    cases Trace.parseRows suffix <;> simp

/-- C5: the trace parser errors with `InvalidColumnsCount` on a scanned
data row without exactly four comma-separated columns and with `IntParse`
when an integer field fails to parse; empty input is `EmptyTrace`;
header-only input parses to the empty trace (and `parse_trace` defers to
the row loop on the lines after the header). -/
theorem C5_parse_trace_contract :
    Trace.parse_trace [] = .error .EmptyTrace ∧
    (∀ hdr : Str, '\n' ∉ hdr → Trace.parse_trace (hdr ++ ['\n']) = .ok []) ∧
    (∀ t : Str, 1 < (splitChar '\n' t).length →
      Trace.parse_trace t = Trace.parseRows (splitChar '\n' t).tail) ∧
    (∀ pre line rest, (∀ l ∈ pre, Trace.rowOk l = true) →
      trimStr line ≠ [] → (splitChar ',' line).length ≠ 4 →
      Trace.parseRows (pre ++ line :: rest) = .error .InvalidColumnsCount) ∧
    (∀ pre line rest, (∀ l ∈ pre, Trace.rowOk l = true) →
      trimStr line ≠ [] → (splitChar ',' line).length = 4 →
      ((Trace.parseU32 (trimStr ((splitChar ',' line).getD 0 []))).isOk = false ∨
        (Trace.parseI32 (trimStr ((splitChar ',' line).getD 2 []))).isOk = false) →
      ∃ e, Trace.parseRows (pre ++ line :: rest) = .error (.IntParse e)) := by
  refine ⟨by decide, ?_, ?_, ?_, ?_⟩
  · intro hdr hn
    unfold Trace.parse_trace
    have : hdr ++ ['\n'] = hdr ++ '\n' :: [] := rfl
    rw [this, splitChar_append, splitChar_of_not_mem hn]
    simp [Trace.parseRows, splitChar, trimStr]
  · intro t ht
    unfold Trace.parse_trace
    rw [if_neg (by omega)]
  · intro pre line rest hpre hblank hcols
    have hrow : Trace.parseRows (line :: rest) = .error .InvalidColumnsCount := by
      simp only [Trace.parseRows]
      rw [if_neg hblank, if_pos hcols]
    rw [parseRows_append_ok pre (line :: rest) hpre, hrow]
  · intro pre line rest hpre hblank hcols hbad
    have hrow : ∃ e, Trace.parseRows (line :: rest) = .error (.IntParse e) := by
      simp only [Trace.parseRows]
      rw [if_neg hblank]
      simp only [hcols]
      rw [if_neg (by omega : ¬(4 : Nat) ≠ 4)]
      cases hp : Trace.parseU32 (trimStr ((splitChar ',' line).getD 0 [])) with
      | error e => exact ⟨e, rfl⟩
      | ok u =>
        cases hq : Trace.parseI32 (trimStr ((splitChar ',' line).getD 2 [])) with
        | error e => exact ⟨e, rfl⟩
        | ok v =>
          rw [hp, hq] at hbad
          rcases hbad with hb | hb <;> simp [Except.isOk, Except.toBool] at hb
    obtain ⟨e, he⟩ := hrow
    exact ⟨e, by rw [parseRows_append_ok pre (line :: rest) hpre, he]⟩

theorem C5_parse_trace_contract_witness :
    Trace.parse_trace ("Index,Command,ReturnCode,Errno".data ++ ['\n']) = .ok [] ∧
    Trace.parseRows ["1,Foo,42".data] = .error .InvalidColumnsCount ∧
    (∃ e, Trace.parseRows ["x,Foo,1,S".data] = .error (.IntParse e)) := by
  refine ⟨C5_parse_trace_contract.2.1 _ (by decide), ?_, ?_⟩
  · have h := C5_parse_trace_contract.2.2.2.1 [] "1,Foo,42".data [] (by simp) (by decide) (by decide)
    simpa using h
  · have h := C5_parse_trace_contract.2.2.2.2 [] "x,Foo,1,S".data [] (by simp) (by decide) (by decide)
      (by left; decide)
    simpa using h

/-- C10: the row loop stops at the first blank (whitespace-only) line after
the header; everything after it — malformed or not — is discarded, and the
parse succeeds with exactly the rows before that line. -/
theorem C10_blank_line_stops_parsing :
    ∀ t hdr pre blank post, splitChar '\n' t = hdr :: (pre ++ blank :: post) →
    (∀ l ∈ pre, Trace.rowOk l = true) → trimStr blank = [] →
    Trace.parse_trace t = .ok (pre.map Trace.parsedRow) := by
  intro t hdr pre blank post hsplit hpre hblank
  unfold Trace.parse_trace
  rw [hsplit]
  rw [if_neg (by simp)]
  simp only [List.tail_cons]
  have hrow : Trace.parseRows (blank :: post) = .ok [] := by
    simp only [Trace.parseRows]
    rw [if_pos hblank]
  rw [parseRows_append_ok pre (blank :: post) hpre, hrow]
  simp

theorem C10_blank_line_stops_parsing_witness :
    Trace.parse_trace "Index,Command,ReturnCode,Errno\n1,Foo,42,Success(0)\n\n7,Bad".data =
      .ok [{ index := 1, command := "Foo".data, return_code := 42,
             errno := "Success(0)".data }] := by
  have h := C10_blank_line_stops_parsing
    "Index,Command,ReturnCode,Errno\n1,Foo,42,Success(0)\n\n7,Bad".data
    "Index,Command,ReturnCode,Errno".data ["1,Foo,42,Success(0)".data] [] ["7,Bad".data]
    (by decide) (by decide) (by decide)
  rw [h]
  decide

/-- C2: the claim's atomicity fails at `remove("/")`: the code pushes the
`REMOVE` record (and deletes the name's entry) before the root check, so it
returns `RootRemovalForbidden` with the recording mutated. -/
theorem C2_remove_root_records_before_error :
    (OldFs.remove OldFs.new ['/']).1 = .error .RootRemovalForbidden ∧
    (OldFs.remove OldFs.new ['/']).2.recording = [OldFs.Operation.REMOVE ['/']] ∧
    (OldFs.remove OldFs.new ['/']).2 ≠ OldFs.new := by decide

/-- C1 (counterexample): the workload `[MKDIR "//a"]` replays successfully
from a fresh executor — violating no precondition — yet the recording
canonicalises the path, so it differs from the workload. -/
theorem C1_counterexample_noncanonical_path :
    ((OldFs.replayFresh [OldFs.Operation.MKDIR "//a".data []]).map fun s => s.recording) =
      some [OldFs.Operation.MKDIR "/a".data []] ∧
    [OldFs.Operation.MKDIR "/a".data []] ≠ [OldFs.Operation.MKDIR "//a".data []] := by
  decide

/-! ### Supervisor lemmas -/

theorem hadLoop_true_acc (n : Nat) : Supervisor.hadLoop false n true = .ok true := by
  induction n with
  | zero => rfl
  | succ n ih => exact ih

theorem hadLoop_eval (n : Nat) : Supervisor.hadLoop false n false = .ok (decide (n ≠ 0)) := by
  cases n with
  | zero => rfl
  | succ n => simp [Supervisor.hadLoop, hadLoop_true_acc]

theorem hadLoop_disconnected (n : Nat) (b : Bool) :
    Supervisor.hadLoop true n b = .error () := by
  induction n generalizing b with
  | zero => rfl
  | succ n ih => exact ih true

theorem resetLoop_disconnected (n : Nat) : Supervisor.resetLoop true n = .error () := by
  induction n with
  | zero => rfl
  | succ n ih => exact ih

theorem run_spec (tr : List Supervisor.Action) :
    ∀ h : Supervisor.EventHandler, h.disconnected = false →
    (Supervisor.run h tr).disconnected = false ∧
    decide ((Supervisor.run h tr).pending ≠ 0) =
      List.foldl
        (fun b a =>
          match a with
          | .arrive => true
          | .callReset => false
          | .callHad => false)
        (decide (h.pending ≠ 0)) tr := by
  induction tr with
  | nil => intro h hd; exact ⟨hd, rfl⟩
  | cons a rest ih =>
    intro h hd
    cases a with
    | arrive =>
      have := ih (Supervisor.arrive h) (by simpa [Supervisor.arrive] using hd)
      refine ⟨this.1, ?_⟩
      rw [Supervisor.run, this.2]
      simp [Supervisor.arrive]
    | callHad =>
      have := ih (Supervisor.had_panic_event h).2 (by simpa [Supervisor.had_panic_event] using hd)
      refine ⟨this.1, ?_⟩
      rw [Supervisor.run, this.2]
      simp [Supervisor.had_panic_event]
    | callReset =>
      have := ih (Supervisor.reset h).2 (by simpa [Supervisor.reset] using hd)
      refine ⟨this.1, ?_⟩
      rw [Supervisor.run, this.2]
      simp [Supervisor.reset]

/-- C8 (counterexample): after the interleaving `[arrive, callHad]`, a
further `had_panic_event` returns `false` although an event did arrive
since the last `reset_events` — the call itself drains the queue, so the
claimed iff against `reset_events` alone fails. -/
theorem C8_counterexample_had_drains :
    Supervisor.arrivedSinceReset [.arrive, .callHad] = true ∧
    (Supervisor.had_panic_event
        (Supervisor.run Supervisor.launch [.arrive, .callHad])).1 = .ok false := by
  decide

/-- C8 (amended): `had_panic_event` reports whether an event arrived since
the previous draining call — `reset_events` *or* `had_panic_event` — and on
a disconnected channel both calls fail fatally.  (Non-blocking execution is
inherent to the model: both calls are total functions of the channel
state.) -/
theorem C8_event_contract :
    (∀ tr, (Supervisor.had_panic_event (Supervisor.run Supervisor.launch tr)).1 =
      .ok (Supervisor.arrivedSinceDrain tr)) ∧
    (∀ h : Supervisor.EventHandler, h.disconnected = true →
      (Supervisor.had_panic_event h).1 = .error () ∧ (Supervisor.reset h).1 = .error ()) := by
  constructor
  · intro tr
    have h := run_spec tr Supervisor.launch rfl
    unfold Supervisor.had_panic_event
    rw [h.1, hadLoop_eval, h.2]
    rfl
  · intro h hd
    unfold Supervisor.had_panic_event Supervisor.reset
    rw [hd]
    exact ⟨hadLoop_disconnected _ _, resetLoop_disconnected _⟩

/-- C7: `PathName::is_prefix_of` is exactly the segment-list prefix test,
including the spec's concrete cases. -/
theorem C7_is_prefix_of_segmentwise :
    (∀ p q : Pathname.PathName,
      Pathname.is_prefix_of p q = true ↔ Pathname.segments p <+: Pathname.segments q) ∧
    Pathname.is_prefix_of "/1/2".data "/1/2/3".data = true ∧
    Pathname.is_prefix_of "/1/2".data "/1/20/3".data = false ∧
    Pathname.is_prefix_of "/1/2".data "/1".data = false ∧
    Pathname.is_prefix_of "/".data "/1".data = true := by
  refine ⟨?_, by decide, by decide, by decide, by decide⟩
  intro p q
  simp only [Pathname.is_prefix_of]
  by_cases hlen : (Pathname.segments q).length < (Pathname.segments p).length
  · rw [if_pos hlen]
    simp only [Bool.false_eq_true, false_iff]
    intro hpre
    exact absurd (List.IsPrefix.length_le hpre) (by omega)
  · rw [if_neg hlen]
    push_neg at hlen
    rw [List.all_eq_true]
    constructor
    · intro hall
      rw [List.prefix_iff_eq_take]
      apply List.ext_getElem
      · rw [List.length_take]
        omega
      · intro i h1 h2
        have hmem := hall i (List.mem_range.mpr h1)
        rw [decide_eq_true_eq] at hmem
        rw [List.getD_eq_getElem _ _ h1, List.getD_eq_getElem _ _ (by omega)] at hmem
        rw [List.getElem_take]
        exact hmem
    · intro hpre i hi
      rw [List.mem_range] at hi
      rw [decide_eq_true_eq]
      obtain ⟨t, ht⟩ := hpre
      rw [← ht]
      rw [List.getD_eq_getElem _ _ hi, List.getD_eq_getElem _ _ (by simp; omega)]
      rw [List.getElem_append_left hi]

theorem C7_is_prefix_of_segmentwise_witness :
    Pathname.is_prefix_of "/a/b".data "/a/b/c".data = true ∧
    Pathname.segments "/a/b".data <+: Pathname.segments "/a/b/c".data :=
  ⟨by decide, (C7_is_prefix_of_segmentwise.1 "/a/b".data "/a/b/c".data).mp (by decide)⟩

/-! ### Path split/join lemmas -/

theorem hasDoubleSlash_append (u v : Str) :
    Pathname.hasDoubleSlash (u ++ '/' :: '/' :: v) = true := by
  induction u with
  | nil => simp [Pathname.hasDoubleSlash]
  | cons a u ih =>
    cases u with
    | nil => simp [Pathname.hasDoubleSlash, ih]
    | cons b u' =>
      simp only [Pathname.hasDoubleSlash, List.cons_append, Bool.or_eq_true,
        Bool.and_eq_true, decide_eq_true_eq]
      exact Or.inr (by simpa using ih)

/-- C9 (counterexample): `"//a"` is a valid non-root `PathName`, but
`split` returns `("/", "a")` and joining back gives `"/a" ≠ "//a"`. -/
theorem C9_counterexample_double_slash :
    Pathname.is_valid "//a".data = true ∧
    Pathname.is_root "//a".data = false ∧
    Pathname.join (Pathname.split "//a".data).1 (Pathname.split "//a".data).2 = "/a".data ∧
    "/a".data ≠ "//a".data := by
  decide

/-- C9 (amended): for a valid, non-root path without consecutive slashes,
`split` yields the final segment plus a valid parent and `join` restores
the path; splitting the root `"/"` returns `("/", "")` with an empty name
even though names are specified non-empty. -/
theorem C9_split_join_round_trip :
    Pathname.split ['/'] = (['/'], []) ∧
    ∀ p : Pathname.PathName, Pathname.is_valid p = true → Pathname.is_root p = false →
      Pathname.hasDoubleSlash p = false →
      (Pathname.split p).2 ≠ [] ∧ '/' ∉ (Pathname.split p).2 ∧
      Pathname.segments p = Pathname.segments (Pathname.split p).1 ++ [(Pathname.split p).2] ∧
      Pathname.is_valid (Pathname.split p).1 = true ∧
      Pathname.join (Pathname.split p).1 (Pathname.split p).2 = p := by
  refine ⟨by decide, ?_⟩
  intro p hvalid hroot hdd
  have hne : p ≠ [] := by
    intro h
    rw [h] at hvalid
    simp [Pathname.is_valid] at hvalid
  have hhead : p.head? = some '/' := by
    by_contra hh
    simp [Pathname.is_valid, hh] at hvalid
  have hlast : p.getLast? ≠ some '/' := by
    intro hl
    simp [Pathname.is_valid, hl, hroot] at hvalid
  have hmem : '/' ∈ p := by
    cases p with
    | nil => exact absurd rfl hne
    | cons x xs =>
      simp only [List.head?_cons, Option.some.injEq] at hhead
      rw [hhead]
      exact List.mem_cons_self _ _
  cases hr : rfindIdx '/' p with
  | none => exact absurd hmem ((rfindIdx_eq_none_iff '/' p).mp hr)
  | some i =>
    obtain ⟨a, b, hab, hlena, hbnot⟩ := rfindIdx_eq_some '/' p i hr
    have htake : p.take i = a := by
      rw [hab, ← hlena, List.take_left]
    have hdrop : p.drop (i + 1) = b := by
      rw [hab, ← hlena, show a ++ '/' :: b = (a ++ ['/']) ++ b by simp,
        show a.length + 1 = (a ++ ['/']).length by simp]
      exact List.drop_left _ _
    have hbne : b ≠ [] := by
      intro hb
      rw [hb] at hab
      rw [hab, List.getLast?_concat] at hlast
      exact hlast rfl
    have hsegs : Pathname.segments p = Pathname.segments a ++ [b] := by
      rw [hab]
      simp only [Pathname.segments, splitChar_append, splitChar_of_not_mem hbnot,
        List.filter_append]
      simp [hbne]
    by_cases ha : a = []
    · have hsplit : Pathname.split p = (['/'], b) := by
        simp [Pathname.split, hr, htake, hdrop, ha]
      rw [hsplit]
      dsimp only
      have hpa : p = '/' :: b := by rw [hab, ha]; rfl
      refine ⟨hbne, hbnot, ?_, by decide, ?_⟩
      · rw [hsegs, ha]
        rw [show Pathname.segments ([] : Str) = [] from by decide,
          show Pathname.segments ['/'] = [] from by decide]
      · simp only [Pathname.join]
        rw [if_pos (by decide : Pathname.is_root ['/'] = true)]
        exact hpa.symm
    · have hsplit : Pathname.split p = (a, b) := by
        simp [Pathname.split, hr, htake, hdrop, ha]
      rw [hsplit]
      dsimp only
      have hahead : a.head? = some '/' := by
        cases a with
        | nil => exact absurd rfl ha
        | cons x xs =>
          rw [hab] at hhead
          simpa using hhead
      have hane : a ≠ ['/'] := by
        intro h1
        rw [h1] at hab
        have hds : Pathname.hasDoubleSlash p = true := by
          rw [hab]
          exact hasDoubleSlash_append [] b
        rw [hds] at hdd
        cases hdd
      have halast : a.getLast? ≠ some '/' := by
        intro hl
        rw [List.getLast?_eq_some_iff] at hl
        obtain ⟨l', hl'⟩ := hl
        have hds : Pathname.hasDoubleSlash p = true := by
          rw [hab, hl', show (l' ++ ['/']) ++ '/' :: b = l' ++ '/' :: '/' :: b by simp]
          exact hasDoubleSlash_append l' b
        rw [hds] at hdd
        cases hdd
      have hroota : Pathname.is_root a = false := by
        simp [Pathname.is_root, hane]
      refine ⟨hbne, hbnot, hsegs, ?_, ?_⟩
      · simp [Pathname.is_valid, Pathname.is_root, ha, hahead, halast, hane]
      · simp only [Pathname.join]
        rw [if_neg (by rw [hroota]; exact Bool.false_ne_true)]
        exact hab.symm

theorem C8_event_contract_witness :
    (Supervisor.had_panic_event
        (Supervisor.run Supervisor.launch [.arrive, .callReset, .arrive])).1 =
      .ok true ∧
    (Supervisor.had_panic_event { pending := 3, disconnected := true }).1 = .error () := by
  exact ⟨(C8_event_contract.1 [.arrive, .callReset, .arrive]).trans (by decide),
    (C8_event_contract.2 { pending := 3, disconnected := true } rfl).1⟩

theorem C9_split_join_round_trip_witness :
    Pathname.join (Pathname.split "/a/b".data).1 (Pathname.split "/a/b".data).2 = "/a/b".data :=
  (C9_split_join_round_trip.2 "/a/b".data (by decide) (by decide) (by decide)).2.2.2.2

/-! ### Encoder lemmas -/

theorem digitChar_isDigit : ∀ r < 10, (Nat.digitChar r).isDigit = true := by decide

theorem natDigits_digits (n : Nat) : ∀ c ∈ NewFs.natDigits n, c.isDigit = true := by
  induction n using Nat.strong_induction_on with
  | _ n ih =>
    intro c hc
    rw [NewFs.natDigits] at hc
    by_cases h : n = 0
    · simp [h] at hc
    · rw [if_neg h] at hc
      rcases List.mem_append.mp hc with h1 | h1
      · exact ih (n / 10) (Nat.div_lt_self (by omega) (by omega)) c h1
      · simp only [List.mem_singleton] at h1
        subst h1
        exact digitChar_isDigit (n % 10) (Nat.mod_lt _ (by omega))

theorem newline_not_mem_natToStr (n : Nat) : '\n' ∉ NewFs.natToStr n := by
  intro h
  unfold NewFs.natToStr at h
  by_cases h0 : n = 0
  · rw [if_pos h0] at h
    simp at h
  · rw [if_neg h0] at h
    have := natDigits_digits n '\n' h
    simp at this

theorem intercalate_cons2 {α : Type} (sep x y : List α) (ys : List (List α)) :
    List.intercalate sep (x :: y :: ys) = x ++ sep ++ List.intercalate sep (y :: ys) := by
  simp [List.intercalate, List.intersperse]

theorem not_mem_intercalate {α : Type} (c : α) (sep : List α) (ls : List (List α))
    (hsep : c ∉ sep) (h : ∀ l ∈ ls, c ∉ l) : c ∉ List.intercalate sep ls := by
  induction ls with
  | nil => simp [List.intercalate]
  | cons x xs ih =>
    cases xs with
    | nil => simpa [List.intercalate] using h x (by simp)
    | cons y ys =>
      rw [intercalate_cons2]
      simp only [List.mem_append, not_or]
      exact ⟨⟨h x (by simp), hsep⟩, ih fun l hl => h l (by simp [hl])⟩

theorem descriptorsN_foldl (ops : List NewFs.Operation) :
    ∀ n : Nat,
      ops.foldl
        (fun n op =>
          match op with
          | NewFs.Operation.Open _ des => max n (des + 1)
          | _ => n) n =
      (ops.filterMap NewFs.openDes).foldl (fun n d => max n (d + 1)) n := by
  induction ops with
  | nil => intro n; rfl
  | cons op rest ih => intro n; cases op <;> simp [NewFs.openDes, List.filterMap_cons, ih]

theorem foldl_max_succ (ds : List Nat) :
    ∀ a : Nat, ds.foldl (fun n d => max n (d + 1)) (a + 1) = ds.foldl max a + 1 := by
  induction ds with
  | nil => intro a; rfl
  | cons d ds ih =>
    intro a
    simp only [List.foldl_cons]
    rw [show max (a + 1) (d + 1) = max a d + 1 by omega]
    exact ih (max a d)

theorem opLine_eq_opBody (op : NewFs.Operation) :
    NewFs.opLine op = NewFs.opBody op ++ ['\n'] := by
  cases op <;>
    simp [NewFs.opLine, NewFs.opBody, List.append_assoc,
      show ");\n".data = ");".data ++ ['\n'] from by decide,
      show "\");\n".data = "\");".data ++ ['\n'] from by decide]

theorem splitChar_lines (c : Char) (ls : List Str) (tail : Str)
    (h : ∀ l ∈ ls, c ∉ l) (htail : c ∉ tail) :
    splitChar c ((ls.map fun l => l ++ [c]).flatten ++ tail) = ls ++ [tail] := by
  induction ls with
  | nil => simpa using splitChar_of_not_mem htail
  | cons x xs ih =>
    simp only [List.map_cons, List.flatten_cons, List.append_assoc]
    rw [show [c] ++ ((xs.map fun l => l ++ [c]).flatten ++ tail) =
      c :: ((xs.map fun l => l ++ [c]).flatten ++ tail) from rfl]
    rw [splitChar_append, splitChar_of_not_mem (h x (by simp)),
      ih fun l hl => h l (by simp [hl])]
    simp

theorem foldl_desc_eq_zero (ops : List NewFs.Operation) :
    ∀ n : Nat,
      (ops.foldl
          (fun n op =>
            match op with
            | NewFs.Operation.Open _ des => max n (des + 1)
            | _ => n) n = 0
        ↔ n = 0 ∧ ∀ op ∈ ops, ∀ p d, op ≠ NewFs.Operation.Open p d) := by
  induction ops with
  | nil => intro n; simp
  | cons op rest ih =>
    intro n
    cases op
    case Open p des =>
      simp only [List.foldl_cons]
      rw [ih]
      constructor
      · rintro ⟨h1, -⟩
        exfalso
        omega
      · rintro ⟨-, h2⟩
        exact absurd rfl (h2 _ (by simp) p des)
    all_goals
      simp only [List.foldl_cons]
      rw [ih]
      constructor
      · rintro ⟨h1, h2⟩
        refine ⟨h1, ?_⟩
        intro o ho p d
        rcases List.mem_cons.mp ho with h | h
        · subst h; simp
        · exact h2 o h p d
      · rintro ⟨h1, h2⟩
        exact ⟨h1, fun o ho p d => h2 o (by simp [ho]) p d⟩

theorem descriptorsN_eq_max_add_one (W : NewFs.Workload) (m : Nat)
    (h : (W.ops.filterMap NewFs.openDes).max? = some m) :
    NewFs.descriptorsN W = m + 1 := by
  unfold NewFs.descriptorsN
  rw [descriptorsN_foldl]
  cases hds : W.ops.filterMap NewFs.openDes with
  | nil => rw [hds] at h; cases h
  | cons d ds =>
    rw [hds] at h
    simp only [List.max?, Option.some.injEq] at h
    rw [List.foldl_cons, show max 0 (d + 1) = d + 1 by omega, foldl_max_succ, h]

theorem encode_c_eq_no_desc (W : NewFs.Workload) (h : NewFs.descriptorsN W = 0) :
    NewFs.encode_c W =
      "#include \"executor.h\"\n".data ++ "\n// no descriptors\n\n".data ++
        "void test_workload()\n\x7b\n".data ++ (W.ops.map NewFs.opLine).flatten ++
        "\x7d".data := by
  simp only [NewFs.encode_c, gt_iff_lt]
  rw [h]
  simp

theorem encode_c_eq_desc (W : NewFs.Workload) (h : 0 < NewFs.descriptorsN W) :
    NewFs.encode_c W =
      "#include \"executor.h\"\n".data ++
        ("\nint ".data ++
          List.intercalate ", ".data
            ((List.range (NewFs.descriptorsN W)).map NewFs.descriptor_to_var) ++
          ";\n\n".data) ++
        "void test_workload()\n\x7b\n".data ++ (W.ops.map NewFs.opLine).flatten ++
        "\x7d".data := by
  simp only [NewFs.encode_c, gt_iff_lt]
  rw [if_pos h]

theorem newline_not_mem_descriptor_var (d : Nat) : '\n' ∉ NewFs.descriptor_to_var d := by
  unfold NewFs.descriptor_to_var
  simp only [List.mem_append, not_or]
  exact ⟨by decide, newline_not_mem_natToStr d⟩

theorem body_flatten_eq (W : NewFs.Workload) :
    (W.ops.map NewFs.opLine).flatten =
      ((W.ops.map NewFs.opBody).map fun l => l ++ ['\n']).flatten := by
  rw [List.map_map]
  congr 1
  exact List.map_congr_left fun op _ => opLine_eq_opBody op

/-- C6: encoder shape: the empty workload encodes to the literal template;
the `// no descriptors` comment appears iff the workload has no `Open` (in
place of the declaration line, which otherwise declares
`max(des)+1` variables `fd_0..`); the empty mode set renders as `0` and a
non-empty one as its flag names joined with `" | "`; and the function body
holds exactly one `do_X`-call line per operation, in workload order. -/
theorem C6_encoder_shape :
    NewFs.encode_c { ops := [] } =
      "#include \"executor.h\"\n\n// no descriptors\n\nvoid test_workload()\n\x7b\n\x7d".data ∧
    (∀ W : NewFs.Workload,
      NewFs.descriptorsN W = 0 ↔ ∀ op ∈ W.ops, ∀ p d, op ≠ NewFs.Operation.Open p d) ∧
    (∀ W : NewFs.Workload, ∀ m, (W.ops.filterMap NewFs.openDes).max? = some m →
      NewFs.descriptorsN W = m + 1) ∧
    NewFs.encode_mode [] = "0".data ∧
    (∀ mode : Mode, mode ≠ [] →
      NewFs.encode_mode mode = List.intercalate " | ".data (mode.map ModeFlag.toStr)) ∧
    (∀ W : NewFs.Workload, (∀ op ∈ W.ops, '\n' ∉ NewFs.opBody op) →
      splitChar '\n' (NewFs.encode_c W) =
        ["#include \"executor.h\"".data, []] ++
          (if 0 < NewFs.descriptorsN W then
            ["int ".data ++
              List.intercalate ", ".data
                ((List.range (NewFs.descriptorsN W)).map NewFs.descriptor_to_var) ++
              ";".data]
          else ["// no descriptors".data]) ++
          [[], "void test_workload()".data, "\x7b".data] ++
          W.ops.map NewFs.opBody ++ ["\x7d".data]) := by
  refine ⟨by decide, ?_, descriptorsN_eq_max_add_one, by decide, ?_, ?_⟩
  · intro W
    unfold NewFs.descriptorsN
    rw [foldl_desc_eq_zero]
    simp
  · intro mode hm
    unfold NewFs.encode_mode
    rw [if_neg hm]
  · intro W hops
    by_cases hd : 0 < NewFs.descriptorsN W
    · rw [if_pos hd, encode_c_eq_desc W hd]
      set decl : Str :=
        "int ".data ++
          List.intercalate ", ".data
            ((List.range (NewFs.descriptorsN W)).map NewFs.descriptor_to_var) ++
          ";".data with hdecl
      have hflat :
          "#include \"executor.h\"\n".data ++
            ("\nint ".data ++
              List.intercalate ", ".data
                ((List.range (NewFs.descriptorsN W)).map NewFs.descriptor_to_var) ++
              ";\n\n".data) ++
            "void test_workload()\n\x7b\n".data ++ (W.ops.map NewFs.opLine).flatten ++
            "\x7d".data =
          ((["#include \"executor.h\"".data, ([] : Str), decl, ([] : Str),
              "void test_workload()".data, "\x7b".data] ++
            W.ops.map NewFs.opBody).map fun l => l ++ ['\n']).flatten ++ "\x7d".data := by
        rw [body_flatten_eq]
        simp only [List.map_append, List.flatten_append, List.map_cons, List.map_nil,
          List.flatten_cons, List.flatten_nil, hdecl]
        simp [List.append_assoc]
      rw [hflat]
      rw [splitChar_lines]
      · simp [List.append_assoc]
      · intro l hl
        rcases List.mem_append.mp hl with h1 | h1
        · have hdeclfree : '\n' ∉ decl := by
            rw [hdecl]
            simp only [List.mem_append, not_or]
            refine ⟨⟨by decide, ?_⟩, by decide⟩
            refine not_mem_intercalate _ _ _ (by decide) ?_
            intro l hl
            obtain ⟨d, hd, rfl⟩ := List.mem_map.mp hl
            exact newline_not_mem_descriptor_var d
          fin_cases h1
          · decide
          · decide
          · exact hdeclfree
          · decide
          · decide
          · decide
        · obtain ⟨op, hop, rfl⟩ := List.mem_map.mp h1
          exact hops op hop
      · decide
    · have h0 : NewFs.descriptorsN W = 0 := by omega
      rw [if_neg hd, encode_c_eq_no_desc W h0]
      have hflat :
          "#include \"executor.h\"\n".data ++ "\n// no descriptors\n\n".data ++
            "void test_workload()\n\x7b\n".data ++ (W.ops.map NewFs.opLine).flatten ++
            "\x7d".data =
          ((["#include \"executor.h\"".data, ([] : Str), "// no descriptors".data, ([] : Str),
              "void test_workload()".data, "\x7b".data] ++
            W.ops.map NewFs.opBody).map fun l => l ++ ['\n']).flatten ++ "\x7d".data := by
        rw [body_flatten_eq]
        simp only [List.map_append, List.flatten_append, List.map_cons, List.map_nil,
          List.flatten_cons, List.flatten_nil]
        simp [List.append_assoc]
      rw [hflat]
      rw [splitChar_lines]
      · simp [List.append_assoc]
      · intro l hl
        rcases List.mem_append.mp hl with h1 | h1
        · fin_cases h1 <;> decide
        · obtain ⟨op, hop, rfl⟩ := List.mem_map.mp h1
          exact hops op hop
      · decide

theorem C6_encoder_shape_witness :
    splitChar '\n'
        (NewFs.encode_c
          { ops := [NewFs.Operation.MkDir "/foo".data [],
                    NewFs.Operation.Open "/foo/bar".data 0,
                    NewFs.Operation.Close 0] }) =
      ["#include \"executor.h\"".data, [], "int fd_0;".data, [],
       "void test_workload()".data, "\x7b".data,
       "do_mkdir(\"/foo\", 0);".data, "fd_0 = do_open(\"/foo/bar\");".data,
       "do_close(fd_0);".data, "\x7d".data] := by
  have h := C6_encoder_shape.2.2.2.2.2
    { ops := [NewFs.Operation.MkDir "/foo".data [],
              NewFs.Operation.Open "/foo/bar".data 0,
              NewFs.Operation.Close 0] }
    (by decide)
  exact h.trans (by decide)

/-! ### Generic list lemmas for the executor development -/

theorem getD_set_same {α : Type} (l : List α) (i : Nat) (a d : α) (h : i < l.length) :
    (l.set i a).getD i d = a := by
  rw [List.getD_eq_getElem?_getD, List.getElem?_set_self (by simpa using h)]
  rfl

theorem getD_set_other {α : Type} (l : List α) (i j : Nat) (a d : α) (h : j ≠ i) :
    (l.set i a).getD j d = l.getD j d := by
  rw [List.getD_eq_getElem?_getD, List.getElem?_set_ne (fun hh => h hh.symm),
    ← List.getD_eq_getElem?_getD]

theorem getD_append_left {α : Type} (l l' : List α) (i : Nat) (d : α) (h : i < l.length) :
    (l ++ l').getD i d = l.getD i d :=
  List.getD_append l l' d i h

theorem getD_append_length {α : Type} (l : List α) (x d : α) :
    (l ++ [x]).getD l.length d = x := by
  rw [List.getD_eq_getElem?_getD, List.getElem?_append_right (le_refl _)]
  simp

theorem countP_unique_mem {α : Type} (p : α → Bool) (l : List α) (h : l.countP p = 1)
    {x y : α} (hx : x ∈ l) (hpx : p x = true) (hy : y ∈ l) (hpy : p y = true) : x = y := by
  induction l with
  | nil => cases hx
  | cons a as ih =>
    by_cases hpa : p a = true
    · rw [List.countP_cons_of_pos _ _ hpa] at h
      have h0 : as.countP p = 0 := by omega
      have hnone : ∀ z ∈ as, ¬p z = true := by
        intro z hz
        exact (List.countP_eq_zero.mp h0) z hz
      have hxa : x = a := by
        rcases List.mem_cons.mp hx with h1 | h1
        · exact h1
        · exact absurd hpx (hnone x h1)
      have hya : y = a := by
        rcases List.mem_cons.mp hy with h1 | h1
        · exact h1
        · exact absurd hpy (hnone y h1)
      rw [hxa, hya]
    · rw [List.countP_cons_of_neg _ _ hpa] at h
      have hx' : x ∈ as := by
        rcases List.mem_cons.mp hx with h1 | h1
        · subst h1; exact absurd hpx hpa
        · exact h1
      have hy' : y ∈ as := by
        rcases List.mem_cons.mp hy with h1 | h1
        · subst h1; exact absurd hpy hpa
        · exact h1
      exact ih h hx' hy'

theorem find?_eq_of_unique {α : Type} (p : α → Bool) (l : List α) {x : α}
    (hx : x ∈ l) (hpx : p x = true) (huniq : ∀ y ∈ l, p y = true → y = x) :
    l.find? p = some x := by
  induction l with
  | nil => cases hx
  | cons a as ih =>
    by_cases hpa : p a = true
    · rw [List.find?_cons_of_pos _ hpa]
      rw [huniq a (by simp) hpa]
    · rw [List.find?_cons_of_neg _ hpa]
      have hx' : x ∈ as := by
        rcases List.mem_cons.mp hx with h1 | h1
        · subst h1; exact absurd hpx hpa
        · exact h1
      exact ih hx' fun y hy hpy => huniq y (by simp [hy]) hpy

/-! ### Canonical-path string lemmas -/

theorem intercalate_singleton {α : Type} (sep x : List α) :
    List.intercalate sep [x] = x := by
  simp [List.intercalate]

theorem intercalate_append_singleton {α : Type} (sep y : List α) :
    ∀ xs : List (List α), xs ≠ [] →
      List.intercalate sep (xs ++ [y]) = List.intercalate sep xs ++ sep ++ y := by
  intro xs
  induction xs with
  | nil => intro h; exact absurd rfl h
  | cons x rest ih =>
    intro _
    cases rest with
    | nil =>
      rw [show ([x] ++ [y] : List (List α)) = [x, y] from rfl,
        intercalate_cons2, intercalate_singleton, intercalate_singleton]
    | cons x2 rest2 =>
      rw [show ((x :: x2 :: rest2) ++ [y] : List (List α)) =
        x :: ((x2 :: rest2) ++ [y]) from rfl]
      have hh : (x2 :: rest2) ++ [y] = x2 :: (rest2 ++ [y]) := rfl
      cases hr : rest2 ++ [y] with
      | nil => exact absurd hr (by simp)
      | cons z zs =>
        rw [hh, hr, intercalate_cons2, ← hr, ← hh, ih (by simp), intercalate_cons2]
        simp [List.append_assoc]

theorem getLast?_slash_intercalate (names : List Str) (hne : names ≠ [])
    (hall : ∀ n ∈ names, n ≠ [] ∧ ∀ c ∈ n, c ≠ '/') :
    ('/' :: List.intercalate ['/'] names).getLast? ≠ some '/' := by
  rcases List.eq_nil_or_concat names with h | ⟨init, last, hcat⟩
  · exact absurd h hne
  rw [List.concat_eq_append] at hcat
  subst hcat
  have hlast := hall last (by simp)
  have hpre : ∃ pre, '/' :: List.intercalate ['/'] (init ++ [last]) = pre ++ last := by
    cases init with
    | nil =>
      refine ⟨['/'], ?_⟩
      rw [List.nil_append, intercalate_singleton]
      rfl
    | cons i0 irest =>
      refine ⟨'/' :: (List.intercalate ['/'] (i0 :: irest) ++ ['/']), ?_⟩
      rw [intercalate_append_singleton ['/'] last (i0 :: irest) (by simp)]
      simp [List.append_assoc]
  obtain ⟨pre, hpre⟩ := hpre
  rw [hpre, List.getLast?_append_of_ne_nil _ hlast.1]
  intro hc
  exact hlast.2 '/' (List.mem_of_getLast?_eq_some hc) rfl

theorem filter_splitChar_intercalate :
    ∀ names : List Str, names ≠ [] → (∀ n ∈ names, n ≠ [] ∧ ∀ c ∈ n, c ≠ '/') →
      (splitChar '/' (List.intercalate ['/'] names)).filter
        (fun sg => decide (sg ≠ [])) = names := by
  intro names
  induction names with
  | nil => intro h; exact absurd rfl h
  | cons x rest ih =>
    intro _ hall
    have hx := hall x (by simp)
    have hxs : splitChar '/' x = [x] := splitChar_of_not_mem (fun hm => hx.2 '/' hm rfl)
    cases rest with
    | nil =>
      rw [intercalate_singleton, hxs]
      simp [hx.1]
    | cons y rest2 =>
      rw [intercalate_cons2]
      rw [show (x ++ ['/'] ++ List.intercalate ['/'] (y :: rest2) : Str) =
        x ++ '/' :: List.intercalate ['/'] (y :: rest2) from by simp]
      rw [splitChar_append, hxs]
      rw [show ([x] ++ splitChar '/' (List.intercalate ['/'] (y :: rest2)) : List Str) =
        x :: splitChar '/' (List.intercalate ['/'] (y :: rest2)) from rfl]
      rw [List.filter_cons_of_pos (by simp [hx.1])]
      rw [ih (by simp) (fun n hn => hall n (by simp [hn]))]

theorem filter_splitChar_canonical (names : List Str)
    (hall : ∀ n ∈ names, n ≠ [] ∧ ∀ c ∈ n, c ≠ '/') :
    (splitChar '/' ('/' :: List.intercalate ['/'] names)).filter
      (fun sg => decide (sg ≠ [])) = names := by
  have h0 : splitChar '/' ('/' :: List.intercalate ['/'] names) =
      [] :: splitChar '/' (List.intercalate ['/'] names) := by
    have h := splitChar_append '/' [] (List.intercalate ['/'] names)
    rw [List.nil_append] at h
    rw [h]
    rfl
  rw [h0, List.filter_cons_of_neg (by simp)]
  cases hn : names with
  | nil => rfl
  | cons a as =>
    rw [hn] at hall
    exact filter_splitChar_intercalate (a :: as) (by simp) hall

theorem length_flatMap_sum {α β : Type} (l : List α) (g : α → List β) :
    (l.flatMap g).length = (l.map fun a => (g a).length).sum := by
  induction l with
  | nil => rfl
  | cons a as ih => simp [ih]

/-! ### The string order used by `Vec::<String>::sort` -/

theorem lexLe_total : ∀ a b : Str, lexLe a b = true ∨ lexLe b a = true := by
  intro a
  induction a with
  | nil => intro b; left; rfl
  | cons x xs ih =>
    intro b
    cases b with
    | nil => right; rfl
    | cons y ys =>
      by_cases hxy : x = y
      · subst hxy
        rcases ih ys with h | h
        · left; simp [lexLe, h]
        · right; simp [lexLe, h]
      · rcases lt_or_gt_of_ne hxy with h | h
        · left; simp [lexLe, hxy, h]
        · right
          simp only [lexLe]
          rw [if_neg (fun hh => hxy hh.symm)]
          simp [h]

theorem lexLe_trans : ∀ {a b c : Str}, lexLe a b = true → lexLe b c = true →
    lexLe a c = true := by
  intro a
  induction a with
  | nil => intro b c _ _; rfl
  | cons x xs ih =>
    intro b c hab hbc
    cases b with
    | nil => simp [lexLe] at hab
    | cons y ys =>
      cases c with
      | nil => simp [lexLe] at hbc
      | cons z zs =>
        simp only [lexLe] at hab hbc ⊢
        by_cases hxy : x = y <;> by_cases hyz : y = z
        · subst hxy; subst hyz
          rw [if_pos rfl] at hab hbc ⊢
          exact ih hab hbc
        · subst hxy
          rw [if_neg hyz] at hbc ⊢
          exact hbc
        · subst hyz
          rw [if_neg hxy] at hab ⊢
          exact hab
        · rw [if_neg hxy] at hab
          rw [if_neg hyz] at hbc
          simp only [decide_eq_true_eq] at hab hbc
          have hxz : x < z := lt_trans hab hbc
          rw [if_neg (by intro hh; subst hh; exact absurd hxz (lt_irrefl x))]
          simp [hxz]

namespace OldFs

theorem dirD_updDir_same (s : AbstractExecutor) (i : Nat) (f : Dir → Dir)
    (h : i < s.dirs.length) : dirD (updDir s i f) i = f (dirD s i) :=
  getD_set_same _ _ _ _ h

theorem dirD_updDir_other (s : AbstractExecutor) (i j : Nat) (f : Dir → Dir) (h : j ≠ i) :
    dirD (updDir s i f) j = dirD s j :=
  getD_set_other _ _ _ _ _ h

theorem fileD_updFile_same (s : AbstractExecutor) (i : Nat) (f : File → File)
    (h : i < s.files.length) : fileD (updFile s i f) i = f (fileD s i) :=
  getD_set_same _ _ _ _ h

theorem fileD_updFile_other (s : AbstractExecutor) (i j : Nat) (f : File → File) (h : j ≠ i) :
    fileD (updFile s i f) j = fileD s j :=
  getD_set_other _ _ _ _ _ h

theorem hmGet_eq_some_mem {l : List (Str × Node)} {k : Str} {v : Node}
    (h : hmGet l k = some v) : (k, v) ∈ l := by
  unfold hmGet at h
  cases hf : l.find? fun e => decide (e.1 = k) with
  | none => rw [hf] at h; cases h
  | some e =>
    rw [hf] at h
    cases h
    have hm := List.mem_of_find?_eq_some hf
    have hk := List.find?_some hf
    simp only [decide_eq_true_eq] at hk
    obtain ⟨e1, e2⟩ := e
    cases hk
    exact hm

theorem keys_nodup_value_eq {l : List (Str × Node)} (hn : (l.map Prod.fst).Nodup)
    {k : Str} {v w : Node} (h1 : (k, v) ∈ l) (h2 : (k, w) ∈ l) : v = w := by
  induction l with
  | nil => cases h1
  | cons a as ih =>
    rw [List.map_cons, List.nodup_cons] at hn
    rcases List.mem_cons.mp h1 with e1 | e1 <;> rcases List.mem_cons.mp h2 with e2 | e2
    · rw [← e1] at e2
      cases e2
      rfl
    · exfalso
      apply hn.1
      rw [← e1]
      exact List.mem_map.mpr ⟨(k, w), e2, rfl⟩
    · exfalso
      apply hn.1
      rw [← e2]
      exact List.mem_map.mpr ⟨(k, v), e1, rfl⟩
    · exact ih hn.2 e1 e2

theorem hmGet_eq_some_of_mem {l : List (Str × Node)} {k : Str} {v : Node}
    (hn : (l.map Prod.fst).Nodup) (h : (k, v) ∈ l) : hmGet l k = some v := by
  unfold hmGet
  rw [find?_eq_of_unique (fun e => decide (e.1 = k)) l h (by simp)]
  intro y hy hpy
  simp only [decide_eq_true_eq] at hpy
  obtain ⟨y1, y2⟩ := y
  cases hpy
  rw [keys_nodup_value_eq hn hy h]

theorem hmGet_eq_none_iff {l : List (Str × Node)} {k : Str} :
    hmGet l k = none ↔ ∀ v, (k, v) ∉ l := by
  constructor
  · intro h v hv
    unfold hmGet at h
    cases hf : l.find? fun e => decide (e.1 = k) with
    | some e => rw [hf] at h; cases h
    | none =>
      have := List.find?_eq_none.mp hf (k, v) hv
      simp at this
  · intro h
    unfold hmGet
    cases hf : l.find? fun e => decide (e.1 = k) with
    | none => rfl
    | some e =>
      exfalso
      have hm := List.mem_of_find?_eq_some hf
      have hk := List.find?_some hf
      simp only [decide_eq_true_eq] at hk
      obtain ⟨e1, e2⟩ := e
      cases hk
      exact h e2 hm

theorem name_exists_false_iff {s : AbstractExecutor} {p : Nat} {n : Str} :
    name_exists s p n = false ↔ ∀ v, (n, v) ∉ (dirD s p).children := by
  unfold name_exists
  constructor
  · intro h
    cases hm : hmGet (dirD s p).children n with
    | some v => rw [hm] at h; cases h
    | none => exact hmGet_eq_none_iff.mp hm
  · intro h
    rw [hmGet_eq_none_iff.mpr h]
    rfl

theorem hmInsert_of_forall_ne {l : List (Str × Node)} {k : Str} (v : Node)
    (h : ∀ e ∈ l, e.1 ≠ k) : hmInsert l k v = l ++ [(k, v)] := by
  have hany : (l.any fun e => decide (e.1 = k)) = false := by
    rw [List.any_eq_false]
    intro e he
    simp [h e he]
  unfold hmInsert
  rw [hany]
  simp

theorem dirUniqB_spec {i1 i2 : Nat} {e1 e2 : Str × Node} :
    dirUniqB i1 i2 e1 e2 = true ↔
      (e1.2.isDirN = true → e2.2.isDirN = true → e1.2.idx = e2.2.idx →
        i1 = i2 ∧ e1.1 = e2.1) := by
  unfold dirUniqB
  by_cases h1 : e1.2.isDirN = true <;> by_cases h2 : e2.2.isDirN = true <;>
    by_cases h3 : e1.2.idx = e2.2.idx <;>
    simp [h1, h2, h3]

theorem Inv.dirs_pos {s : AbstractExecutor} (h : Inv s) : 0 < s.dirs.length := h.1

theorem Inv.parent_lt {s : AbstractExecutor} (h : Inv s) {j p : Nat}
    (hj : j < s.dirs.length) (hp : (dirD s j).parent = some p) : p < j :=
  h.2.1 j hj p hp

theorem Inv.keys_nodup {s : AbstractExecutor} (h : Inv s) {i : Nat} (hi : i < s.dirs.length) :
    ((dirD s i).children.map Prod.fst).Nodup :=
  (h.2.2.1 i hi).1

theorem Inv.child_ok {s : AbstractExecutor} (h : Inv s) {i : Nat} {e : Str × Node}
    (hi : i < s.dirs.length) (he : e ∈ (dirD s i).children) : childOk s i e :=
  (h.2.2.1 i hi).2 e he

theorem Inv.dir_uniq {s : AbstractExecutor} (h : Inv s) {i1 i2 j : Nat} {n1 n2 : Str}
    (h1 : i1 < s.dirs.length) (h2 : i2 < s.dirs.length)
    (he1 : (n1, Node.DIR j) ∈ (dirD s i1).children)
    (he2 : (n2, Node.DIR j) ∈ (dirD s i2).children) : i1 = i2 ∧ n1 = n2 := by
  have hu := dirUniqB_spec.mp (h.2.2.2.1 i1 h1 i2 h2 _ he1 _ he2)
  exact hu rfl rfl rfl

theorem Inv.dir_exists {s : AbstractExecutor} (h : Inv s) {j p : Nat}
    (hj : j < s.dirs.length) (hp : (dirD s j).parent = some p) :
    ∃ n, (n, Node.DIR j) ∈ (dirD s p).children := by
  have hany := h.2.2.2.2.1 j hj p hp
  rw [List.any_eq_true] at hany
  obtain ⟨e, he, hee⟩ := hany
  simp only [decide_eq_true_eq] at hee
  obtain ⟨a, b⟩ := e
  cases hee
  exact ⟨a, he⟩

theorem Inv.file_nodup {s : AbstractExecutor} (h : Inv s) {k : Nat} (hk : k < s.files.length) :
    (fileD s k).parents.Nodup :=
  (h.2.2.2.2.2 k hk).1

theorem Inv.file_parent {s : AbstractExecutor} (h : Inv s) {k p : Nat} (hk : k < s.files.length)
    (hp : p ∈ (fileD s k).parents) :
    p < s.dirs.length ∧ attachedNE s s.dirs.length p = true ∧
      ((dirD s p).children.any fun e => decide (e.2 = Node.FILE k)) = true :=
  (h.2.2.2.2.2 k hk).2 p hp

theorem Inv.parent_root {s : AbstractExecutor} (h : Inv s) : (dirD s 0).parent = none := by
  cases hp : (dirD s 0).parent with
  | none => rfl
  | some p => exact absurd (h.parent_lt h.dirs_pos hp) (by omega)

theorem Inv.child_dir {s : AbstractExecutor} (h : Inv s) {i j : Nat} {n : Str}
    (hi : i < s.dirs.length) (he : (n, Node.DIR j) ∈ (dirD s i).children) :
    j < s.dirs.length ∧ (dirD s j).parent = some i := by
  have hc := h.child_ok hi he
  simpa [Node.isDirN, Node.idx] using hc.2.1 rfl

theorem Inv.child_file {s : AbstractExecutor} (h : Inv s) {i k : Nat} {n : Str}
    (hi : i < s.dirs.length) (he : (n, Node.FILE k) ∈ (dirD s i).children) :
    k < s.files.length ∧ i ∈ (fileD s k).parents := by
  have hc := h.child_ok hi he
  simpa [Node.isDirN, Node.idx] using hc.2.2 rfl

theorem Inv.child_slashfree {s : AbstractExecutor} (h : Inv s) {i : Nat} {e : Str × Node}
    (hi : i < s.dirs.length) (he : e ∈ (dirD s i).children) : ∀ c ∈ e.1, c ≠ '/' :=
  (h.child_ok hi he).1

theorem Inv.parentNameOf_spec {s : AbstractExecutor} (h : Inv s) {j p : Nat}
    (hj : j < s.dirs.length) (hp : (dirD s j).parent = some p) :
    (parentNameOf s p j, Node.DIR j) ∈ (dirD s p).children := by
  have hpl : p < s.dirs.length := lt_trans (h.parent_lt hj hp) hj
  obtain ⟨n, hn⟩ := h.dir_exists hj hp
  have hfind : (dirD s p).children.find? (fun e => decide (e.2 = Node.DIR j)) =
      some (n, Node.DIR j) := by
    apply find?_eq_of_unique _ _ hn (by simp)
    intro y hy hpy
    simp only [decide_eq_true_eq] at hpy
    obtain ⟨y1, y2⟩ := y
    cases hpy
    rw [(h.dir_uniq hpl hpl hy hn).2]
  unfold parentNameOf
  rw [hfind]
  exact hn

theorem dirSegsRev_fuel_stable {s : AbstractExecutor} (h : Inv s) :
    ∀ j, j < s.dirs.length → ∀ f1 f2, j < f1 → j < f2 →
      dirSegsRev s f1 j = dirSegsRev s f2 j := by
  intro j
  induction j using Nat.strong_induction_on with
  | _ j ih =>
    intro hj f1 f2 h1 h2
    cases f1 with
    | zero => omega
    | succ a =>
      cases f2 with
      | zero => omega
      | succ b =>
        simp only [dirSegsRev]
        cases hp : (dirD s j).parent with
        | none => rfl
        | some p =>
          have hpj := h.parent_lt hj hp
          dsimp only
          rw [ih p hpj (lt_trans hpj hj) a b (by omega) (by omega)]

theorem chainOf_zero {s : AbstractExecutor} (h : Inv s) : chainOf s 0 = [] := by
  unfold chainOf
  cases hl : s.dirs.length with
  | zero => rfl
  | succ m =>
    simp only [dirSegsRev]
    rw [h.parent_root]
    rfl

theorem chainOf_step {s : AbstractExecutor} (h : Inv s) {j p : Nat}
    (hj : j < s.dirs.length) (hp : (dirD s j).parent = some p) :
    chainOf s j = chainOf s p ++ [parentNameOf s p j] := by
  have hpj := h.parent_lt hj hp
  have hpl : p < s.dirs.length := lt_trans hpj hj
  unfold chainOf
  cases hl : s.dirs.length with
  | zero => omega
  | succ m =>
    conv_lhs => rw [dirSegsRev]
    rw [hp]
    dsimp only
    rw [dirSegsRev_fuel_stable h p (by omega) m (m + 1) (by omega) (by omega)]
    simp

theorem attachedNE_fuel_stable {s : AbstractExecutor} (h : Inv s) :
    ∀ j, j < s.dirs.length → ∀ f1 f2, j < f1 → j < f2 →
      attachedNE s f1 j = attachedNE s f2 j := by
  intro j
  induction j using Nat.strong_induction_on with
  | _ j ih =>
    intro hj f1 f2 h1 h2
    cases f1 with
    | zero => omega
    | succ a =>
      cases f2 with
      | zero => omega
      | succ b =>
        simp only [attachedNE]
        cases hp : (dirD s j).parent with
        | none => rfl
        | some p =>
          have hpj := h.parent_lt hj hp
          dsimp only
          rw [ih p hpj (lt_trans hpj hj) a b (by omega) (by omega)]

theorem attachedNE_root {s : AbstractExecutor} (h : Inv s) :
    attachedNE s s.dirs.length 0 = true := by
  cases hl : s.dirs.length with
  | zero => exact absurd h.dirs_pos (by omega)
  | succ m =>
    simp only [attachedNE]
    rw [h.parent_root]
    simp

theorem attachedNE_step {s : AbstractExecutor} (h : Inv s) {j p : Nat}
    (hj : j < s.dirs.length) (hp : (dirD s j).parent = some p) :
    attachedNE s s.dirs.length j =
      (decide (parentNameOf s p j ≠ []) && attachedNE s s.dirs.length p) := by
  have hpj := h.parent_lt hj hp
  have hpl : p < s.dirs.length := lt_trans hpj hj
  cases hl : s.dirs.length with
  | zero => omega
  | succ m =>
    conv_lhs => rw [attachedNE]
    rw [hp]
    dsimp only
    rw [attachedNE_fuel_stable h p (by omega) m (m + 1) (by omega) (by omega)]

theorem attachedNE_nonroot_parent {s : AbstractExecutor} (h : Inv s) {j : Nat}
    (hj : j < s.dirs.length) (hA : attachedNE s s.dirs.length j = true)
    (hne : j ≠ 0) : ∃ p, (dirD s j).parent = some p := by
  cases hp : (dirD s j).parent with
  | some p => exact ⟨p, rfl⟩
  | none =>
    exfalso
    cases hl : s.dirs.length with
    | zero => omega
    | succ m =>
      rw [hl] at hA
      simp only [attachedNE] at hA
      rw [hp] at hA
      simp at hA
      exact hne hA

theorem chainOf_names {s : AbstractExecutor} (h : Inv s) :
    ∀ j, j < s.dirs.length → attachedNE s s.dirs.length j = true →
      ∀ n ∈ chainOf s j, n ≠ [] ∧ ∀ c ∈ n, c ≠ '/' := by
  intro j
  induction j using Nat.strong_induction_on with
  | _ j ih =>
    intro hj hA
    cases hp : (dirD s j).parent with
    | none =>
      have hj0 : j = 0 := by
        cases hl : s.dirs.length with
        | zero => omega
        | succ m =>
          rw [hl] at hA
          simp only [attachedNE] at hA
          rw [hp] at hA
          simpa using hA
      subst hj0
      rw [chainOf_zero h]
      intro n hn
      cases hn
    | some p =>
      have hpj := h.parent_lt hj hp
      have hpl : p < s.dirs.length := lt_trans hpj hj
      rw [attachedNE_step h hj hp, Bool.and_eq_true, decide_eq_true_eq] at hA
      rw [chainOf_step h hj hp]
      intro n hn
      rcases List.mem_append.mp hn with hn1 | hn1
      · exact ih p hpj hpl hA.2 n hn1
      · simp only [List.mem_singleton] at hn1
        subst hn1
        exact ⟨hA.1, h.child_slashfree hpl (h.parentNameOf_spec hj hp)⟩

theorem resolveLoop_append (s : AbstractExecutor) (xs ys : List Str) :
    ∀ node acc, resolveLoop s node acc (xs ++ ys) =
      match resolveLoop s node acc xs with
      | .ok mid => resolveLoop s mid (acc ++ (xs.map fun sg => '/' :: sg).flatten) ys
      | .error e => .error e := by
  induction xs with
  | nil => intro node acc; simp [resolveLoop]
  | cons x xs ih =>
    intro node acc
    rw [show ((x :: xs) ++ ys : List Str) = x :: (xs ++ ys) from rfl]
    simp only [resolveLoop]
    cases node with
    | FILE f => rfl
    | DIR d =>
      dsimp only
      cases hg : hmGet (dirD s d).children x with
      | none => rfl
      | some nxt =>
        dsimp only
        rw [ih nxt (acc ++ '/' :: x)]
        cases hmid : resolveLoop s nxt (acc ++ '/' :: x) xs with
        | error e => rfl
        | ok mid =>
          dsimp only
          simp [List.append_assoc]

theorem resolveLoop_chain {s : AbstractExecutor} (h : Inv s) :
    ∀ j, j < s.dirs.length → attachedNE s s.dirs.length j = true →
      ∀ acc, resolveLoop s (Node.DIR 0) acc (chainOf s j) = .ok (Node.DIR j) := by
  intro j
  induction j using Nat.strong_induction_on with
  | _ j ih =>
    intro hj hA acc
    cases hp : (dirD s j).parent with
    | none =>
      have hj0 : j = 0 := by
        cases hl : s.dirs.length with
        | zero => omega
        | succ m =>
          rw [hl] at hA
          simp only [attachedNE] at hA
          rw [hp] at hA
          simpa using hA
      subst hj0
      rw [chainOf_zero h]
      rfl
    | some p =>
      have hpj := h.parent_lt hj hp
      have hpl : p < s.dirs.length := lt_trans hpj hj
      rw [attachedNE_step h hj hp, Bool.and_eq_true, decide_eq_true_eq] at hA
      rw [chainOf_step h hj hp, resolveLoop_append]
      rw [ih p hpj hpl hA.2 acc]
      have hget : hmGet (dirD s p).children (parentNameOf s p j) = some (Node.DIR j) :=
        hmGet_eq_some_of_mem (h.keys_nodup hpl) (h.parentNameOf_spec hj hp)
      simp [resolveLoop, hget]

theorem resolve_node_canonical_list (s : AbstractExecutor) (names : List Str)
    (hnames : ∀ n ∈ names, n ≠ [] ∧ ∀ c ∈ n, c ≠ '/') :
    resolve_node s ('/' :: List.intercalate ['/'] names) =
      resolveLoop s (Node.DIR 0) [] names := by
  have hcond : ¬ ('/' :: List.intercalate ['/'] names = [] ∨
      ('/' :: List.intercalate ['/'] names).head? ≠ some '/' ∨
      ('/' :: List.intercalate ['/'] names ≠ ['/'] ∧
        ('/' :: List.intercalate ['/'] names).getLast? = some '/')) := by
    push_neg
    refine ⟨by simp, by simp, ?_⟩
    intro hne
    cases hcase : names with
    | nil =>
      exfalso
      apply hne
      rw [hcase]
      rfl
    | cons a as =>
      rw [hcase] at hnames
      exact getLast?_slash_intercalate (a :: as) (by simp) hnames
  unfold resolve_node
  rw [if_neg hcond, filter_splitChar_canonical names hnames]

theorem resolve_node_canonical {s : AbstractExecutor} (h : Inv s) {j : Nat}
    (hj : j < s.dirs.length) (hA : attachedNE s s.dirs.length j = true) :
    resolve_node s (resolve_dir_path s j) = .ok (Node.DIR j) := by
  have hnames := chainOf_names h j hj hA
  rw [show resolve_dir_path s j = '/' :: List.intercalate ['/'] (chainOf s j) from rfl]
  rw [resolve_node_canonical_list s (chainOf s j) hnames]
  exact resolveLoop_chain h j hj hA []

theorem resolve_dir_path_resolves {s : AbstractExecutor} (h : Inv s) {j : Nat}
    (hj : j < s.dirs.length) (hA : attachedNE s s.dirs.length j = true) :
    resolve_dir s (resolve_dir_path s j) = .ok j := by
  unfold resolve_dir
  rw [resolve_node_canonical h hj hA]

theorem make_path_eq_chain {s : AbstractExecutor} (h : Inv s) {p : Nat} (n : Str)
    (hp : p < s.dirs.length) (hA : attachedNE s s.dirs.length p = true) :
    make_path s p n = '/' :: List.intercalate ['/'] (chainOf s p ++ [n]) := by
  unfold make_path
  by_cases h0 : p = 0
  · subst h0
    rw [if_pos rfl, chainOf_zero h, List.nil_append, intercalate_singleton]
  · rw [if_neg h0]
    obtain ⟨q, hq⟩ := attachedNE_nonroot_parent h hp hA h0
    have hchain : chainOf s p ≠ [] := by
      rw [chainOf_step h hp hq]
      simp
    rw [show resolve_dir_path s p = '/' :: List.intercalate ['/'] (chainOf s p) from rfl]
    rw [intercalate_append_singleton ['/'] n (chainOf s p) hchain]
    simp [List.append_assoc]

theorem resolve_node_link {s : AbstractExecutor} (h : Inv s) {p f : Nat} {n : Str}
    (hp : p < s.dirs.length) (hA : attachedNE s s.dirs.length p = true)
    (hn : n ≠ []) (hmem : (n, Node.FILE f) ∈ (dirD s p).children) :
    resolve_node s (make_path s p n) = .ok (Node.FILE f) := by
  have hnsl := h.child_slashfree hp hmem
  have hnames : ∀ m ∈ chainOf s p ++ [n], m ≠ [] ∧ ∀ c ∈ m, c ≠ '/' := by
    intro m hm
    rcases List.mem_append.mp hm with h1 | h1
    · exact chainOf_names h p hp hA m h1
    · simp only [List.mem_singleton] at h1
      subst h1
      exact ⟨hn, hnsl⟩
  rw [make_path_eq_chain h n hp hA]
  rw [resolve_node_canonical_list s _ hnames, resolveLoop_append]
  rw [resolveLoop_chain h p hp hA]
  have hget : hmGet (dirD s p).children n = some (Node.FILE f) :=
    hmGet_eq_some_of_mem (h.keys_nodup hp) hmem
  simp [resolveLoop, hget]

/-! ### `resolve_file_path`: sort lemmas and claim C4 -/

theorem mem_insertSorted (x a : Str) : ∀ l : List Str,
    (a ∈ insertSorted x l ↔ a = x ∨ a ∈ l) := by
  intro l
  induction l with
  | nil => simp [insertSorted]
  | cons y ys ih =>
    by_cases h : lexLe x y = true
    · simp [insertSorted, h]
    · simp only [insertSorted, if_neg h, List.mem_cons, ih]
      tauto

theorem insertSorted_perm (x : Str) : ∀ l : List Str,
    List.Perm (insertSorted x l) (x :: l) := by
  intro l
  induction l with
  | nil => exact List.Perm.refl _
  | cons y ys ih =>
    by_cases h : lexLe x y = true
    · rw [insertSorted, if_pos h]
    · rw [insertSorted, if_neg h]
      exact List.Perm.trans (ih.cons y) (List.Perm.swap x y ys)

theorem sortStrs_perm : ∀ l : List Str, List.Perm (sortStrs l) l := by
  intro l
  induction l with
  | nil => exact List.Perm.refl _
  | cons x xs ih =>
    rw [sortStrs]
    exact List.Perm.trans (insertSorted_perm x (sortStrs xs)) (ih.cons x)

theorem sortStrs_length (l : List Str) : (sortStrs l).length = l.length :=
  (sortStrs_perm l).length_eq

theorem insertSorted_sorted (x : Str) : ∀ l : List Str,
    List.Pairwise (fun a b => lexLe a b = true) l →
    List.Pairwise (fun a b => lexLe a b = true) (insertSorted x l) := by
  intro l
  induction l with
  | nil => intro _; simp [insertSorted]
  | cons y ys ih =>
    intro hp
    rw [List.pairwise_cons] at hp
    by_cases h : lexLe x y = true
    · rw [insertSorted, if_pos h]
      rw [List.pairwise_cons]
      refine ⟨?_, List.pairwise_cons.mpr hp⟩
      intro a ha
      rcases List.mem_cons.mp ha with rfl | ha
      · exact h
      · exact lexLe_trans h (hp.1 a ha)
    · rw [insertSorted, if_neg h]
      rw [List.pairwise_cons]
      refine ⟨?_, ih hp.2⟩
      intro a ha
      rcases (mem_insertSorted x a ys).mp ha with rfl | ha
      · rcases lexLe_total a y with h2 | h2
        · exact absurd h2 h
        · exact h2
      · exact hp.1 a ha

theorem sortStrs_sorted : ∀ l : List Str,
    List.Pairwise (fun a b => lexLe a b = true) (sortStrs l) := by
  intro l
  induction l with
  | nil => simp [sortStrs]
  | cons x xs ih =>
    rw [sortStrs]
    exact insertSorted_sorted x (sortStrs xs) ih

/-- C4 (corrected): on an invariant state whose link names are all
non-empty, `resolve_file_path f` is sorted by the string order, its length
is the total number of links to `f` (the sum over `f.parents` of the number
of child entries referencing `FILE f` — not `|f.parents|`, which undercounts
when one directory holds several links), and every returned path resolves
back to `FILE f`. -/
theorem C4_resolve_file_path {s : AbstractExecutor} (h : Inv s) (hn : NamesNonempty s)
    {f : Nat} (hf : f < s.files.length) :
    List.Pairwise (fun a b => lexLe a b = true) (resolve_file_path s f) ∧
    (resolve_file_path s f).length =
      ((fileD s f).parents.map fun d =>
        ((dirD s d).children.filter fun e => decide (e.2 = Node.FILE f)).length).sum ∧
    ∀ p ∈ resolve_file_path s f, resolve_node s p = .ok (Node.FILE f) := by
  refine ⟨sortStrs_sorted _, ?_, ?_⟩
  · unfold resolve_file_path
    rw [sortStrs_length, length_flatMap_sum]
    congr 1
    apply List.map_congr_left
    intro d _
    rw [List.length_map]
  · intro p hp
    unfold resolve_file_path at hp
    rw [(sortStrs_perm _).mem_iff, List.mem_flatMap] at hp
    obtain ⟨d, hd, hp2⟩ := hp
    rw [List.mem_map] at hp2
    obtain ⟨e, he, rfl⟩ := hp2
    rw [List.mem_filter] at he
    obtain ⟨hech, hee⟩ := he
    simp only [decide_eq_true_eq] at hee
    obtain ⟨nm, v⟩ := e
    cases hee
    have hfp := h.file_parent hf hd
    exact resolve_node_link h hfp.1 hfp.2.1 (hn d hfp.1 _ hech) hech

/-- C4 counterexample to the claim as stated: after `create("/a")` and
`hardlink("/a", "/b")` the file has two link paths but one parent directory,
so the length is not `|f.parents|`; and after `mkdir("/c")`, `create("/c/")`
the file's one link has an empty name, so its rendered path `"/c/"` does not
resolve back (it is rejected as invalid). -/
theorem C4_counterexample_hardlink_and_empty_name :
    ((resolve_file_path (stFrom [Operation.CREATE ("/a".data) [],
        Operation.HARDLINK ("/a".data) ("/b".data)]) 0).length = 2 ∧
      (fileD (stFrom [Operation.CREATE ("/a".data) [],
        Operation.HARDLINK ("/a".data) ("/b".data)]) 0).parents.length = 1) ∧
    (resolve_file_path (stFrom [Operation.MKDIR ("/c".data) [],
        Operation.CREATE ("/c/".data) []]) 0 = [("/c/".data)] ∧
      resolve_node (stFrom [Operation.MKDIR ("/c".data) [],
        Operation.CREATE ("/c/".data) []]) ("/c/".data) =
        .error (.InvalidPath ("/c/".data))) := by
  decide

/-- C4 witness: the corrected statement applied to the state after
`create("/a")`, file index 0. -/
theorem C4_resolve_file_path_witness :
    Inv (stFrom [Operation.CREATE ("/a".data) []]) ∧
    NamesNonempty (stFrom [Operation.CREATE ("/a".data) []]) ∧
    0 < (stFrom [Operation.CREATE ("/a".data) []]).files.length ∧
    (List.Pairwise (fun a b => lexLe a b = true)
        (resolve_file_path (stFrom [Operation.CREATE ("/a".data) []]) 0) ∧
      (resolve_file_path (stFrom [Operation.CREATE ("/a".data) []]) 0).length =
        ((fileD (stFrom [Operation.CREATE ("/a".data) []]) 0).parents.map fun d =>
          ((dirD (stFrom [Operation.CREATE ("/a".data) []]) d).children.filter
            fun e => decide (e.2 = Node.FILE 0)).length).sum ∧
      ∀ p ∈ resolve_file_path (stFrom [Operation.CREATE ("/a".data) []]) 0,
        resolve_node (stFrom [Operation.CREATE ("/a".data) []]) p =
          .ok (Node.FILE 0)) :=
  ⟨by decide, by decide, by decide,
    C4_resolve_file_path (by decide) (by decide) (by decide)⟩

/-! ### Small state-update lemmas -/

theorem dirD_detach_self (s : AbstractExecutor) (i : Nat) :
    dirD (detachDir s i) i = { parent := none, children := [] } := by
  unfold detachDir updDir dirD
  dsimp only
  by_cases h : i < s.dirs.length
  · rw [getD_set_same _ _ _ _ h]
  · rw [List.set_eq_of_length_le (by omega), List.getD_eq_default _ _ (by omega)]

theorem dirD_detach_other (s : AbstractExecutor) {i j : Nat} (h : j ≠ i) :
    dirD (detachDir s i) j = dirD s j :=
  getD_set_other _ _ _ _ _ h

theorem detach_dirs_length (s : AbstractExecutor) (i : Nat) :
    (detachDir s i).dirs.length = s.dirs.length := by
  simp [detachDir, updDir]

theorem detach_files (s : AbstractExecutor) (i : Nat) :
    (detachDir s i).files = s.files := rfl

theorem detach_recording (s : AbstractExecutor) (i : Nat) :
    (detachDir s i).recording = s.recording := rfl

theorem updFile_dirs (s : AbstractExecutor) (i : Nat) (f : File → File) :
    (updFile s i f).dirs = s.dirs := rfl

theorem updFile_recording (s : AbstractExecutor) (i : Nat) (f : File → File) :
    (updFile s i f).recording = s.recording := rfl

theorem updFile_files_length (s : AbstractExecutor) (i : Nat) (f : File → File) :
    (updFile s i f).files.length = s.files.length := by
  simp [updFile]

theorem fileD_updFile_any (s : AbstractExecutor) (i : Nat) (f : File → File) (k : Nat) :
    fileD (updFile s i f) k =
      if k = i ∧ i < s.files.length then f (fileD s i) else fileD s k := by
  by_cases h1 : k = i
  · subst h1
    by_cases h2 : k < s.files.length
    · rw [if_pos ⟨rfl, h2⟩, fileD_updFile_same s k f h2]
    · rw [if_neg (by tauto)]
      unfold updFile fileD
      rw [List.set_eq_of_length_le (by omega)]
  · rw [if_neg (by tauto)]
    exact fileD_updFile_other s i k f h1

theorem hmGet_hmRemove_same (l : List (Str × Node)) (k : Str) :
    hmGet (hmRemove l k) k = none := by
  rw [hmGet_eq_none_iff]
  intro v hv
  unfold hmRemove at hv
  rw [List.mem_filter] at hv
  simp at hv

/-! ### Ancestor chains -/

theorem ancChain_fuel_stable {s : AbstractExecutor} (h : Inv s) :
    ∀ j, j < s.dirs.length → ∀ f1 f2, j < f1 → j < f2 →
      ancChain s f1 j = ancChain s f2 j := by
  intro j
  induction j using Nat.strong_induction_on with
  | _ j ih =>
    intro hj f1 f2 h1 h2
    cases f1 with
    | zero => omega
    | succ a =>
      cases f2 with
      | zero => omega
      | succ b =>
        simp only [ancChain]
        cases hp : (dirD s j).parent with
        | none => rfl
        | some p =>
          have hpj := h.parent_lt hj hp
          dsimp only
          rw [ih p hpj (lt_trans hpj hj) a b (by omega) (by omega)]

theorem self_mem_ancChain (s : AbstractExecutor) (f j : Nat) : j ∈ ancChain s f j := by
  cases f <;> simp [ancChain]

theorem ancChain_parent {s : AbstractExecutor} (h : Inv s) {j p : Nat}
    (hj : j < s.dirs.length) (hp : (dirD s j).parent = some p) :
    ancChain s s.dirs.length j = j :: ancChain s s.dirs.length p := by
  have hpj := h.parent_lt hj hp
  cases hl : s.dirs.length with
  | zero => omega
  | succ m =>
    conv_lhs => rw [ancChain]
    rw [hp]
    dsimp only
    rw [ancChain_fuel_stable h p (by omega) m (m + 1) (by omega) (by omega)]

theorem ancChain_root {s : AbstractExecutor} (h : Inv s) {j : Nat}
    (hj : j < s.dirs.length) (hp : (dirD s j).parent = none) :
    ancChain s s.dirs.length j = [j] := by
  cases hl : s.dirs.length with
  | zero => omega
  | succ m =>
    simp only [ancChain]
    rw [hp]

theorem anc_le {s : AbstractExecutor} (h : Inv s) :
    ∀ j, j < s.dirs.length → ∀ m ∈ ancChain s s.dirs.length j, m ≤ j := by
  intro j
  induction j using Nat.strong_induction_on with
  | _ j ih =>
    intro hj m hm
    cases hp : (dirD s j).parent with
    | none =>
      rw [ancChain_root h hj hp] at hm
      simp only [List.mem_singleton] at hm
      omega
    | some p =>
      have hpj := h.parent_lt hj hp
      rw [ancChain_parent h hj hp] at hm
      rcases List.mem_cons.mp hm with rfl | hm
      · exact le_refl _
      · have := ih p hpj (lt_trans hpj hj) m hm
        omega

theorem chain_trans {s : AbstractExecutor} (h : Inv s) :
    ∀ j, j < s.dirs.length → ∀ m ∈ ancChain s s.dirs.length j,
      ∀ x ∈ ancChain s s.dirs.length m, x ∈ ancChain s s.dirs.length j := by
  intro j
  induction j using Nat.strong_induction_on with
  | _ j ih =>
    intro hj m hm x hx
    cases hp : (dirD s j).parent with
    | none =>
      rw [ancChain_root h hj hp] at hm
      simp only [List.mem_singleton] at hm
      rw [hm] at hx
      exact hx
    | some p =>
      have hpj := h.parent_lt hj hp
      rw [ancChain_parent h hj hp] at hm ⊢
      rcases List.mem_cons.mp hm with hm1 | hm1
      · rw [hm1] at hx
        rw [ancChain_parent h hj hp] at hx
        exact hx
      · exact List.mem_cons_of_mem _ (ih p hpj (lt_trans hpj hj) m hm1 x hx)

theorem chain_linear {s : AbstractExecutor} (h : Inv s) :
    ∀ j, j < s.dirs.length → ∀ a ∈ ancChain s s.dirs.length j,
      ∀ b ∈ ancChain s s.dirs.length j,
        a ∈ ancChain s s.dirs.length b ∨ b ∈ ancChain s s.dirs.length a := by
  intro j
  induction j using Nat.strong_induction_on with
  | _ j ih =>
    intro hj a ha b hb
    cases hp : (dirD s j).parent with
    | none =>
      rw [ancChain_root h hj hp] at ha hb
      simp only [List.mem_singleton] at ha hb
      rw [ha, hb]
      left
      exact self_mem_ancChain s _ j
    | some p =>
      have hpj := h.parent_lt hj hp
      rw [ancChain_parent h hj hp] at ha hb
      rcases List.mem_cons.mp ha with ha1 | ha1
      · rw [ha1]
        right
        rw [ancChain_parent h hj hp]
        exact hb
      · rcases List.mem_cons.mp hb with hb1 | hb1
        · rw [hb1]
          left
          rw [ancChain_parent h hj hp]
          exact List.mem_cons_of_mem _ ha1
        · exact ih p hpj (lt_trans hpj hj) a ha1 b hb1

/-! ### Subtree lemmas -/

theorem subtreeDirs_eq {s : AbstractExecutor} (h : Inv s) {c : Nat}
    (hc : c < s.dirs.length) :
    subtreeDirs s c = c :: (dirD s c).children.flatMap (fun e =>
      match e.2 with
      | Node.DIR m => subtreeDirs s m
      | Node.FILE _ => []) := by
  conv_lhs => rw [subtreeDirs]
  congr 1
  rw [List.flatMap_def, List.flatMap_def]
  congr 1
  apply List.map_congr_left
  intro e he
  obtain ⟨nm, v⟩ := e
  dsimp only
  cases v with
  | FILE i => rfl
  | DIR m =>
    dsimp only
    have hm := h.child_dir hc he
    have hcm : c < m := h.parent_lt hm.1 hm.2
    rw [dif_pos ⟨hcm, hm.1⟩]

theorem subtree_lb {s : AbstractExecutor} (h : Inv s) :
    ∀ n c, s.dirs.length - c ≤ n → c < s.dirs.length →
      ∀ j ∈ subtreeDirs s c, c ≤ j ∧ j < s.dirs.length := by
  intro n
  induction n with
  | zero => intro c hn hc; omega
  | succ n ih =>
    intro c hn hc j hj
    rw [subtreeDirs_eq h hc] at hj
    rcases List.mem_cons.mp hj with rfl | hj
    · exact ⟨le_refl _, hc⟩
    · rw [List.mem_flatMap] at hj
      obtain ⟨e, he, hje⟩ := hj
      obtain ⟨nm, v⟩ := e
      cases v with
      | FILE i => cases hje
      | DIR m =>
        have hm := h.child_dir hc he
        have hcm : c < m := h.parent_lt hm.1 hm.2
        have hr := ih m (by omega) hm.1 j hje
        exact ⟨by omega, hr.2⟩

theorem self_mem_subtree {s : AbstractExecutor} (h : Inv s) {c : Nat}
    (hc : c < s.dirs.length) : c ∈ subtreeDirs s c := by
  rw [subtreeDirs_eq h hc]
  exact List.mem_cons_self _ _

theorem subtree_child {s : AbstractExecutor} (h : Inv s) :
    ∀ n c, s.dirs.length - c ≤ n → c < s.dirs.length →
      ∀ p ∈ subtreeDirs s c, ∀ nm m, (nm, Node.DIR m) ∈ (dirD s p).children →
        m ∈ subtreeDirs s c := by
  intro n
  induction n with
  | zero => intro c hn hc; omega
  | succ n ih =>
    intro c hn hc p hp nm m hmem
    rw [subtreeDirs_eq h hc] at hp ⊢
    rcases List.mem_cons.mp hp with rfl | hp
    · refine List.mem_cons_of_mem _ (List.mem_flatMap.mpr ⟨(nm, Node.DIR m), hmem, ?_⟩)
      have hm := h.child_dir hc hmem
      exact self_mem_subtree h hm.1
    · rw [List.mem_flatMap] at hp
      obtain ⟨e, he, hpe⟩ := hp
      obtain ⟨nm2, v⟩ := e
      cases v with
      | FILE i => cases hpe
      | DIR m2 =>
        have hm2 := h.child_dir hc he
        have hcm2 : c < m2 := h.parent_lt hm2.1 hm2.2
        refine List.mem_cons_of_mem _ (List.mem_flatMap.mpr ⟨(nm2, Node.DIR m2), he, ?_⟩)
        exact ih m2 (by omega) hm2.1 p hpe nm m hmem

theorem chain_of_subtree {s : AbstractExecutor} (h : Inv s) :
    ∀ n c, s.dirs.length - c ≤ n → c < s.dirs.length →
      ∀ j ∈ subtreeDirs s c, c ∈ ancChain s s.dirs.length j := by
  intro n
  induction n with
  | zero => intro c hn hc; omega
  | succ n ih =>
    intro c hn hc j hj
    rw [subtreeDirs_eq h hc] at hj
    rcases List.mem_cons.mp hj with rfl | hj
    · exact self_mem_ancChain s _ j
    · rw [List.mem_flatMap] at hj
      obtain ⟨e, he, hje⟩ := hj
      obtain ⟨nm, v⟩ := e
      cases v with
      | FILE i => cases hje
      | DIR m =>
        have hm := h.child_dir hc he
        have hcm : c < m := h.parent_lt hm.1 hm.2
        have hmj : m ∈ ancChain s s.dirs.length j := ih m (by omega) hm.1 j hje
        have hjl : j < s.dirs.length := (subtree_lb h n m (by omega) hm.1 j hje).2
        have hcm2 : c ∈ ancChain s s.dirs.length m := by
          rw [ancChain_parent h hm.1 hm.2]
          exact List.mem_cons_of_mem _ (self_mem_ancChain s _ c)
        exact chain_trans h j hjl m hmj c hcm2

theorem subtree_of_chain {s : AbstractExecutor} (h : Inv s) :
    ∀ j, j < s.dirs.length → ∀ c ∈ ancChain s s.dirs.length j,
      j ∈ subtreeDirs s c := by
  intro j
  induction j using Nat.strong_induction_on with
  | _ j ih =>
    intro hj c hc
    cases hp : (dirD s j).parent with
    | none =>
      rw [ancChain_root h hj hp] at hc
      simp only [List.mem_singleton] at hc
      subst hc
      exact self_mem_subtree h hj
    | some p =>
      have hpj := h.parent_lt hj hp
      rw [ancChain_parent h hj hp] at hc
      rcases List.mem_cons.mp hc with rfl | hc
      · exact self_mem_subtree h hj
      · have hcl : c < s.dirs.length := by
          have := anc_le h p (lt_trans hpj hj) c hc
          omega
        have hps : p ∈ subtreeDirs s c := ih p hpj (lt_trans hpj hj) c hc
        obtain ⟨nm, hnm⟩ := h.dir_exists hj hp
        exact subtree_child h s.dirs.length c (by omega) hcl p hps nm j hnm

theorem subtree_disjoint {s : AbstractExecutor} (h : Inv s) {m1 m2 : Nat}
    (h1 : m1 < s.dirs.length) (h2 : m2 < s.dirs.length)
    (hn1 : m1 ∉ subtreeDirs s m2) (hn2 : m2 ∉ subtreeDirs s m1) :
    ∀ j, j ∈ subtreeDirs s m1 → j ∉ subtreeDirs s m2 := by
  intro j hj1 hj2
  have hjl : j < s.dirs.length := (subtree_lb h s.dirs.length m1 (by omega) h1 j hj1).2
  have hc1 := chain_of_subtree h s.dirs.length m1 (by omega) h1 j hj1
  have hc2 := chain_of_subtree h s.dirs.length m2 (by omega) h2 j hj2
  rcases chain_linear h j hjl m1 hc1 m2 hc2 with hcc | hcc
  · exact hn2 (subtree_of_chain h m2 h2 m1 hcc)
  · exact hn1 (subtree_of_chain h m1 h1 m2 hcc)

theorem subtree_nodup {s : AbstractExecutor} (h : Inv s) :
    ∀ n c, s.dirs.length - c ≤ n → c < s.dirs.length → (subtreeDirs s c).Nodup := by
  intro n
  induction n with
  | zero => intro c hn hc; omega
  | succ n ih =>
    intro c hn hc
    rw [subtreeDirs_eq h hc]
    rw [List.nodup_cons]
    constructor
    · intro hmem
      rw [List.mem_flatMap] at hmem
      obtain ⟨e, he, hce⟩ := hmem
      obtain ⟨nm, v⟩ := e
      cases v with
      | FILE i => cases hce
      | DIR m =>
        have hm := h.child_dir hc he
        have hcm : c < m := h.parent_lt hm.1 hm.2
        have := (subtree_lb h n m (by omega) hm.1 c hce).1
        omega
    · rw [List.nodup_flatMap]
      constructor
      · intro e he
        obtain ⟨nm, v⟩ := e
        cases v with
        | FILE i => exact List.nodup_nil
        | DIR m =>
          have hm := h.child_dir hc he
          have hcm : c < m := h.parent_lt hm.1 hm.2
          exact ih m (by omega) hm.1
      · have hpw : List.Pairwise (fun e1 e2 : Str × Node => e1.1 ≠ e2.1)
            (dirD s c).children := by
          have hh := h.keys_nodup hc
          rw [List.Nodup, List.pairwise_map] at hh
          exact hh
        refine List.Pairwise.imp_of_mem ?_ hpw
        intro e1 e2 he1 he2 hne
        obtain ⟨n1, v1⟩ := e1
        obtain ⟨n2, v2⟩ := e2
        simp only [Function.onFun]
        cases v1 with
        | FILE i =>
          intro x hx1 hx2
          cases hx1
        | DIR m1 =>
          cases v2 with
          | FILE i =>
            intro x hx1 hx2
            cases hx2
          | DIR m2 =>
            have hm1 := h.child_dir hc he1
            have hm2 := h.child_dir hc he2
            have hmm : m1 ≠ m2 := by
              intro hval
              subst hval
              exact hne (h.dir_uniq hc hc he1 he2).2
            have hns1 : m1 ∉ subtreeDirs s m2 := by
              intro hin
              have hch := chain_of_subtree h s.dirs.length m2 (by omega) hm2.1 m1 hin
              rw [ancChain_parent h hm1.1 hm1.2] at hch
              rcases List.mem_cons.mp hch with hq | hq
              · exact hmm hq.symm
              · have := anc_le h c (by omega) m2 hq
                have hcm2 : c < m2 := h.parent_lt hm2.1 hm2.2
                omega
            have hns2 : m2 ∉ subtreeDirs s m1 := by
              intro hin
              have hch := chain_of_subtree h s.dirs.length m1 (by omega) hm1.1 m2 hin
              rw [ancChain_parent h hm2.1 hm2.2] at hch
              rcases List.mem_cons.mp hch with hq | hq
              · exact hmm hq
              · have := anc_le h c (by omega) m1 hq
                have hcm1 : c < m1 := h.parent_lt hm1.1 hm1.2
                omega
            intro x hx1 hx2
            exact subtree_disjoint h hm1.1 hm2.1 hns1 hns2 x hx1 hx2

/-! ### Queue bookkeeping for the removal BFS -/

theorem self_mem_subtree' (s : AbstractExecutor) (c : Nat) : c ∈ subtreeDirs s c := by
  rw [subtreeDirs]
  exact List.mem_cons_self _ _

theorem subtree_trans {s : AbstractExecutor} (h : Inv s) {c m p : Nat}
    (hc : c < s.dirs.length) (hm : m ∈ subtreeDirs s c) (hp : p ∈ subtreeDirs s m) :
    p ∈ subtreeDirs s c := by
  have hml : m < s.dirs.length := (subtree_lb h s.dirs.length c (by omega) hc m hm).2
  have hpl : p < s.dirs.length := (subtree_lb h s.dirs.length m (by omega) hml p hp).2
  have h1 : c ∈ ancChain s s.dirs.length m :=
    chain_of_subtree h s.dirs.length c (by omega) hc m hm
  have h2 : m ∈ ancChain s s.dirs.length p :=
    chain_of_subtree h s.dirs.length m (by omega) hml p hp
  exact subtree_of_chain h p hpl c (chain_trans h p hpl m h2 c h1)

theorem removedDirs_nil (s : AbstractExecutor) : removedDirs s [] = [] := rfl

theorem removedDirs_cons_file (s : AbstractExecutor) (pp i : Nat)
    (rest : List (Nat × Node)) :
    removedDirs s ((pp, Node.FILE i) :: rest) = removedDirs s rest := by
  simp [removedDirs]

theorem removedDirs_cons_dir (s : AbstractExecutor) (pp c : Nat)
    (rest : List (Nat × Node)) :
    removedDirs s ((pp, Node.DIR c) :: rest) =
      subtreeDirs s c ++ removedDirs s rest := by
  simp [removedDirs]

theorem removedDirs_append (s : AbstractExecutor) (q1 q2 : List (Nat × Node)) :
    removedDirs s (q1 ++ q2) = removedDirs s q1 ++ removedDirs s q2 := by
  simp [removedDirs]

theorem removedDirs_kids (s : AbstractExecutor) (c : Nat) (l : List (Str × Node)) :
    removedDirs s (l.map fun e => (c, e.2)) =
      l.flatMap fun e => match e.2 with
        | Node.DIR m => subtreeDirs s m
        | Node.FILE _ => [] := by
  unfold removedDirs
  rw [List.flatMap_map]

theorem fileD_default (s : AbstractExecutor) {k : Nat} (h : s.files.length ≤ k) :
    fileD s k = { parents := [] } := by
  unfold fileD
  rw [List.getD_eq_default _ _ h]

theorem kids_any_hits {s : AbstractExecutor} (h : Inv s) {c : Nat}
    (hc : c < s.dirs.length) (k p : Nat) :
    ((dirD s c).children.map fun e => (c, e.2)).any (hitsB s k p) =
      (decide (p ∈ subtreeDirs s c) &&
        ((dirD s p).children.any fun ch => decide (ch.2 = Node.FILE k))) := by
  rw [Bool.eq_iff_iff]
  simp only [List.any_eq_true, List.mem_map, Bool.and_eq_true, decide_eq_true_eq]
  constructor
  · rintro ⟨x, ⟨e, he, rfl⟩, hhit⟩
    obtain ⟨nm, v⟩ := e
    cases v with
    | FILE i =>
      simp only [hitsB, Bool.and_eq_true, decide_eq_true_eq] at hhit
      obtain ⟨hik, hcp⟩ := hhit
      subst hik
      subst hcp
      exact ⟨self_mem_subtree' s _, (nm, Node.FILE _), he, rfl⟩
    | DIR m =>
      simp only [hitsB, Bool.and_eq_true, decide_eq_true_eq] at hhit
      obtain ⟨hpm, hlink⟩ := hhit
      have hmc : m ∈ subtreeDirs s c := by
        rw [subtreeDirs_eq h hc]
        refine List.mem_cons_of_mem _ (List.mem_flatMap.mpr ⟨(nm, Node.DIR m), he, ?_⟩)
        exact self_mem_subtree' s m
      rw [List.any_eq_true] at hlink
      refine ⟨subtree_trans h hc hmc hpm, ?_⟩
      obtain ⟨ch, hch, hchv⟩ := hlink
      simp only [decide_eq_true_eq] at hchv
      exact ⟨ch, hch, hchv⟩
  · rintro ⟨hps, ch, hch, hchv⟩
    rw [subtreeDirs_eq h hc] at hps
    rcases List.mem_cons.mp hps with hpc | hps2
    · subst hpc
      refine ⟨(p, ch.2), ⟨ch, hch, rfl⟩, ?_⟩
      obtain ⟨nm, v⟩ := ch
      dsimp only at hchv
      subst hchv
      simp [hitsB]
    · rw [List.mem_flatMap] at hps2
      obtain ⟨e, he, hpe⟩ := hps2
      obtain ⟨nm, v⟩ := e
      cases v with
      | FILE i => cases hpe
      | DIR m =>
        refine ⟨(c, Node.DIR m), ⟨(nm, Node.DIR m), he, rfl⟩, ?_⟩
        simp only [hitsB, Bool.and_eq_true, decide_eq_true_eq]
        refine ⟨hpe, ?_⟩
        rw [List.any_eq_true]
        exact ⟨ch, hch, by simp [hchv]⟩

/-! ### The removal BFS, characterised -/

theorem bfs_spec {s : AbstractExecutor} (h : Inv s) :
    ∀ fuel (T : AbstractExecutor) (q : List (Nat × Node)),
      (removedDirs s q).Nodup →
      (∀ j ∈ removedDirs s q, j < s.dirs.length ∧ dirD T j = dirD s j) →
      q.length + ((removedDirs s q).map fun j => (dirD s j).children.length).sum ≤ fuel →
      (bfs fuel T q).dirs.length = T.dirs.length ∧
      (bfs fuel T q).files.length = T.files.length ∧
      (bfs fuel T q).recording = T.recording ∧
      (∀ j, j ∉ removedDirs s q → dirD (bfs fuel T q) j = dirD T j) ∧
      (∀ j ∈ removedDirs s q, dirD (bfs fuel T q) j = { parent := none, children := [] }) ∧
      (∀ k, (fileD (bfs fuel T q) k).parents =
        (fileD T k).parents.filter fun p => !(q.any (hitsB s k p))) := by
  intro fuel
  induction fuel with
  | zero =>
    intro T q hnd hrange hfuel
    have hq : q = [] := by
      cases q with
      | nil => rfl
      | cons e r => simp at hfuel
    subst hq
    refine ⟨rfl, rfl, rfl, fun j _ => rfl, fun j hj => ?_, fun k => ?_⟩
    · simp [removedDirs] at hj
    · simp [bfs]
  | succ fuel ih =>
    intro T q hnd hrange hfuel
    cases q with
    | nil =>
      refine ⟨rfl, rfl, rfl, fun j _ => rfl, fun j hj => ?_, fun k => ?_⟩
      · simp [removedDirs] at hj
      · simp [bfs]
    | cons e rest =>
      obtain ⟨pp, node⟩ := e
      cases node with
      | FILE i =>
        have hstep : bfs (fuel + 1) T ((pp, Node.FILE i) :: rest) =
            bfs fuel (updFile T i fun f => { f with parents := hsRemove f.parents pp })
              rest := rfl
        rw [hstep, removedDirs_cons_file]
        rw [removedDirs_cons_file] at hnd hrange hfuel
        simp only [List.length_cons] at hfuel
        obtain ⟨ih1, ih2, ih3, ih4, ih5, ih6⟩ :=
          ih (updFile T i fun f => { f with parents := hsRemove f.parents pp }) rest
            hnd (fun j hj => ⟨(hrange j hj).1, (hrange j hj).2⟩) (by omega)
        refine ⟨ih1, ?_, ih3, ih4, ih5, fun k => ?_⟩
        · rw [ih2, updFile_files_length]
        · rw [ih6 k, fileD_updFile_any]
          by_cases hcond : k = i ∧ i < T.files.length
          · rw [if_pos hcond]
            obtain ⟨hk, hi⟩ := hcond
            subst hk
            show ((fileD T k).parents.filter fun y => decide (y ≠ pp)).filter _ = _
            rw [List.filter_filter]
            apply List.filter_congr
            intro x hx
            by_cases hxp : x = pp
            · subst hxp
              simp [List.any_cons, hitsB]
            · have hpx : ¬pp = x := fun hh => hxp hh.symm
              simp [List.any_cons, hitsB, hxp, hpx]
          · rw [if_neg hcond]
            apply List.filter_congr
            intro x hx
            by_cases hik : i = k
            · subst hik
              have hlen : T.files.length ≤ i := by
                rcases Nat.lt_or_ge i T.files.length with hlt | hge
                · exact absurd ⟨rfl, hlt⟩ hcond
                · exact hge
              rw [fileD_default T hlen] at hx
              cases hx
            · simp [List.any_cons, hitsB, hik]
      | DIR c =>
        have hc : c < s.dirs.length ∧ dirD T c = dirD s c := by
          apply hrange
          rw [removedDirs_cons_dir]
          exact List.mem_append_left _ (self_mem_subtree' s c)
        have hstep : bfs (fuel + 1) T ((pp, Node.DIR c) :: rest) =
            bfs fuel (detachDir T c)
              (rest ++ (dirD T c).children.map fun e => (c, e.2)) := rfl
        rw [hstep, hc.2]
        have hsub := subtreeDirs_eq h hc.1
        have hperm : List.Perm (removedDirs s ((pp, Node.DIR c) :: rest))
            (c :: removedDirs s
              (rest ++ (dirD s c).children.map fun e => (c, e.2))) := by
          rw [removedDirs_cons_dir, removedDirs_append, removedDirs_kids, hsub]
          rw [List.cons_append]
          exact List.Perm.cons c List.perm_append_comm
        have hndc := hperm.nodup hnd
        rw [List.nodup_cons] at hndc
        have hrangeNew : ∀ j ∈ removedDirs s
            (rest ++ (dirD s c).children.map fun e => (c, e.2)),
            j < s.dirs.length ∧ dirD (detachDir T c) j = dirD s j := by
          intro j hj
          have hjOld := hperm.mem_iff.mpr (List.mem_cons_of_mem _ hj)
          have hr := hrange j hjOld
          refine ⟨hr.1, ?_⟩
          have hjc : j ≠ c := by
            intro hje
            subst hje
            exact hndc.1 hj
          rw [dirD_detach_other T hjc, hr.2]
        have hfuelNew : (rest ++ (dirD s c).children.map fun e => (c, e.2)).length +
            ((removedDirs s (rest ++ (dirD s c).children.map fun e => (c, e.2))).map
              fun j => (dirD s j).children.length).sum ≤ fuel := by
          have hsums := (hperm.map fun j => (dirD s j).children.length).sum_eq
          simp only [List.map_cons, List.sum_cons] at hsums
          simp only [List.length_cons] at hfuel
          simp only [List.length_append, List.length_map]
          omega
        obtain ⟨ih1, ih2, ih3, ih4, ih5, ih6⟩ :=
          ih (detachDir T c) (rest ++ (dirD s c).children.map fun e => (c, e.2))
            hndc.2 hrangeNew hfuelNew
        refine ⟨?_, ih2, ih3, ?_, ?_, fun k => ?_⟩
        · rw [ih1, detach_dirs_length]
        · intro j hj
          have hjNew : j ∉ removedDirs s
              (rest ++ (dirD s c).children.map fun e => (c, e.2)) :=
            fun hjn => hj (hperm.mem_iff.mpr (List.mem_cons_of_mem _ hjn))
          have hjc : j ≠ c := by
            intro hje
            subst hje
            apply hj
            rw [removedDirs_cons_dir]
            exact List.mem_append_left _ (self_mem_subtree' s _)
          rw [ih4 j hjNew, dirD_detach_other T hjc]
        · intro j hj
          have hjm := hperm.mem_iff.mp hj
          rcases List.mem_cons.mp hjm with hjc | hjn
          · rw [hjc, ih4 c hndc.1, dirD_detach_self]
          · exact ih5 j hjn
        · rw [ih6 k]
          apply List.filter_congr
          intro x hx
          rw [List.any_append, List.any_cons, kids_any_hits h hc.1 k x]
          show (!(rest.any (hitsB s k x) || _) : Bool) = _
          rw [Bool.or_comm]
          rfl

/-! ### Fuel accounting -/

theorem sum_le_of_subperm {l1 l2 : List Nat} (h : l1.Subperm l2) : l1.sum ≤ l2.sum := by
  obtain ⟨l, hperm, hsub⟩ := h
  calc l1.sum = l.sum := hperm.sum_eq.symm
    _ ≤ l2.sum := hsub.sum_le_sum (fun a _ => Nat.zero_le a)

theorem map_getD_range_sum (g : Dir → Nat) (dflt : Dir) :
    ∀ L : List Dir,
      ((List.range L.length).map fun j => g (L.getD j dflt)).sum = (L.map g).sum := by
  intro L
  induction L with
  | nil => rfl
  | cons a as ih =>
    rw [List.length_cons, List.range_succ_eq_map, List.map_cons, List.map_map,
      List.sum_cons, List.map_cons, List.sum_cons]
    exact congrArg (fun z => g a + z) ih

theorem sum_getD_le (L : List Dir) (ix : List Nat) (hnd : ix.Nodup)
    (hmem : ∀ j ∈ ix, j < L.length) (g : Dir → Nat) (dflt : Dir) :
    (ix.map fun j => g (L.getD j dflt)).sum ≤ (L.map g).sum := by
  have h1 : ix.Subperm (List.range L.length) :=
    hnd.subperm (fun j hj => List.mem_range.mpr (hmem j hj))
  obtain ⟨l, hperm, hsub⟩ := h1
  have hle : (l.map fun j => g (L.getD j dflt)).sum ≤
      ((List.range L.length).map fun j => g (L.getD j dflt)).sum :=
    (hsub.map _).sum_le_sum (fun a _ => Nat.zero_le a)
  have heq : (l.map fun j => g (L.getD j dflt)).sum =
      (ix.map fun j => g (L.getD j dflt)).sum :=
    (hperm.map _).sum_eq
  calc (ix.map fun j => g (L.getD j dflt)).sum
      = (l.map fun j => g (L.getD j dflt)).sum := heq.symm
    _ ≤ ((List.range L.length).map fun j => g (L.getD j dflt)).sum := hle
    _ = (L.map g).sum := map_getD_range_sum g dflt L

/-! ### Resolution walks: bounds and stability -/

theorem resolveLoop_file_ne_dir (s : AbstractExecutor) (k : Nat) (acc : Str)
    (xs : List Str) (t : Nat) :
    resolveLoop s (Node.FILE k) acc xs ≠ .ok (Node.DIR t) := by
  cases xs <;> simp [resolveLoop]

theorem resolveLoop_ok_dir_lt {s : AbstractExecutor} (h : Inv s) :
    ∀ xs j acc t, j < s.dirs.length →
      resolveLoop s (Node.DIR j) acc xs = .ok (Node.DIR t) →
      t < s.dirs.length ∧ j ≤ t ∧ (xs ≠ [] → j < t) := by
  intro xs
  induction xs with
  | nil =>
    intro j acc t hj hr
    simp only [resolveLoop, Except.ok.injEq, Node.DIR.injEq] at hr
    subst hr
    exact ⟨hj, le_refl _, fun hne => absurd rfl hne⟩
  | cons x rest ihx =>
    intro j acc t hj hr
    simp only [resolveLoop] at hr
    cases hg : hmGet (dirD s j).children x with
    | none =>
      simp only [hg] at hr
      exact absurd hr (by simp)
    | some nxt =>
      simp only [hg] at hr
      cases nxt with
      | FILE k => exact absurd hr (resolveLoop_file_ne_dir s k _ rest t)
      | DIR m =>
        have hmem := hmGet_eq_some_mem hg
        have hmd := h.child_dir hj hmem
        have hjm : j < m := h.parent_lt hmd.1 hmd.2
        have hr2 := ihx m _ t hmd.1 hr
        exact ⟨hr2.1, by omega, fun _ => by omega⟩

theorem resolveLoop_ok_dir_congr {s s' : AbstractExecutor} (h : Inv s) {t : Nat}
    (hstab : ∀ i, i < t → (dirD s' i).children = (dirD s i).children) :
    ∀ xs j acc, j < s.dirs.length →
      resolveLoop s (Node.DIR j) acc xs = .ok (Node.DIR t) →
      resolveLoop s' (Node.DIR j) acc xs = .ok (Node.DIR t) := by
  intro xs
  induction xs with
  | nil => intro j acc hj hr; exact hr
  | cons x rest ihx =>
    intro j acc hj hr
    have hr0 := hr
    have hjt : j < t := (resolveLoop_ok_dir_lt h (x :: rest) j acc t hj hr0).2.2 (by simp)
    simp only [resolveLoop] at hr ⊢
    cases hg : hmGet (dirD s j).children x with
    | none =>
      simp only [hg] at hr
      exact absurd hr (by simp)
    | some nxt =>
      simp only [hg] at hr
      rw [hstab j hjt]
      simp only [hg]
      cases nxt with
      | FILE k => exact absurd hr (resolveLoop_file_ne_dir s k _ rest t)
      | DIR m =>
        have hmem := hmGet_eq_some_mem hg
        have hmd := h.child_dir hj hmem
        exact ihx m _ hmd.1 hr

/-! ### Unfolding `remove` on a directory -/

theorem resolve_node_ok_pieces {s : AbstractExecutor} {p : Str} {node : Node}
    (h : resolve_node s p = .ok node) :
    ¬(p = [] ∨ p.head? ≠ some '/' ∨ (p ≠ ['/'] ∧ p.getLast? = some '/')) ∧
    resolveLoop s (Node.DIR 0) [] ((splitChar '/' p).filter fun sg => decide (sg ≠ [])) =
      .ok node := by
  by_cases hg : (p = [] ∨ p.head? ≠ some '/' ∨ (p ≠ ['/'] ∧ p.getLast? = some '/'))
  · unfold resolve_node at h
    rw [if_pos hg] at h
    cases h
  · unfold resolve_node at h
    rw [if_neg hg] at h
    exact ⟨hg, h⟩

theorem resolve_dir_ok_node {s : AbstractExecutor} {p : Str} {t : Nat}
    (h : resolve_dir s p = .ok t) : resolve_node s p = .ok (Node.DIR t) := by
  unfold resolve_dir at h
  cases hr : resolve_node s p with
  | error e => rw [hr] at h; cases h
  | ok node =>
    rw [hr] at h
    cases node with
    | FILE f => cases h
    | DIR dd =>
      simp only [Except.ok.injEq] at h
      rw [h]

theorem remove_dir_eq {s s2 : AbstractExecutor} {path : Str} {d parentIdx : Nat}
    (hres : resolve_node s path = .ok (Node.DIR d))
    (hpd : resolve_dir s (split_path path).1 = .ok parentIdx)
    (hd0 : d ≠ 0)
    (hs2 : s2 = updDir { s with recording := s.recording ++ [Operation.REMOVE path] }
      parentIdx fun dd => { dd with children := hmRemove dd.children (split_path path).2 }) :
    remove s path = (.ok (), bfs (s2.dirs.length + totalChildren s2) (detachDir s2 d)
      ((dirD s2 d).children.map fun e => (d, e.2))) := by
  subst hs2
  unfold remove
  rw [hres]
  dsimp only
  rw [hpd]
  dsimp only
  rw [if_neg hd0]

theorem split_path_parts {path : Str} {a b : Str}
    (hab : path = a ++ '/' :: b) (hb : '/' ∉ b) :
    split_path path = (if a = [] then ['/'] else a, b) := by
  unfold split_path
  rw [hab, rfindIdx_append_cons '/' a b hb]
  dsimp only
  have h1 : (a ++ '/' :: b).take a.length = a := List.take_left a _
  have h2 : (a ++ '/' :: b).drop (a.length + 1) = b := by
    rw [show a ++ '/' :: b = (a ++ ['/']) ++ b from by simp,
      show a.length + 1 = (a ++ ['/']).length from by simp]
    exact List.drop_left _ _
  rw [h1, h2]
  by_cases ha : a = []
  · rw [if_pos ha, if_pos ha]
  · rw [if_neg ha, if_neg ha]

theorem segs_split {path : Str} {a b : Str}
    (hab : path = a ++ '/' :: b) (hb : '/' ∉ b) (hbne : b ≠ []) :
    (splitChar '/' path).filter (fun sg => decide (sg ≠ [])) =
      ((splitChar '/' (split_path path).1).filter fun sg => decide (sg ≠ [])) ++ [b] := by
  rw [split_path_parts hab hb]
  rw [hab, splitChar_append, List.filter_append, splitChar_of_not_mem hb]
  rw [show ([b].filter fun sg => decide (sg ≠ [])) = [b] from by simp [hbne]]
  congr 1
  by_cases ha : a = []
  · subst ha
    rw [if_pos rfl]
    rfl
  · rw [if_neg ha]

/-- The general part of claim C3: a successful `remove` of a directory
path detaches the whole subtree, removes exactly the subtree's directories
from every file's parent set (files survive), and makes the removed path
and every path extending it segment-wise unresolvable (`NotFound`). -/
theorem remove_dir_spec {s : AbstractExecutor} {path : Str} {d : Nat}
    (h : Inv s)
    (hres : resolve_node s path = .ok (Node.DIR d))
    (hok : (remove s path).1 = .ok ()) :
    (remove s path).2.files.length = s.files.length ∧
    (∀ j ∈ subtreeDirs s d,
      (dirD (remove s path).2 j).parent = none ∧
      (dirD (remove s path).2 j).children = []) ∧
    (∀ k, (fileD (remove s path).2 k).parents =
      (fileD s k).parents.filter fun p => decide (p ∉ subtreeDirs s d)) ∧
    (∀ q : Str,
      ¬(q = [] ∨ q.head? ≠ some '/' ∨ (q ≠ ['/'] ∧ q.getLast? = some '/')) →
      ((splitChar '/' path).filter fun sg => decide (sg ≠ [])) <+:
        ((splitChar '/' q).filter fun sg => decide (sg ≠ [])) →
      ∃ acc, resolve_node (remove s path).2 q = .error (.NotFound acc)) := by
  -- d is not the root
  have hd0 : d ≠ 0 := by
    intro h0
    subst h0
    unfold remove at hok
    rw [hres] at hok
    dsimp only at hok
    cases hpd : resolve_dir s (split_path path).1 with
    | error e =>
      rw [hpd] at hok
      simp at hok
    | ok pi =>
      rw [hpd] at hok
      dsimp only at hok
      rw [if_pos rfl] at hok
      simp at hok
  -- the parent directory resolves
  obtain ⟨parentIdx, hpd⟩ : ∃ pi, resolve_dir s (split_path path).1 = .ok pi := by
    cases hpd : resolve_dir s (split_path path).1 with
    | ok pi => exact ⟨pi, rfl⟩
    | error e =>
      exfalso
      unfold remove at hok
      rw [hres] at hok
      dsimp only at hok
      rw [hpd] at hok
      simp at hok
  obtain ⟨hval, hloopPath⟩ := resolve_node_ok_pieces hres
  obtain ⟨hval1, hloopPar⟩ := resolve_node_ok_pieces (resolve_dir_ok_node hpd)
  push_neg at hval
  obtain ⟨hvne, hvhead, hvlast⟩ := hval
  -- split the path at its last slash
  have hslash : '/' ∈ path := by
    cases path with
    | nil => exact absurd rfl hvne
    | cons c0 rest =>
      simp only [List.head?_cons, Option.some.injEq] at hvhead
      rw [hvhead]
      exact List.mem_cons_self _ _
  obtain ⟨i, hri⟩ : ∃ i, rfindIdx '/' path = some i := by
    cases hr : rfindIdx '/' path with
    | some i => exact ⟨i, rfl⟩
    | none => exact absurd hslash ((rfindIdx_eq_none_iff '/' path).mp hr)
  obtain ⟨a, b, hab, hlen, hnb⟩ := rfindIdx_eq_some '/' path i hri
  have hroot : resolve_node s ['/'] = .ok (Node.DIR 0) := by
    unfold resolve_node
    rw [if_neg (by simp)]
    rfl
  have hbne : b ≠ [] := by
    intro hb0
    subst hb0
    have hlast : path.getLast? = some '/' := by
      rw [hab]
      exact List.getLast?_concat a
    have hpr : path = ['/'] := by
      by_contra hne
      exact hvlast hne hlast
    rw [hpr, hroot] at hres
    simp at hres
    omega
  have hpr2 : (split_path path).2 = b := by
    rw [split_path_parts hab hnb]
  have hsegs := segs_split hab hnb hbne
  -- walk decomposition at the last segment
  have hparlen : parentIdx < s.dirs.length :=
    (resolveLoop_ok_dir_lt h _ 0 [] parentIdx h.dirs_pos hloopPar).1
  have hget : hmGet (dirD s parentIdx).children b = some (Node.DIR d) := by
    rw [hsegs, resolveLoop_append, hloopPar] at hloopPath
    dsimp only at hloopPath
    simp only [resolveLoop] at hloopPath
    cases hg : hmGet (dirD s parentIdx).children b with
    | none =>
      rw [hg] at hloopPath
      simp at hloopPath
    | some nxt =>
      rw [hg] at hloopPath
      cases nxt with
      | FILE kk => simp [resolveLoop] at hloopPath
      | DIR mm =>
        simp only [resolveLoop, Except.ok.injEq, Node.DIR.injEq] at hloopPath
        rw [hloopPath]
  have hmemd := hmGet_eq_some_mem hget
  have hdlen : d < s.dirs.length ∧ (dirD s d).parent = some parentIdx :=
    h.child_dir hparlen hmemd
  have hpard : parentIdx < d := h.parent_lt hdlen.1 hdlen.2
  -- the removal, unfolded
  have hrem := remove_dir_eq hres hpd hd0 rfl
  have hA : dirD (updDir { s with recording := s.recording ++ [Operation.REMOVE path] }
      parentIdx fun dd => { dd with children := hmRemove dd.children (split_path path).2 })
      d = dirD s d :=
    dirD_updDir_other _ parentIdx d _ (by omega)
  rw [hA] at hrem
  have hs' : (remove s path).2 =
      bfs ((updDir { s with recording := s.recording ++ [Operation.REMOVE path] }
          parentIdx fun dd =>
            { dd with children := hmRemove dd.children (split_path path).2 }).dirs.length +
        totalChildren (updDir { s with recording := s.recording ++ [Operation.REMOVE path] }
          parentIdx fun dd =>
            { dd with children := hmRemove dd.children (split_path path).2 }))
        (detachDir (updDir { s with recording := s.recording ++ [Operation.REMOVE path] }
          parentIdx fun dd =>
            { dd with children := hmRemove dd.children (split_path path).2 }) d)
        ((dirD s d).children.map fun e => (d, e.2)) := by
    rw [hrem]
  have hsub_eq : subtreeDirs s d =
      d :: removedDirs s ((dirD s d).children.map fun e => (d, e.2)) := by
    rw [removedDirs_kids]
    exact subtreeDirs_eq h hdlen.1
  have hnodup : (subtreeDirs s d).Nodup :=
    subtree_nodup h s.dirs.length d (by omega) hdlen.1
  have hnodup2 := hnodup
  rw [hsub_eq, List.nodup_cons] at hnodup2
  have hKbound : ∀ j ∈ removedDirs s ((dirD s d).children.map fun e => (d, e.2)),
      d < j ∧ j < s.dirs.length := by
    intro j hj
    have hjs : j ∈ subtreeDirs s d := by
      rw [hsub_eq]
      exact List.mem_cons_of_mem _ hj
    have hlb := subtree_lb h s.dirs.length d (by omega) hdlen.1 j hjs
    have hne : j ≠ d := by
      intro hh
      subst hh
      exact hnodup2.1 hj
    exact ⟨by omega, hlb.2⟩
  have hrange' : ∀ j ∈ removedDirs s ((dirD s d).children.map fun e => (d, e.2)),
      j < s.dirs.length ∧
      dirD (detachDir (updDir { s with recording := s.recording ++ [Operation.REMOVE path] }
        parentIdx fun dd =>
          { dd with children := hmRemove dd.children (split_path path).2 }) d) j =
        dirD s j := by
    intro j hj
    have hb := hKbound j hj
    refine ⟨hb.2, ?_⟩
    rw [dirD_detach_other _ (show j ≠ d by omega)]
    rw [dirD_updDir_other _ parentIdx j _ (show j ≠ parentIdx by omega)]
    rfl
  have hlen2 : (updDir { s with recording := s.recording ++ [Operation.REMOVE path] }
      parentIdx fun dd =>
        { dd with children := hmRemove dd.children (split_path path).2 }).dirs.length =
      s.dirs.length := by
    simp [updDir]
  have hsub_mem : ∀ j ∈ subtreeDirs s d, j < s.dirs.length := fun j hj =>
    (subtree_lb h s.dirs.length d (by omega) hdlen.1 j hj).2
  have hchild_eq : ∀ j ∈ subtreeDirs s d,
      dirD (updDir { s with recording := s.recording ++ [Operation.REMOVE path] }
        parentIdx fun dd =>
          { dd with children := hmRemove dd.children (split_path path).2 }) j = dirD s j := by
    intro j hj
    have hdj : d ≤ j := (subtree_lb h s.dirs.length d (by omega) hdlen.1 j hj).1
    rw [dirD_updDir_other _ parentIdx j _ (show j ≠ parentIdx by omega)]
    rfl
  have hfuel' : ((dirD s d).children.map fun e => ((d, e.2) : Nat × Node)).length +
      ((removedDirs s ((dirD s d).children.map fun e => (d, e.2))).map
        fun j => (dirD s j).children.length).sum ≤
      (updDir { s with recording := s.recording ++ [Operation.REMOVE path] }
        parentIdx fun dd =>
          { dd with children := hmRemove dd.children (split_path path).2 }).dirs.length +
      totalChildren (updDir { s with recording := s.recording ++ [Operation.REMOVE path] }
        parentIdx fun dd =>
          { dd with children := hmRemove dd.children (split_path path).2 }) := by
    have hL : ((dirD s d).children.map fun e => ((d, e.2) : Nat × Node)).length =
        (dirD s d).children.length := List.length_map _ _
    have hmapeq : ((subtreeDirs s d).map fun j => (dirD s j).children.length) =
        ((subtreeDirs s d).map fun j =>
          (dirD (updDir { s with recording := s.recording ++ [Operation.REMOVE path] }
            parentIdx fun dd =>
              { dd with children := hmRemove dd.children (split_path path).2 }) j).children.length) := by
      apply List.map_congr_left
      intro j hj
      rw [hchild_eq j hj]
    have hse := congrArg List.sum hmapeq
    have hsum_le : ((subtreeDirs s d).map fun j =>
        (dirD (updDir { s with recording := s.recording ++ [Operation.REMOVE path] }
          parentIdx fun dd =>
            { dd with children := hmRemove dd.children (split_path path).2 }) j).children.length).sum ≤
        totalChildren (updDir { s with recording := s.recording ++ [Operation.REMOVE path] }
          parentIdx fun dd =>
            { dd with children := hmRemove dd.children (split_path path).2 }) :=
      sum_getD_le _ (subtreeDirs s d) hnodup
        (fun j hj => by rw [hlen2]; exact hsub_mem j hj)
        (fun dd => dd.children.length) { parent := none, children := [] }
    have hexp : ((subtreeDirs s d).map fun j => (dirD s j).children.length).sum =
        (dirD s d).children.length +
        ((removedDirs s ((dirD s d).children.map fun e => (d, e.2))).map
          fun j => (dirD s j).children.length).sum := by
      rw [hsub_eq]
      simp
    omega
  obtain ⟨b1, b2, b3, b4, b5, b6⟩ :=
    bfs_spec h _ (detachDir (updDir { s with recording := s.recording ++ [Operation.REMOVE path] }
      parentIdx fun dd =>
        { dd with children := hmRemove dd.children (split_path path).2 }) d)
      ((dirD s d).children.map fun e => (d, e.2)) hnodup2.2 hrange' hfuel'
  refine ⟨?_, ?_, ?_, ?_⟩
  · rw [hs', b2]
    rfl
  · intro j hj
    rw [hs']
    rw [hsub_eq] at hj
    rcases List.mem_cons.mp hj with hjd | hjK
    · subst hjd
      rw [b4 j hnodup2.1, dirD_detach_self]
      exact ⟨rfl, rfl⟩
    · rw [b5 j hjK]
      exact ⟨rfl, rfl⟩
  · intro k
    rw [hs', b6 k]
    apply List.filter_congr
    intro x hx
    have hx2 : x ∈ (fileD s k).parents := hx
    rcases Nat.lt_or_ge k s.files.length with hk | hk
    · have hfp := h.file_parent hk hx2
      rw [kids_any_hits h hdlen.1 k x, hfp.2.2]
      simp [decide_not]
    · exfalso
      rw [fileD_default s hk] at hx2
      cases hx2
  · intro q hqval hqpre
    obtain ⟨tail, htail⟩ := hqpre
    have hstab : ∀ i, i < parentIdx →
        (dirD ((remove s path).2) i).children = (dirD s i).children := by
      intro i hi
      rw [hs']
      have hiK : i ∉ removedDirs s ((dirD s d).children.map fun e => (d, e.2)) := by
        intro hin
        have := (hKbound i hin).1
        omega
      rw [b4 i hiK, dirD_detach_other _ (show i ≠ d by omega),
        dirD_updDir_other _ parentIdx i _ (show i ≠ parentIdx by omega)]
      rfl
    have hsim := resolveLoop_ok_dir_congr h hstab _ 0 [] h.dirs_pos hloopPar
    have hnone : hmGet (dirD ((remove s path).2) parentIdx).children b = none := by
      have hppar : dirD ((remove s path).2) parentIdx =
          dirD (updDir { s with recording := s.recording ++ [Operation.REMOVE path] }
            parentIdx fun dd =>
              { dd with children := hmRemove dd.children (split_path path).2 }) parentIdx := by
        rw [hs']
        rw [b4 parentIdx (fun hin => by have := (hKbound parentIdx hin).1; omega),
          dirD_detach_other _ (show parentIdx ≠ d by omega)]
      rw [hppar, dirD_updDir_same _ parentIdx _
        (by show parentIdx < s.dirs.length; omega)]
      rw [hpr2]
      exact hmGet_hmRemove_same _ _
    unfold resolve_node
    rw [if_neg hqval, ← htail, hsegs, List.append_assoc, List.singleton_append]
    rw [resolveLoop_append, hsim]
    refine ⟨([] ++ ((List.filter (fun sg => decide (sg ≠ []))
      (splitChar '/' (split_path path).1)).map fun sg => '/' :: sg).flatten) ++
        '/' :: b, ?_⟩
    dsimp only
    simp only [resolveLoop]
    rw [hnone]

/-- C3: a successful `remove` of a directory path detaches every directory
of the removed subtree in one step (parent pointer cleared, children map
emptied), removes exactly the subtree's directories from every file's
parent set while the file nodes themselves survive, and leaves the removed
path and every path extending it segment-wise unresolvable (`NotFound`);
concretely, after S4's workload the hardlinked file keeps exactly its
surviving path `/0`. -/
theorem C3_remove_subtree :
    (∀ (s : AbstractExecutor) (path : Str) (d : Nat), Inv s →
      resolve_node s path = .ok (Node.DIR d) →
      (remove s path).1 = .ok () →
      ((remove s path).2.files.length = s.files.length ∧
       (∀ j ∈ subtreeDirs s d,
         (dirD (remove s path).2 j).parent = none ∧
         (dirD (remove s path).2 j).children = []) ∧
       (∀ k, (fileD (remove s path).2 k).parents =
         (fileD s k).parents.filter fun p => decide (p ∉ subtreeDirs s d)) ∧
       (∀ q : Str,
         ¬(q = [] ∨ q.head? ≠ some '/' ∨ (q ≠ ['/'] ∧ q.getLast? = some '/')) →
         ((splitChar '/' path).filter fun sg => decide (sg ≠ [])) <+:
           ((splitChar '/' q).filter fun sg => decide (sg ≠ [])) →
         ∃ acc, resolve_node (remove s path).2 q = .error (.NotFound acc)))) ∧
    resolve_file_path (stFrom [Operation.CREATE ("/0".data) [],
      Operation.MKDIR ("/1".data) [], Operation.MKDIR ("/1/2".data) [],
      Operation.HARDLINK ("/0".data) ("/1/2/3".data),
      Operation.REMOVE ("/1".data)]) 0 = [("/0".data)] :=
  ⟨fun s path d h hres hok => remove_dir_spec h hres hok, by decide⟩

/-- C3 witness: the subtree-removal contract applied to the S4 state just
before `remove("/1")`. -/
theorem C3_remove_subtree_witness :
    Inv (stFrom [Operation.CREATE ("/0".data) [], Operation.MKDIR ("/1".data) [],
      Operation.MKDIR ("/1/2".data) [],
      Operation.HARDLINK ("/0".data) ("/1/2/3".data)]) ∧
    resolve_node (stFrom [Operation.CREATE ("/0".data) [],
      Operation.MKDIR ("/1".data) [], Operation.MKDIR ("/1/2".data) [],
      Operation.HARDLINK ("/0".data) ("/1/2/3".data)]) ("/1".data) =
      .ok (Node.DIR 1) ∧
    (remove (stFrom [Operation.CREATE ("/0".data) [], Operation.MKDIR ("/1".data) [],
      Operation.MKDIR ("/1/2".data) [],
      Operation.HARDLINK ("/0".data) ("/1/2/3".data)]) ("/1".data)).1 = .ok () ∧
    ((remove (stFrom [Operation.CREATE ("/0".data) [], Operation.MKDIR ("/1".data) [],
        Operation.MKDIR ("/1/2".data) [],
        Operation.HARDLINK ("/0".data) ("/1/2/3".data)]) ("/1".data)).2.files.length =
      (stFrom [Operation.CREATE ("/0".data) [], Operation.MKDIR ("/1".data) [],
        Operation.MKDIR ("/1/2".data) [],
        Operation.HARDLINK ("/0".data) ("/1/2/3".data)]).files.length ∧
     (∀ j ∈ subtreeDirs (stFrom [Operation.CREATE ("/0".data) [],
        Operation.MKDIR ("/1".data) [], Operation.MKDIR ("/1/2".data) [],
        Operation.HARDLINK ("/0".data) ("/1/2/3".data)]) 1,
       (dirD (remove (stFrom [Operation.CREATE ("/0".data) [],
          Operation.MKDIR ("/1".data) [], Operation.MKDIR ("/1/2".data) [],
          Operation.HARDLINK ("/0".data) ("/1/2/3".data)]) ("/1".data)).2 j).parent =
            none ∧
       (dirD (remove (stFrom [Operation.CREATE ("/0".data) [],
          Operation.MKDIR ("/1".data) [], Operation.MKDIR ("/1/2".data) [],
          Operation.HARDLINK ("/0".data) ("/1/2/3".data)]) ("/1".data)).2 j).children =
            []) ∧
     (∀ k, (fileD (remove (stFrom [Operation.CREATE ("/0".data) [],
        Operation.MKDIR ("/1".data) [], Operation.MKDIR ("/1/2".data) [],
        Operation.HARDLINK ("/0".data) ("/1/2/3".data)]) ("/1".data)).2 k).parents =
       (fileD (stFrom [Operation.CREATE ("/0".data) [], Operation.MKDIR ("/1".data) [],
          Operation.MKDIR ("/1/2".data) [],
          Operation.HARDLINK ("/0".data) ("/1/2/3".data)]) k).parents.filter
         fun p => decide (p ∉ subtreeDirs (stFrom [Operation.CREATE ("/0".data) [],
           Operation.MKDIR ("/1".data) [], Operation.MKDIR ("/1/2".data) [],
           Operation.HARDLINK ("/0".data) ("/1/2/3".data)]) 1)) ∧
     (∀ q : Str,
       ¬(q = [] ∨ q.head? ≠ some '/' ∨ (q ≠ ['/'] ∧ q.getLast? = some '/')) →
       ((splitChar '/' ("/1".data)).filter fun sg => decide (sg ≠ [])) <+:
         ((splitChar '/' q).filter fun sg => decide (sg ≠ [])) →
       ∃ acc, resolve_node (remove (stFrom [Operation.CREATE ("/0".data) [],
         Operation.MKDIR ("/1".data) [], Operation.MKDIR ("/1/2".data) [],
         Operation.HARDLINK ("/0".data) ("/1/2/3".data)]) ("/1".data)).2 q =
           .error (.NotFound acc))) :=
  ⟨by decide, by decide, by decide,
    C3_remove_subtree.1 (stFrom [Operation.CREATE ("/0".data) [], Operation.MKDIR ("/1".data) [],
      Operation.MKDIR ("/1/2".data) [],
      Operation.HARDLINK ("/0".data) ("/1/2/3".data)]) ("/1".data) 1
      (by decide) (by decide) (by decide)⟩



/-! ### Replay decomposition -/

theorem replay_append (xs ys : List Operation) :
    ∀ s, replay s (xs ++ ys) =
      match replay s xs with
      | (.ok u, mid) => replay mid ys
      | (.error e, mid) => (.error e, mid) := by
  induction xs with
  | nil => intro s; rfl
  | cons op rest ih =>
    intro s
    rw [show ((op :: rest) ++ ys : List Operation) = op :: (rest ++ ys) from rfl]
    simp only [replay]
    cases happ : applyOp s op with
    | mk r s1 =>
      cases r with
      | error e => rfl
      | ok u => exact ih s1

/-! ### Attachment: monotonicity and transfer -/

theorem attachedNE_mono (s : AbstractExecutor) :
    ∀ f j, attachedNE s f j = true → ∀ f2, f ≤ f2 → attachedNE s f2 j = true := by
  intro f
  induction f with
  | zero => intro j hA; cases hA
  | succ f ih =>
    intro j hA f2 hf2
    cases f2 with
    | zero => omega
    | succ g =>
      simp only [attachedNE] at hA ⊢
      cases hp : (dirD s j).parent with
      | none =>
        rw [hp] at hA
        exact hA
      | some p =>
        rw [hp] at hA
        simp only [Bool.and_eq_true] at hA ⊢
        exact ⟨hA.1, ih p hA.2 g (by omega)⟩

theorem attachedNE_transfer_on {s s' : AbstractExecutor} (h : Inv s) (P : Nat → Prop)
    (hP : ∀ j p, j < s.dirs.length → P j → (dirD s j).parent = some p → P p)
    (hpar : ∀ i, i < s.dirs.length → P i → (dirD s' i).parent = (dirD s i).parent)
    (hnm : ∀ p j, j < s.dirs.length → P j → (dirD s j).parent = some p →
      parentNameOf s' p j = parentNameOf s p j) :
    ∀ f j, j < s.dirs.length → P j → attachedNE s f j = true →
      attachedNE s' f j = true := by
  intro f
  induction f with
  | zero => intro j hj hPj hA; cases hA
  | succ f ih =>
    intro j hj hPj hA
    simp only [attachedNE] at hA ⊢
    rw [hpar j hj hPj]
    cases hp : (dirD s j).parent with
    | none =>
      rw [hp] at hA
      exact hA
    | some p =>
      rw [hp] at hA
      simp only [Bool.and_eq_true, decide_eq_true_eq] at hA ⊢
      refine ⟨?_, ?_⟩
      · rw [hnm p j hj hPj hp]
        exact hA.1
      · exact ih p (lt_trans (h.parent_lt hj hp) hj) (hP j p hj hPj hp) hA.2

theorem dirSegsRev_transfer_on {s s' : AbstractExecutor} (h : Inv s) (P : Nat → Prop)
    (hP : ∀ j p, j < s.dirs.length → P j → (dirD s j).parent = some p → P p)
    (hpar : ∀ i, i < s.dirs.length → P i → (dirD s' i).parent = (dirD s i).parent)
    (hnm : ∀ p j, j < s.dirs.length → P j → (dirD s j).parent = some p →
      parentNameOf s' p j = parentNameOf s p j) :
    ∀ f j, j < s.dirs.length → P j → dirSegsRev s' f j = dirSegsRev s f j := by
  intro f
  induction f with
  | zero => intro j hj hPj; rfl
  | succ f ih =>
    intro j hj hPj
    simp only [dirSegsRev]
    rw [hpar j hj hPj]
    cases hp : (dirD s j).parent with
    | none => rfl
    | some p =>
      dsimp only
      rw [hnm p j hj hPj hp,
        ih p (lt_trans (h.parent_lt hj hp) hj) (hP j p hj hPj hp)]

/-! ### find over a filter -/

theorem find?_filter {α : Type} (l : List α) (p q : α → Bool)
    (hpq : ∀ x ∈ l, p x = true → q x = true) :
    (l.filter q).find? p = l.find? p := by
  induction l with
  | nil => rfl
  | cons a rest ih =>
    by_cases hpa : p a = true
    · rw [List.filter_cons_of_pos (hpq a (by simp) hpa)]
      rw [List.find?_cons_of_pos _ hpa, List.find?_cons_of_pos _ hpa]
    · have hrest := ih (fun x hx hp => hpq x (by simp [hx]) hp)
      by_cases hqa : q a = true
      · rw [List.filter_cons_of_pos hqa, List.find?_cons_of_neg _ (by simp [hpa]),
          List.find?_cons_of_neg _ (by simp [hpa]), hrest]
      · rw [List.filter_cons_of_neg (by simp [hqa]), List.find?_cons_of_neg _ (by simp [hpa]),
          hrest]

/-! ### Walk facts: attachment and file hits -/

theorem resolveLoop_ok_attached {s : AbstractExecutor} (h : Inv s) :
    ∀ xs j acc t, j < s.dirs.length → (∀ sg ∈ xs, sg ≠ []) →
      attachedNE s s.dirs.length j = true →
      resolveLoop s (Node.DIR j) acc xs = .ok (Node.DIR t) →
      attachedNE s s.dirs.length t = true := by
  intro xs
  induction xs with
  | nil =>
    intro j acc t hj hne hA hr
    simp only [resolveLoop, Except.ok.injEq, Node.DIR.injEq] at hr
    rw [← hr]
    exact hA
  | cons x rest ihx =>
    intro j acc t hj hne hA hr
    simp only [resolveLoop] at hr
    cases hg : hmGet (dirD s j).children x with
    | none =>
      simp only [hg] at hr
      exact absurd hr (by simp)
    | some nxt =>
      simp only [hg] at hr
      cases nxt with
      | FILE k => exact absurd hr (resolveLoop_file_ne_dir s k _ rest t)
      | DIR m =>
        have hmem := hmGet_eq_some_mem hg
        have hmd := h.child_dir hj hmem
        have hnm : parentNameOf s j m = x := by
          have hspec := h.parentNameOf_spec hmd.1 hmd.2
          exact (h.dir_uniq hj hj hspec hmem).2
        have hAm : attachedNE s s.dirs.length m = true := by
          rw [attachedNE_step h hmd.1 hmd.2, hnm]
          simp only [Bool.and_eq_true, decide_eq_true_eq]
          exact ⟨hne x (by simp), hA⟩
        exact ihx m _ t hmd.1 (fun sg hsg => hne sg (by simp [hsg])) hAm hr

theorem resolveLoop_ok_file {s : AbstractExecutor} (h : Inv s) :
    ∀ xs j acc k, j < s.dirs.length →
      resolveLoop s (Node.DIR j) acc xs = .ok (Node.FILE k) →
      k < s.files.length ∧
      ∃ p nm, p < s.dirs.length ∧ (nm, Node.FILE k) ∈ (dirD s p).children := by
  intro xs
  induction xs with
  | nil =>
    intro j acc k hj hr
    simp [resolveLoop] at hr
  | cons x rest ihx =>
    intro j acc k hj hr
    simp only [resolveLoop] at hr
    cases hg : hmGet (dirD s j).children x with
    | none =>
      simp only [hg] at hr
      exact absurd hr (by simp)
    | some nxt =>
      simp only [hg] at hr
      cases nxt with
      | DIR m =>
        have hmem := hmGet_eq_some_mem hg
        have hmd := h.child_dir hj hmem
        exact ihx m _ k hmd.1 hr
      | FILE kk =>
        cases rest with
        | cons y more =>
          simp [resolveLoop] at hr
        | nil =>
          simp only [resolveLoop, Except.ok.injEq, Node.FILE.injEq] at hr
          subst hr
          have hmem := hmGet_eq_some_mem hg
          have hkf := h.child_file hj hmem
          exact ⟨hkf.1, j, x, hj, hmem⟩

theorem resolve_dir_ok_attached {s : AbstractExecutor} (h : Inv s) {p : Str} {t : Nat}
    (hpd : resolve_dir s p = .ok t) :
    t < s.dirs.length ∧ attachedNE s s.dirs.length t = true := by
  obtain ⟨hval, hloop⟩ := resolve_node_ok_pieces (resolve_dir_ok_node hpd)
  refine ⟨(resolveLoop_ok_dir_lt h _ 0 [] t h.dirs_pos hloop).1, ?_⟩
  refine resolveLoop_ok_attached h _ 0 [] t h.dirs_pos ?_ (attachedNE_root h) hloop
  intro sg hsg
  rw [List.mem_filter] at hsg
  simpa using hsg.2

/-! ### `mkdir`, unfolded on success -/

theorem dirD_set_meta (X : AbstractExecutor) (rec2 : List Operation) (nc : Nat) (j : Nat) :
    dirD { X with recording := rec2, nodes_created := nc } j = dirD X j := rfl

theorem fileD_set_meta (X : AbstractExecutor) (rec2 : List Operation) (nc : Nat) (k : Nat) :
    fileD { X with recording := rec2, nodes_created := nc } k = fileD X k := rfl

theorem mkdir_eq {s : AbstractExecutor} {path : Str} {mode : Mode} {parent : Nat}
    (hpd : resolve_dir s (split_path path).1 = .ok parent)
    (hnx : name_exists s parent (split_path path).2 = false) :
    mkdir s path mode = (.ok s.dirs.length,
      { (updDir { s with dirs := s.dirs ++ [{ parent := some parent, children := [] }] }
          parent (fun dd => { dd with children := (hmInsert dd.children
            (split_path path).2 (Node.DIR s.dirs.length)) })) with
        recording := (s.recording ++
          [Operation.MKDIR (resolve_dir_path
            (updDir { s with dirs := s.dirs ++ [{ parent := some parent, children := [] }] }
              parent (fun dd => { dd with children := (hmInsert dd.children
                (split_path path).2 (Node.DIR s.dirs.length)) }))
            s.dirs.length) mode]),
        nodes_created := s.nodes_created + 1 }) := by
  unfold mkdir
  dsimp only
  rw [hpd]
  dsimp only
  rw [if_neg (by simp [hnx])]
  rfl

theorem mkdir_dirD {s : AbstractExecutor} {parent n : Nat} (hp : parent < s.dirs.length)
    (hn : n = s.dirs.length) (nm : Str) (rec2 : List Operation) (nc : Nat) :
    ∀ j, dirD { (updDir { s with dirs := s.dirs ++ [{ parent := some parent, children := [] }] }
        parent (fun dd => { dd with children := hmInsert dd.children nm (Node.DIR n) })) with
      recording := rec2, nodes_created := nc } j =
      if j = parent then
        { dirD s parent with children := hmInsert (dirD s parent).children nm (Node.DIR n) }
      else if j = n then { parent := some parent, children := [] }
      else dirD s j := by
  subst hn
  intro j
  rw [dirD_set_meta]
  by_cases hjp : j = parent
  · rw [if_pos hjp, hjp, dirD_updDir_same _ parent _ (by simp; omega)]
    have hstep : dirD { s with dirs := s.dirs ++
        [{ parent := some parent, children := [] }] } parent = dirD s parent := by
      unfold dirD
      exact getD_append_left _ _ _ _ hp
    rw [hstep]
  · rw [if_neg hjp, dirD_updDir_other _ parent j _ hjp]
    by_cases hjn : j = s.dirs.length
    · rw [if_pos hjn, hjn]
      show (s.dirs ++ [({ parent := some parent, children := [] } : Dir)]).getD s.dirs.length { parent := none, children := [] } = _
      exact getD_append_length _ _ _
    · rw [if_neg hjn]
      show (s.dirs ++ [({ parent := some parent, children := [] } : Dir)]).getD j { parent := none, children := [] } = s.dirs.getD j { parent := none, children := [] }
      rcases Nat.lt_or_ge j s.dirs.length with hj | hj
      · exact getD_append_left _ _ _ _ hj
      · rw [List.getD_eq_default _ _ (by simp; omega), List.getD_eq_default _ _ (by omega)]

theorem find?_append_right_none {α : Type} (l1 l2 : List α) (p : α → Bool)
    (h2 : ∀ y ∈ l2, p y = false) : (l1 ++ l2).find? p = l1.find? p := by
  induction l1 with
  | nil =>
    rw [List.nil_append]
    rw [List.find?_eq_none.mpr (fun y hy => by simp [h2 y hy])]
    rfl
  | cons a rest ih =>
    by_cases hpa : p a = true
    · rw [List.cons_append, List.find?_cons_of_pos _ hpa, List.find?_cons_of_pos _ hpa]
    · rw [List.cons_append, List.find?_cons_of_neg _ (by simp [hpa]),
        List.find?_cons_of_neg _ (by simp [hpa]), ih]

theorem keys_absent_of_name_exists_false {s : AbstractExecutor} {parent : Nat} {nm : Str}
    (hnx : name_exists s parent nm = false) :
    ∀ e ∈ (dirD s parent).children, e.1 ≠ nm := by
  intro e he heq
  obtain ⟨e1, e2⟩ := e
  dsimp only at heq
  subst heq
  exact name_exists_false_iff.mp hnx e2 he

theorem hmInsert_fresh {s : AbstractExecutor} {parent : Nat} {nm : Str}
    (hnx : name_exists s parent nm = false) (v : Node) :
    hmInsert (dirD s parent).children nm v = (dirD s parent).children ++ [(nm, v)] :=
  hmInsert_of_forall_ne v (keys_absent_of_name_exists_false hnx)

theorem keys_nodup_snoc {s : AbstractExecutor} {parent : Nat} {nm : Str}
    (h : Inv s) (hp : parent < s.dirs.length)
    (hnx : name_exists s parent nm = false) (v : Node) :
    (((dirD s parent).children ++ [(nm, v)]).map Prod.fst).Nodup := by
  rw [List.map_append]
  rw [List.nodup_append]
  refine ⟨h.keys_nodup hp, by simp, ?_⟩
  intro y hy
  rw [List.mem_map] at hy
  obtain ⟨e, he, rfl⟩ := hy
  simpa using keys_absent_of_name_exists_false hnx e he

/-- `mkdir` on a fresh, resolvable, slash-free, non-empty name preserves the
invariant and name non-emptiness. -/
theorem mkdir_preserves {s : AbstractExecutor} {path : Str} {mode : Mode} {parent : Nat}
    (h : Inv s) (hnn : NamesNonempty s)
    (hpd : resolve_dir s (split_path path).1 = .ok parent)
    (hnx : name_exists s parent (split_path path).2 = false)
    (hsl : '/' ∉ (split_path path).2) (hne2 : (split_path path).2 ≠ []) :
    Inv (mkdir s path mode).2 ∧ NamesNonempty (mkdir s path mode).2 := by
  obtain ⟨hp, hAp⟩ := resolve_dir_ok_attached h hpd
  rw [mkdir_eq hpd hnx]
  have hD := mkdir_dirD (s := s) hp rfl (split_path path).2
    (s.recording ++ [Operation.MKDIR (resolve_dir_path
      (updDir { s with dirs := s.dirs ++ [{ parent := some parent, children := [] }] }
        parent (fun dd => { dd with children := (hmInsert dd.children
          (split_path path).2 (Node.DIR s.dirs.length)) }))
      s.dirs.length) mode]) (s.nodes_created + 1)
  set S2 := ({ (updDir { s with dirs := s.dirs ++ [{ parent := some parent, children := [] }] }
      parent (fun dd => { dd with children := (hmInsert dd.children
        (split_path path).2 (Node.DIR s.dirs.length)) })) with
    recording := (s.recording ++
      [Operation.MKDIR (resolve_dir_path
        (updDir { s with dirs := s.dirs ++ [{ parent := some parent, children := [] }] }
          parent (fun dd => { dd with children := (hmInsert dd.children
            (split_path path).2 (Node.DIR s.dirs.length)) }))
        s.dirs.length) mode]),
    nodes_created := s.nodes_created + 1 } : AbstractExecutor) with hS2
  show Inv S2 ∧ NamesNonempty S2
  have hlen2 : S2.dirs.length = s.dirs.length + 1 := by
    rw [hS2]
    simp [updDir]
  have hfiles2 : S2.files = s.files := rfl
  have hins := hmInsert_fresh hnx (Node.DIR s.dirs.length)
  have hpar' : ∀ m, m < s.dirs.length → (dirD S2 m).parent = (dirD s m).parent := by
    intro m hm
    rw [hD m]
    by_cases hmp : m = parent
    · rw [if_pos hmp, hmp]
    · rw [if_neg hmp, if_neg (by omega)]
  have hmem' : ∀ i, ∀ e, e ∈ (dirD S2 i).children →
      (e ∈ (dirD s i).children ∧ (i < s.dirs.length → True)) ∨
      (i = parent ∧ e = ((split_path path).2, Node.DIR s.dirs.length)) := by
    intro i e he
    rw [hD i] at he
    by_cases hip : i = parent
    · rw [if_pos hip] at he
      simp only at he
      rw [hins] at he
      rcases List.mem_append.mp he with h1 | h1
      · left
        rw [hip]
        exact ⟨h1, fun _ => trivial⟩
      · right
        simp only [List.mem_singleton] at h1
        exact ⟨hip, h1⟩
    · rw [if_neg hip] at he
      by_cases hin : i = s.dirs.length
      · rw [if_pos hin] at he
        cases he
      · rw [if_neg hin] at he
        exact Or.inl ⟨he, fun _ => trivial⟩
  have hchildren_par : (dirD S2 parent).children =
      (dirD s parent).children ++ [((split_path path).2, Node.DIR s.dirs.length)] := by
    rw [hD parent, if_pos rfl]
    simp only
    exact hins
  have hchildren_other : ∀ i, i ≠ parent → i ≠ s.dirs.length →
      (dirD S2 i).children = (dirD s i).children := by
    intro i h1 h2
    rw [hD i, if_neg h1, if_neg h2]
  have hchildren_new : (dirD S2 s.dirs.length).children = [] := by
    rw [hD s.dirs.length, if_neg (by omega), if_pos rfl]
  have hnm' : ∀ q j, j < s.dirs.length → (dirD s j).parent = some q →
      parentNameOf S2 q j = parentNameOf s q j := by
    intro q j hj hq
    have hql : q < s.dirs.length := lt_trans (h.parent_lt hj hq) hj
    unfold parentNameOf
    by_cases hqp : q = parent
    · rw [hqp, hchildren_par, find?_append_right_none]
      intro y hy
      simp only [List.mem_singleton] at hy
      subst hy
      simp only [decide_eq_false_iff_not]
      intro hcon
      cases hcon
      omega
    · rw [hchildren_other q hqp (by omega)]
  have hattach : ∀ j, j < s.dirs.length → attachedNE s s.dirs.length j = true →
      attachedNE S2 S2.dirs.length j = true := by
    intro j hj hA
    have h1 : attachedNE S2 s.dirs.length j = true :=
      attachedNE_transfer_on h (fun _ => True) (fun _ _ _ _ _ => trivial)
        (fun i hi _ => hpar' i hi) (fun q j2 hj2 _ hq => hnm' q j2 hj2 hq)
        s.dirs.length j hj trivial hA
    exact attachedNE_mono S2 s.dirs.length j h1 S2.dirs.length (by omega)
  constructor
  · refine ⟨by omega, ?_, ?_, ?_, ?_, ?_⟩
    · -- parent indices decrease
      intro j hj p hpj
      rw [hD j] at hpj
      by_cases hjp : j = parent
      · subst hjp
        rw [if_pos rfl] at hpj
        dsimp only at hpj
        exact h.parent_lt hp hpj
      · rw [if_neg hjp] at hpj
        by_cases hjn : j = s.dirs.length
        · rw [if_pos hjn] at hpj
          simp only [Option.some.injEq] at hpj
          omega
        · rw [if_neg hjn] at hpj
          have hjlt : j < s.dirs.length := by
            rw [hlen2] at hj
            omega
          exact h.parent_lt hjlt hpj
    · -- keys nodup and childOk
      intro i hi
      constructor
      · by_cases hip : i = parent
        · rw [hip, hchildren_par]
          exact keys_nodup_snoc h hp hnx _
        · by_cases hin : i = s.dirs.length
          · rw [hin, hchildren_new]
            exact List.nodup_nil
          · rw [hchildren_other i hip hin]
            have hilt : i < s.dirs.length := by
              rw [hlen2] at hi
              omega
            exact h.keys_nodup hilt
      · intro e he
        rcases hmem' i e he with ⟨heold, _⟩ | ⟨hip, hee⟩
        · -- an old entry: old childOk transfers
          have hilt : i < s.dirs.length := by
            by_cases hin : i = s.dirs.length
            · rw [hin, hchildren_new] at he
              · cases he
            · by_cases hip : i = parent
              · omega
              · rw [hchildren_other i hip hin] at he
                by_cases hlt : i < s.dirs.length
                · exact hlt
                · exfalso
                  have : dirD s i = { parent := none, children := [] } := by
                    unfold dirD
                    rw [List.getD_eq_default _ _ (by omega)]
                  rw [this] at heold
                  cases heold
          have hold := h.child_ok hilt heold
          obtain ⟨e1, e2⟩ := e
          refine ⟨hold.1, ?_, ?_⟩
          · intro hdir
            have h2 := hold.2.1 hdir
            refine ⟨by omega, ?_⟩
            rw [hpar' e2.idx h2.1]
            exact h2.2
          · intro hfile
            have h2 := hold.2.2 hfile
            rw [hfiles2]
            exact h2
        · -- the new entry
          subst hee
          refine ⟨fun c hc hcc => hsl (hcc ▸ hc), ?_, ?_⟩
          · intro _
            refine ⟨?_, ?_⟩
            · show s.dirs.length < S2.dirs.length
              omega
            · show (dirD S2 s.dirs.length).parent = some i
              rw [hD s.dirs.length, if_neg (by omega), if_pos rfl, hip]
          · intro hfile
            simp [Node.isDirN] at hfile
    · -- directory reference uniqueness
      intro i1 hi1 i2 hi2 e1 he1 e2 he2
      rcases hmem' i1 e1 he1 with ⟨h1, _⟩ | ⟨hip1, hee1⟩ <;>
        rcases hmem' i2 e2 he2 with ⟨h2, _⟩ | ⟨hip2, hee2⟩
      · -- both old
        have hi1l : i1 < s.dirs.length := by
          by_cases hq : i1 < s.dirs.length
          · exact hq
          · exfalso
            have : dirD s i1 = { parent := none, children := [] } := by
              unfold dirD
              rw [List.getD_eq_default _ _ (by omega)]
            rw [this] at h1
            cases h1
        have hi2l : i2 < s.dirs.length := by
          by_cases hq : i2 < s.dirs.length
          · exact hq
          · exfalso
            have : dirD s i2 = { parent := none, children := [] } := by
              unfold dirD
              rw [List.getD_eq_default _ _ (by omega)]
            rw [this] at h2
            cases h2
        exact h.2.2.2.1 i1 hi1l i2 hi2l e1 h1 e2 h2
      · -- e2 is the new entry, e1 old
        subst hee2
        rw [dirUniqB_spec]
        intro hd1 _ hidx
        exfalso
        obtain ⟨a1, v1⟩ := e1
        cases v1 with
        | FILE k => simp [Node.isDirN] at hd1
        | DIR m =>
          have hi1l : i1 < s.dirs.length := by
            by_cases hq : i1 < s.dirs.length
            · exact hq
            · exfalso
              have : dirD s i1 = { parent := none, children := [] } := by
                unfold dirD
                rw [List.getD_eq_default _ _ (by omega)]
              rw [this] at h1
              cases h1
          have := (h.child_ok hi1l h1).2.1 (by simp [Node.isDirN])
          simp [Node.idx] at hidx this
          omega
      · -- e1 is the new entry, e2 old
        subst hee1
        rw [dirUniqB_spec]
        intro _ hd2 hidx
        exfalso
        obtain ⟨a2, v2⟩ := e2
        cases v2 with
        | FILE k => simp [Node.isDirN] at hd2
        | DIR m =>
          have hi2l : i2 < s.dirs.length := by
            by_cases hq : i2 < s.dirs.length
            · exact hq
            · exfalso
              have : dirD s i2 = { parent := none, children := [] } := by
                unfold dirD
                rw [List.getD_eq_default _ _ (by omega)]
              rw [this] at h2
              cases h2
          have := (h.child_ok hi2l h2).2.1 (by simp [Node.isDirN])
          simp [Node.idx] at hidx this
          omega
      · -- both the new entry
        subst hee1
        subst hee2
        rw [dirUniqB_spec]
        intro _ _ _
        rw [hip1, hip2]
        exact ⟨rfl, rfl⟩
    · -- dir_exists
      intro j hj p hpj
      rw [hD j] at hpj
      by_cases hjn : j = s.dirs.length
      · rw [if_neg (by omega), if_pos hjn] at hpj
        simp only [Option.some.injEq] at hpj
        rw [← hpj, hchildren_par, List.any_append]
        apply Bool.or_eq_true_iff.mpr
        right
        simp [hjn]
      · by_cases hjp : j = parent
        · rw [if_pos hjp] at hpj
          have hjl : j < s.dirs.length := by omega
          have hold := h.2.2.2.2.1 j hjl p (by rw [← hjp] at hpj; exact hpj)
          have hpl : p < s.dirs.length :=
            lt_trans (h.parent_lt hjl (by rw [← hjp] at hpj; exact hpj)) hjl
          by_cases hpp : p = parent
          · subst hpp
            rw [hchildren_par, List.any_append]
            apply Bool.or_eq_true_iff.mpr
            left
            exact hold
          · rw [hchildren_other p hpp (by omega)]
            exact hold
        · rw [if_neg hjp, if_neg hjn] at hpj
          have hjl : j < s.dirs.length := by
            rw [hlen2] at hj
            omega
          have hold := h.2.2.2.2.1 j hjl p hpj
          have hpl : p < s.dirs.length := lt_trans (h.parent_lt hjl hpj) hjl
          by_cases hpp : p = parent
          · rw [hpp, hchildren_par, List.any_append]
            apply Bool.or_eq_true_iff.mpr
            left
            rw [← hpp]
            exact hold
          · rw [hchildren_other p hpp (by omega)]
            exact hold
    · -- files
      intro k hk
      rw [hfiles2] at hk
      have hold := h.2.2.2.2.2 k hk
      constructor
      · show (fileD s k).parents.Nodup
        exact hold.1
      · intro p hpk
        have hpk2 : p ∈ (fileD s k).parents := hpk
        have h2 := hold.2 p hpk2
        refine ⟨by omega, ?_, ?_⟩
        · exact hattach p h2.1 h2.2.1
        · by_cases hpp : p = parent
          · rw [hpp, hchildren_par, List.any_append]
            apply Bool.or_eq_true_iff.mpr
            left
            rw [← hpp]
            exact h2.2.2
          · rw [hchildren_other p hpp (by omega)]
            exact h2.2.2
  · -- names stay non-empty
    intro i hi e he
    rcases hmem' i e he with ⟨heold, _⟩ | ⟨hip, hee⟩
    · have hilt : i < s.dirs.length := by
        by_cases hq : i < s.dirs.length
        · exact hq
        · exfalso
          have : dirD s i = { parent := none, children := [] } := by
            unfold dirD
            rw [List.getD_eq_default _ _ (by omega)]
          rw [this] at heold
          cases heold
      exact hnn i hilt e heold
    · subst hee
      exact hne2

/-! ### `create`, unfolded on success -/

theorem create_eq {s : AbstractExecutor} {path : Str} {mode : Mode} {parent : Nat}
    (hpd : resolve_dir s (split_path path).1 = .ok parent)
    (hnx : name_exists s parent (split_path path).2 = false) :
    create s path mode = (.ok s.files.length,
      { (updDir { s with files := s.files ++ [{ parents := [parent] }] }
          parent (fun dd => { dd with children := (hmInsert dd.children
            (split_path path).2 (Node.FILE s.files.length)) })) with
        recording := (s.recording ++
          [Operation.CREATE (make_path
            (updDir { s with files := s.files ++ [{ parents := [parent] }] }
              parent (fun dd => { dd with children := (hmInsert dd.children
                (split_path path).2 (Node.FILE s.files.length)) }))
            parent (split_path path).2) mode]),
        nodes_created := s.nodes_created + 1 }) := by
  unfold create
  dsimp only
  rw [hpd]
  dsimp only
  rw [if_neg (by simp [hnx])]
  rfl

theorem create_dirD {s : AbstractExecutor} {parent : Nat} (hp : parent < s.dirs.length)
    (nm : Str) (n : Nat) (newf : List File) (rec2 : List Operation) (nc : Nat) :
    ∀ j, dirD { (updDir { s with files := newf }
        parent (fun dd => { dd with children := hmInsert dd.children nm (Node.FILE n) })) with
      recording := rec2, nodes_created := nc } j =
      if j = parent then
        { dirD s parent with children := hmInsert (dirD s parent).children nm (Node.FILE n) }
      else dirD s j := by
  intro j
  rw [dirD_set_meta]
  by_cases hjp : j = parent
  · rw [if_pos hjp, hjp, dirD_updDir_same { s with files := newf } parent _ hp]
    rfl
  · rw [if_neg hjp, dirD_updDir_other _ parent j _ hjp]
    rfl

theorem create_fileD {s : AbstractExecutor} {parent : Nat} (g : Dir → Dir) (p2 : Nat)
    (rec2 : List Operation) (nc : Nat) :
    ∀ k, fileD { (updDir { s with files := s.files ++ [{ parents := [parent] }] } p2 g) with
      recording := rec2, nodes_created := nc } k =
      if k = s.files.length then { parents := [parent] } else fileD s k := by
  intro k
  rw [fileD_set_meta]
  show (s.files ++ [({ parents := [parent] } : File)]).getD k { parents := [] } = _
  by_cases hk : k = s.files.length
  · rw [if_pos hk, hk]
    exact getD_append_length _ _ _
  · rw [if_neg hk]
    show _ = s.files.getD k { parents := [] }
    rcases Nat.lt_or_ge k s.files.length with h1 | h1
    · exact getD_append_left _ _ _ _ h1
    · rw [List.getD_eq_default _ _ (by simp; omega), List.getD_eq_default _ _ (by omega)]

/-- `create` on a fresh, resolvable, slash-free, non-empty name preserves the
invariant and name non-emptiness. -/
theorem create_preserves {s : AbstractExecutor} {path : Str} {mode : Mode} {parent : Nat}
    (h : Inv s) (hnn : NamesNonempty s)
    (hpd : resolve_dir s (split_path path).1 = .ok parent)
    (hnx : name_exists s parent (split_path path).2 = false)
    (hsl : '/' ∉ (split_path path).2) (hne2 : (split_path path).2 ≠ []) :
    Inv (create s path mode).2 ∧ NamesNonempty (create s path mode).2 := by
  obtain ⟨hp, hAp⟩ := resolve_dir_ok_attached h hpd
  rw [create_eq hpd hnx]
  have hD := create_dirD (s := s) hp (split_path path).2 s.files.length
    (s.files ++ [{ parents := [parent] }])
    (s.recording ++ [Operation.CREATE (make_path
      (updDir { s with files := s.files ++ [{ parents := [parent] }] }
        parent (fun dd => { dd with children := (hmInsert dd.children
          (split_path path).2 (Node.FILE s.files.length)) }))
      parent (split_path path).2) mode]) (s.nodes_created + 1)
  have hfD := @create_fileD s parent
    (fun dd => { dd with children := (hmInsert dd.children
      (split_path path).2 (Node.FILE s.files.length)) }) parent
    (s.recording ++ [Operation.CREATE (make_path
      (updDir { s with files := s.files ++ [{ parents := [parent] }] }
        parent (fun dd => { dd with children := (hmInsert dd.children
          (split_path path).2 (Node.FILE s.files.length)) }))
      parent (split_path path).2) mode]) (s.nodes_created + 1)
  set S2 := ({ (updDir { s with files := s.files ++ [{ parents := [parent] }] }
      parent (fun dd => { dd with children := (hmInsert dd.children
        (split_path path).2 (Node.FILE s.files.length)) })) with
    recording := (s.recording ++
      [Operation.CREATE (make_path
        (updDir { s with files := s.files ++ [{ parents := [parent] }] }
          parent (fun dd => { dd with children := (hmInsert dd.children
            (split_path path).2 (Node.FILE s.files.length)) }))
        parent (split_path path).2) mode]),
    nodes_created := s.nodes_created + 1 } : AbstractExecutor) with hS2
  show Inv S2 ∧ NamesNonempty S2
  have hlen2 : S2.dirs.length = s.dirs.length := by
    rw [hS2]
    simp [updDir]
  have hflen : S2.files.length = s.files.length + 1 := by
    rw [hS2]
    simp [updDir]
  have hins := hmInsert_fresh hnx (Node.FILE s.files.length)
  have hpar' : ∀ m, (dirD S2 m).parent = (dirD s m).parent := by
    intro m
    rw [hD m]
    by_cases hmp : m = parent
    · rw [if_pos hmp, hmp]
    · rw [if_neg hmp]
  have hmem' : ∀ i, ∀ e, e ∈ (dirD S2 i).children →
      e ∈ (dirD s i).children ∨
      (i = parent ∧ e = ((split_path path).2, Node.FILE s.files.length)) := by
    intro i e he
    rw [hD i] at he
    by_cases hip : i = parent
    · rw [if_pos hip] at he
      simp only at he
      rw [hins] at he
      rcases List.mem_append.mp he with h1 | h1
      · left
        rw [hip]
        exact h1
      · right
        simp only [List.mem_singleton] at h1
        exact ⟨hip, h1⟩
    · rw [if_neg hip] at he
      exact Or.inl he
  have hchildren_par : (dirD S2 parent).children =
      (dirD s parent).children ++ [((split_path path).2, Node.FILE s.files.length)] := by
    rw [hD parent, if_pos rfl]
    simp only
    exact hins
  have hchildren_other : ∀ i, i ≠ parent →
      (dirD S2 i).children = (dirD s i).children := by
    intro i h1
    rw [hD i, if_neg h1]
  have hnm' : ∀ q j, j < s.dirs.length → (dirD s j).parent = some q →
      parentNameOf S2 q j = parentNameOf s q j := by
    intro q j hj hq
    unfold parentNameOf
    by_cases hqp : q = parent
    · rw [hqp, hchildren_par, find?_append_right_none]
      intro y hy
      simp only [List.mem_singleton] at hy
      subst hy
      simp
    · rw [hchildren_other q hqp]
  have hattach : ∀ j, j < s.dirs.length → attachedNE s s.dirs.length j = true →
      attachedNE S2 S2.dirs.length j = true := by
    intro j hj hA
    rw [hlen2]
    exact attachedNE_transfer_on h (fun _ => True) (fun _ _ _ _ _ => trivial)
      (fun i _ _ => hpar' i) (fun q j2 hj2 _ hq => hnm' q j2 hj2 hq)
      s.dirs.length j hj trivial hA
  constructor
  · refine ⟨by omega, ?_, ?_, ?_, ?_, ?_⟩
    · -- parent indices decrease
      intro j hj p hpj
      rw [hpar' j] at hpj
      have hjl : j < s.dirs.length := by
        rw [hlen2] at hj
        omega
      exact h.parent_lt hjl hpj
    · -- keys nodup and childOk
      intro i hi
      have hilt : i < s.dirs.length := by
        rw [hlen2] at hi
        omega
      constructor
      · by_cases hip : i = parent
        · rw [hip, hchildren_par]
          exact keys_nodup_snoc h hp hnx _
        · rw [hchildren_other i hip]
          exact h.keys_nodup hilt
      · intro e he
        rcases hmem' i e he with heold | ⟨hip, hee⟩
        · -- an old entry: old childOk transfers
          have hold := h.child_ok hilt heold
          refine ⟨hold.1, ?_, ?_⟩
          · intro hdir
            have h2 := hold.2.1 hdir
            refine ⟨?_, ?_⟩
            · show e.2.idx < S2.dirs.length
              rw [hlen2]
              exact h2.1
            · show (dirD S2 e.2.idx).parent = some i
              rw [hpar' e.2.idx]
              exact h2.2
          · intro hfile
            have h2 := hold.2.2 hfile
            have h21 := h2.1
            refine ⟨?_, ?_⟩
            · show e.2.idx < S2.files.length
              rw [hflen]
              omega
            · show i ∈ (fileD S2 e.2.idx).parents
              rw [hfD e.2.idx, if_neg (by omega)]
              exact h2.2
        · -- the new entry
          subst hee
          refine ⟨fun c hc hcc => hsl (hcc ▸ hc), ?_, ?_⟩
          · intro hdir
            simp [Node.isDirN] at hdir
          · intro _
            refine ⟨?_, ?_⟩
            · show s.files.length < S2.files.length
              omega
            · show i ∈ (fileD S2 s.files.length).parents
              rw [hfD s.files.length, if_pos rfl]
              simp [hip]
    · -- directory reference uniqueness
      intro i1 hi1 i2 hi2 e1 he1 e2 he2
      rcases hmem' i1 e1 he1 with h1 | ⟨hip1, hee1⟩ <;>
        rcases hmem' i2 e2 he2 with h2 | ⟨hip2, hee2⟩
      · -- both old
        have hi1l : i1 < s.dirs.length := by
          rw [hlen2] at hi1
          omega
        have hi2l : i2 < s.dirs.length := by
          rw [hlen2] at hi2
          omega
        exact h.2.2.2.1 i1 hi1l i2 hi2l e1 h1 e2 h2
      · -- e2 is the new FILE entry
        subst hee2
        rw [dirUniqB_spec]
        intro _ hd2 _
        exact absurd hd2 (by simp [Node.isDirN])
      · -- e1 is the new FILE entry
        subst hee1
        rw [dirUniqB_spec]
        intro hd1 _ _
        exact absurd hd1 (by simp [Node.isDirN])
      · -- both the new FILE entry
        subst hee1
        subst hee2
        rw [dirUniqB_spec]
        intro hd1 _ _
        exact absurd hd1 (by simp [Node.isDirN])
    · -- dir_exists
      intro j hj p hpj
      rw [hpar' j] at hpj
      have hjl : j < s.dirs.length := by
        rw [hlen2] at hj
        omega
      have hold := h.2.2.2.2.1 j hjl p hpj
      by_cases hpp : p = parent
      · subst hpp
        rw [hchildren_par, List.any_append]
        apply Bool.or_eq_true_iff.mpr
        left
        exact hold
      · rw [hchildren_other p hpp]
        exact hold
    · -- files
      intro k hk
      by_cases hkE : k = s.files.length
      · -- the new file
        subst hkE
        rw [hfD s.files.length, if_pos rfl]
        refine ⟨by simp, ?_⟩
        intro p hpk
        simp only [List.mem_singleton] at hpk
        subst hpk
        refine ⟨by omega, hattach _ hp hAp, ?_⟩
        rw [hchildren_par, List.any_append]
        apply Bool.or_eq_true_iff.mpr
        right
        simp
      · have hkl : k < s.files.length := by
          rw [hflen] at hk
          omega
        rw [hfD k, if_neg hkE]
        have hold := h.2.2.2.2.2 k hkl
        refine ⟨hold.1, ?_⟩
        intro p hpk
        have h2 := hold.2 p hpk
        refine ⟨by omega, hattach p h2.1 h2.2.1, ?_⟩
        by_cases hpp : p = parent
        · subst hpp
          rw [hchildren_par, List.any_append]
          apply Bool.or_eq_true_iff.mpr
          left
          exact h2.2.2
        · rw [hchildren_other p hpp]
          exact h2.2.2
  · -- names stay non-empty
    intro i hi e he
    have hilt : i < s.dirs.length := by
      rw [hlen2] at hi
      omega
    rcases hmem' i e he with heold | ⟨hip, hee⟩
    · exact hnn i hilt e heold
    · subst hee
      exact hne2

/-! ### `hardlink`, unfolded on success -/

theorem resolve_file_ok_lt {s : AbstractExecutor} (h : Inv s) {p : Str} {k : Nat}
    (hf : resolve_file s p = .ok k) : k < s.files.length := by
  unfold resolve_file at hf
  cases hr : resolve_node s p with
  | error e =>
    rw [hr] at hf
    cases hf
  | ok node =>
    rw [hr] at hf
    cases node with
    | DIR d => cases hf
    | FILE kk =>
      simp only [Except.ok.injEq] at hf
      subst hf
      obtain ⟨_, hloop⟩ := resolve_node_ok_pieces hr
      exact (resolveLoop_ok_file h _ 0 [] kk h.dirs_pos hloop).1

theorem hsInsert_mem (l : List Nat) (x y : Nat) : y ∈ hsInsert l x ↔ (y ∈ l ∨ y = x) := by
  unfold hsInsert
  by_cases hx : x ∈ l
  · rw [if_pos hx]
    constructor
    · exact Or.inl
    · rintro (h1 | rfl)
      · exact h1
      · exact hx
  · rw [if_neg hx]
    simp

theorem hsInsert_nodup {l : List Nat} (hn : l.Nodup) (x : Nat) : (hsInsert l x).Nodup := by
  unfold hsInsert
  by_cases hx : x ∈ l
  · rw [if_pos hx]
    exact hn
  · rw [if_neg hx]
    rw [List.nodup_append]
    refine ⟨hn, by simp, ?_⟩
    intro a ha hax
    simp only [List.mem_singleton] at hax
    subst hax
    exact hx ha

theorem hardlink_eq {s : AbstractExecutor} {old_path new_path : Str} {oldFile parent : Nat}
    (hof : resolve_file s old_path = .ok oldFile)
    (hpd : resolve_dir s (split_path new_path).1 = .ok parent)
    (hnx : name_exists s parent (split_path new_path).2 = false) :
    hardlink s old_path new_path = (.ok oldFile,
      { (updDir (updFile s oldFile
            (fun f => { f with parents := hsInsert f.parents parent }))
          parent (fun dd => { dd with children := (hmInsert dd.children
            (split_path new_path).2 (Node.FILE oldFile)) })) with
        recording := (s.recording ++
          [Operation.HARDLINK ((resolve_path s (Node.FILE oldFile)).getLast?.getD [])
            (make_path
              (updDir (updFile s oldFile
                  (fun f => { f with parents := hsInsert f.parents parent }))
                parent (fun dd => { dd with children := (hmInsert dd.children
                  (split_path new_path).2 (Node.FILE oldFile)) }))
              parent (split_path new_path).2)]),
        nodes_created := s.nodes_created + 1 }) := by
  unfold hardlink
  dsimp only
  rw [hof]
  dsimp only
  rw [hpd]
  dsimp only
  rw [if_neg (by simp [hnx])]
  rfl

theorem hardlink_dirD {s : AbstractExecutor} {parent : Nat} (hp : parent < s.dirs.length)
    (nm : Str) (n : Nat) (fn : File → File) (oldFile : Nat)
    (rec2 : List Operation) (nc : Nat) :
    ∀ j, dirD { (updDir (updFile s oldFile fn)
        parent (fun dd => { dd with children := hmInsert dd.children nm (Node.FILE n) })) with
      recording := rec2, nodes_created := nc } j =
      if j = parent then
        { dirD s parent with children := hmInsert (dirD s parent).children nm (Node.FILE n) }
      else dirD s j := by
  intro j
  rw [dirD_set_meta]
  by_cases hjp : j = parent
  · rw [if_pos hjp, hjp, dirD_updDir_same (updFile s oldFile fn) parent _ hp]
    rfl
  · rw [if_neg hjp, dirD_updDir_other _ parent j _ hjp]
    rfl

theorem hardlink_fileD {s : AbstractExecutor} {oldFile : Nat} (ho : oldFile < s.files.length)
    (fn : File → File) (p2 : Nat) (g : Dir → Dir) (rec2 : List Operation) (nc : Nat) :
    ∀ k, fileD { (updDir (updFile s oldFile fn) p2 g) with
      recording := rec2, nodes_created := nc } k =
      if k = oldFile then fn (fileD s oldFile) else fileD s k := by
  intro k
  rw [fileD_set_meta]
  show fileD (updFile s oldFile fn) k = _
  by_cases hk : k = oldFile
  · rw [if_pos hk, hk]
    exact fileD_updFile_same s oldFile fn ho
  · rw [if_neg hk]
    exact fileD_updFile_other s oldFile k fn hk

/-- `hardlink` on a resolvable old file and a fresh, slash-free, non-empty
new name preserves the invariant and name non-emptiness. -/
theorem hardlink_preserves {s : AbstractExecutor} {old_path new_path : Str}
    {oldFile parent : Nat}
    (h : Inv s) (hnn : NamesNonempty s)
    (hof : resolve_file s old_path = .ok oldFile)
    (hpd : resolve_dir s (split_path new_path).1 = .ok parent)
    (hnx : name_exists s parent (split_path new_path).2 = false)
    (hsl : '/' ∉ (split_path new_path).2) (hne2 : (split_path new_path).2 ≠ []) :
    Inv (hardlink s old_path new_path).2 ∧ NamesNonempty (hardlink s old_path new_path).2 := by
  obtain ⟨hp, hAp⟩ := resolve_dir_ok_attached h hpd
  have ho : oldFile < s.files.length := resolve_file_ok_lt h hof
  rw [hardlink_eq hof hpd hnx]
  have hD := hardlink_dirD (s := s) hp (split_path new_path).2 oldFile
    (fun f => { f with parents := hsInsert f.parents parent }) oldFile
    (s.recording ++ [Operation.HARDLINK ((resolve_path s (Node.FILE oldFile)).getLast?.getD [])
      (make_path
        (updDir (updFile s oldFile
            (fun f => { f with parents := hsInsert f.parents parent }))
          parent (fun dd => { dd with children := (hmInsert dd.children
            (split_path new_path).2 (Node.FILE oldFile)) }))
        parent (split_path new_path).2)]) (s.nodes_created + 1)
  have hfD := hardlink_fileD (s := s) ho
    (fun f => { f with parents := hsInsert f.parents parent }) parent
    (fun dd => { dd with children := (hmInsert dd.children
      (split_path new_path).2 (Node.FILE oldFile)) })
    (s.recording ++ [Operation.HARDLINK ((resolve_path s (Node.FILE oldFile)).getLast?.getD [])
      (make_path
        (updDir (updFile s oldFile
            (fun f => { f with parents := hsInsert f.parents parent }))
          parent (fun dd => { dd with children := (hmInsert dd.children
            (split_path new_path).2 (Node.FILE oldFile)) }))
        parent (split_path new_path).2)]) (s.nodes_created + 1)
  set S2 := ({ (updDir (updFile s oldFile
        (fun f => { f with parents := hsInsert f.parents parent }))
      parent (fun dd => { dd with children := (hmInsert dd.children
        (split_path new_path).2 (Node.FILE oldFile)) })) with
    recording := (s.recording ++
      [Operation.HARDLINK ((resolve_path s (Node.FILE oldFile)).getLast?.getD [])
        (make_path
          (updDir (updFile s oldFile
              (fun f => { f with parents := hsInsert f.parents parent }))
            parent (fun dd => { dd with children := (hmInsert dd.children
              (split_path new_path).2 (Node.FILE oldFile)) }))
          parent (split_path new_path).2)]),
    nodes_created := s.nodes_created + 1 } : AbstractExecutor) with hS2
  show Inv S2 ∧ NamesNonempty S2
  have hlen2 : S2.dirs.length = s.dirs.length := by
    rw [hS2]
    simp [updDir, updFile]
  have hflen : S2.files.length = s.files.length := by
    rw [hS2]
    simp [updDir, updFile]
  have hins := hmInsert_fresh hnx (Node.FILE oldFile)
  have hpar' : ∀ m, (dirD S2 m).parent = (dirD s m).parent := by
    intro m
    rw [hD m]
    by_cases hmp : m = parent
    · rw [if_pos hmp, hmp]
    · rw [if_neg hmp]
  have hmem' : ∀ i, ∀ e, e ∈ (dirD S2 i).children →
      e ∈ (dirD s i).children ∨
      (i = parent ∧ e = ((split_path new_path).2, Node.FILE oldFile)) := by
    intro i e he
    rw [hD i] at he
    by_cases hip : i = parent
    · rw [if_pos hip] at he
      simp only at he
      rw [hins] at he
      rcases List.mem_append.mp he with h1 | h1
      · left
        rw [hip]
        exact h1
      · right
        simp only [List.mem_singleton] at h1
        exact ⟨hip, h1⟩
    · rw [if_neg hip] at he
      exact Or.inl he
  have hchildren_par : (dirD S2 parent).children =
      (dirD s parent).children ++ [((split_path new_path).2, Node.FILE oldFile)] := by
    rw [hD parent, if_pos rfl]
    simp only
    exact hins
  have hchildren_other : ∀ i, i ≠ parent →
      (dirD S2 i).children = (dirD s i).children := by
    intro i h1
    rw [hD i, if_neg h1]
  have hnm' : ∀ q j, j < s.dirs.length → (dirD s j).parent = some q →
      parentNameOf S2 q j = parentNameOf s q j := by
    intro q j hj hq
    unfold parentNameOf
    by_cases hqp : q = parent
    · rw [hqp, hchildren_par, find?_append_right_none]
      intro y hy
      simp only [List.mem_singleton] at hy
      subst hy
      simp
    · rw [hchildren_other q hqp]
  have hattach : ∀ j, j < s.dirs.length → attachedNE s s.dirs.length j = true →
      attachedNE S2 S2.dirs.length j = true := by
    intro j hj hA
    rw [hlen2]
    exact attachedNE_transfer_on h (fun _ => True) (fun _ _ _ _ _ => trivial)
      (fun i _ _ => hpar' i) (fun q j2 hj2 _ hq => hnm' q j2 hj2 hq)
      s.dirs.length j hj trivial hA
  constructor
  · refine ⟨by omega, ?_, ?_, ?_, ?_, ?_⟩
    · -- parent indices decrease
      intro j hj p hpj
      rw [hpar' j] at hpj
      have hjl : j < s.dirs.length := by
        rw [hlen2] at hj
        omega
      exact h.parent_lt hjl hpj
    · -- keys nodup and childOk
      intro i hi
      have hilt : i < s.dirs.length := by
        rw [hlen2] at hi
        omega
      constructor
      · by_cases hip : i = parent
        · rw [hip, hchildren_par]
          exact keys_nodup_snoc h hp hnx _
        · rw [hchildren_other i hip]
          exact h.keys_nodup hilt
      · intro e he
        rcases hmem' i e he with heold | ⟨hip, hee⟩
        · -- an old entry: old childOk transfers
          have hold := h.child_ok hilt heold
          refine ⟨hold.1, ?_, ?_⟩
          · intro hdir
            have h2 := hold.2.1 hdir
            refine ⟨?_, ?_⟩
            · show e.2.idx < S2.dirs.length
              rw [hlen2]
              exact h2.1
            · show (dirD S2 e.2.idx).parent = some i
              rw [hpar' e.2.idx]
              exact h2.2
          · intro hfile
            have h2 := hold.2.2 hfile
            refine ⟨?_, ?_⟩
            · show e.2.idx < S2.files.length
              rw [hflen]
              exact h2.1
            · show i ∈ (fileD S2 e.2.idx).parents
              rw [hfD e.2.idx]
              by_cases hke : e.2.idx = oldFile
              · rw [if_pos hke]
                rw [hke] at h2
                exact (hsInsert_mem _ _ _).mpr (Or.inl h2.2)
              · rw [if_neg hke]
                exact h2.2
        · -- the new entry
          subst hee
          refine ⟨fun c hc hcc => hsl (hcc ▸ hc), ?_, ?_⟩
          · intro hdir
            simp [Node.isDirN] at hdir
          · intro _
            refine ⟨?_, ?_⟩
            · show oldFile < S2.files.length
              rw [hflen]
              exact ho
            · show i ∈ (fileD S2 oldFile).parents
              rw [hfD oldFile, if_pos rfl]
              exact (hsInsert_mem _ _ _).mpr (Or.inr hip)
    · -- directory reference uniqueness
      intro i1 hi1 i2 hi2 e1 he1 e2 he2
      rcases hmem' i1 e1 he1 with h1 | ⟨hip1, hee1⟩ <;>
        rcases hmem' i2 e2 he2 with h2 | ⟨hip2, hee2⟩
      · -- both old
        have hi1l : i1 < s.dirs.length := by
          rw [hlen2] at hi1
          omega
        have hi2l : i2 < s.dirs.length := by
          rw [hlen2] at hi2
          omega
        exact h.2.2.2.1 i1 hi1l i2 hi2l e1 h1 e2 h2
      · -- e2 is the new FILE entry
        subst hee2
        rw [dirUniqB_spec]
        intro _ hd2 _
        exact absurd hd2 (by simp [Node.isDirN])
      · -- e1 is the new FILE entry
        subst hee1
        rw [dirUniqB_spec]
        intro hd1 _ _
        exact absurd hd1 (by simp [Node.isDirN])
      · -- both the new FILE entry
        subst hee1
        subst hee2
        rw [dirUniqB_spec]
        intro hd1 _ _
        exact absurd hd1 (by simp [Node.isDirN])
    · -- dir_exists
      intro j hj p hpj
      rw [hpar' j] at hpj
      have hjl : j < s.dirs.length := by
        rw [hlen2] at hj
        omega
      have hold := h.2.2.2.2.1 j hjl p hpj
      by_cases hpp : p = parent
      · subst hpp
        rw [hchildren_par, List.any_append]
        apply Bool.or_eq_true_iff.mpr
        left
        exact hold
      · rw [hchildren_other p hpp]
        exact hold
    · -- files
      intro k hk
      have hkl : k < s.files.length := by
        rw [hflen] at hk
        omega
      have hold := h.2.2.2.2.2 k hkl
      rw [hfD k]
      by_cases hke : k = oldFile
      · -- the linked file: parents gain `parent`
        subst hke
        rw [if_pos rfl]
        refine ⟨hsInsert_nodup hold.1 parent, ?_⟩
        intro p hpk
        rcases (hsInsert_mem _ _ _).mp hpk with hin | hpq
        · have h2 := hold.2 p hin
          refine ⟨?_, hattach p h2.1 h2.2.1, ?_⟩
          · rw [hlen2]
            exact h2.1
          · by_cases hpp : p = parent
            · subst hpp
              rw [hchildren_par, List.any_append]
              apply Bool.or_eq_true_iff.mpr
              left
              exact h2.2.2
            · rw [hchildren_other p hpp]
              exact h2.2.2
        · refine ⟨?_, ?_, ?_⟩
          · rw [hpq, hlen2]
            exact hp
          · rw [hpq]
            exact hattach _ hp hAp
          · rw [hpq, hchildren_par, List.any_append]
            apply Bool.or_eq_true_iff.mpr
            right
            simp
      · -- other files unchanged
        rw [if_neg hke]
        refine ⟨hold.1, ?_⟩
        intro p hpk
        have h2 := hold.2 p hpk
        refine ⟨?_, hattach p h2.1 h2.2.1, ?_⟩
        · rw [hlen2]
          exact h2.1
        · by_cases hpp : p = parent
          · subst hpp
            rw [hchildren_par, List.any_append]
            apply Bool.or_eq_true_iff.mpr
            left
            exact h2.2.2
          · rw [hchildren_other p hpp]
            exact h2.2.2
  · -- names stay non-empty
    intro i hi e he
    have hilt : i < s.dirs.length := by
      rw [hlen2] at hi
      omega
    rcases hmem' i e he with heold | ⟨hip, hee⟩
    · exact hnn i hilt e heold
    · subst hee
      exact hne2

/-! ### `remove`, unfolded: the full state map on success -/

theorem keyed_entry_unique {l : List (Str × Node)} (hnd : (l.map Prod.fst).Nodup)
    {b : Str} {v : Node} (hg : hmGet l b = some v) :
    ∀ x ∈ l, x.1 = b → x.2 = v := by
  intro x hx hxb
  unfold hmGet at hg
  cases hf : l.find? (fun e => decide (e.1 = b)) with
  | none =>
    rw [hf] at hg
    cases hg
  | some e =>
    rw [hf] at hg
    simp only [Option.some.injEq] at hg
    have hel := List.mem_of_find?_eq_some hf
    have heb : e.1 = b := by
      have := List.find?_some hf
      simpa using this
    have hxe : x = e := List.inj_on_of_nodup_map hnd hx hel (by rw [hxb, heb])
    rw [hxe, hg]

theorem any_filter_of_any {α : Type} {l : List α} {p q : α → Bool}
    (h : l.any p = true) (hpq : ∀ x ∈ l, p x = true → q x = true) :
    (l.filter q).any p = true := by
  rw [List.any_eq_true] at h ⊢
  obtain ⟨x, hx, hpx⟩ := h
  exact ⟨x, List.mem_filter.mpr ⟨hx, hpq x hx hpx⟩, hpx⟩

theorem subtree_parent_in {s : AbstractExecutor} (h : Inv s) {d m p : Nat}
    (hd : d < s.dirs.length) (hm : m ∈ subtreeDirs s d) (hmd : m ≠ d)
    (hp : (dirD s m).parent = some p) : p ∈ subtreeDirs s d := by
  have hml : m < s.dirs.length := (subtree_lb h s.dirs.length d (by omega) hd m hm).2
  have hc := chain_of_subtree h s.dirs.length d (by omega) hd m hm
  rw [ancChain_parent h hml hp] at hc
  rcases List.mem_cons.mp hc with h1 | hc2
  · exact absurd h1.symm hmd
  · have hpl : p < s.dirs.length := lt_trans (h.parent_lt hml hp) hml
    exact subtree_of_chain h p hpl d hc2

theorem subtree_parent_out {s : AbstractExecutor} (h : Inv s) {d j p : Nat}
    (hd : d < s.dirs.length) (hj : j < s.dirs.length) (hjn : j ∉ subtreeDirs s d)
    (hp : (dirD s j).parent = some p) : p ∉ subtreeDirs s d := by
  intro hps
  obtain ⟨nm, hnm⟩ := h.dir_exists hj hp
  exact hjn (subtree_child h s.dirs.length d (by omega) hd p hps nm j hnm)

/-- The complete state map of a successful directory `remove`: bounds, the
`b`-keyed child of the parent, preserved lengths, the parent's filtered
children, untouched directories, the emptied subtree, and the filtered file
parents. -/
theorem remove_dir_state {s : AbstractExecutor} {path : Str} {d parentIdx : Nat}
    (h : Inv s)
    (hres : resolve_node s path = .ok (Node.DIR d))
    (hpd : resolve_dir s (split_path path).1 = .ok parentIdx)
    (hd0 : d ≠ 0) :
    d < s.dirs.length ∧ parentIdx < d ∧ parentIdx < s.dirs.length ∧
    hmGet (dirD s parentIdx).children (split_path path).2 = some (Node.DIR d) ∧
    (remove s path).2.dirs.length = s.dirs.length ∧
    (remove s path).2.files.length = s.files.length ∧
    dirD (remove s path).2 parentIdx =
      { dirD s parentIdx with children :=
          (hmRemove (dirD s parentIdx).children (split_path path).2) } ∧
    (∀ j, j ∉ subtreeDirs s d → j ≠ parentIdx →
      dirD (remove s path).2 j = dirD s j) ∧
    (∀ j ∈ subtreeDirs s d,
      dirD (remove s path).2 j = { parent := none, children := [] }) ∧
    (∀ k, (fileD (remove s path).2 k).parents =
      (fileD s k).parents.filter fun p => decide (p ∉ subtreeDirs s d)) ∧
    (remove s path).2.recording = s.recording ++ [Operation.REMOVE path] := by
  obtain ⟨hval, hloopPath⟩ := resolve_node_ok_pieces hres
  obtain ⟨hval1, hloopPar⟩ := resolve_node_ok_pieces (resolve_dir_ok_node hpd)
  push_neg at hval
  obtain ⟨hvne, hvhead, hvlast⟩ := hval
  have hslash : '/' ∈ path := by
    cases path with
    | nil => exact absurd rfl hvne
    | cons c0 rest =>
      simp only [List.head?_cons, Option.some.injEq] at hvhead
      rw [hvhead]
      exact List.mem_cons_self _ _
  obtain ⟨i, hri⟩ : ∃ i, rfindIdx '/' path = some i := by
    cases hr : rfindIdx '/' path with
    | some i => exact ⟨i, rfl⟩
    | none => exact absurd hslash ((rfindIdx_eq_none_iff '/' path).mp hr)
  obtain ⟨a, b, hab, hlen, hnb⟩ := rfindIdx_eq_some '/' path i hri
  have hroot : resolve_node s ['/'] = .ok (Node.DIR 0) := by
    unfold resolve_node
    rw [if_neg (by simp)]
    rfl
  have hbne : b ≠ [] := by
    intro hb0
    subst hb0
    have hlast : path.getLast? = some '/' := by
      rw [hab]
      exact List.getLast?_concat a
    have hpr : path = ['/'] := by
      by_contra hne
      exact hvlast hne hlast
    rw [hpr, hroot] at hres
    simp at hres
    omega
  have hpr2 : (split_path path).2 = b := by
    rw [split_path_parts hab hnb]
  have hsegs := segs_split hab hnb hbne
  have hparlen : parentIdx < s.dirs.length :=
    (resolveLoop_ok_dir_lt h _ 0 [] parentIdx h.dirs_pos hloopPar).1
  have hget : hmGet (dirD s parentIdx).children b = some (Node.DIR d) := by
    rw [hsegs, resolveLoop_append, hloopPar] at hloopPath
    dsimp only at hloopPath
    simp only [resolveLoop] at hloopPath
    cases hg : hmGet (dirD s parentIdx).children b with
    | none =>
      rw [hg] at hloopPath
      simp at hloopPath
    | some nxt =>
      rw [hg] at hloopPath
      cases nxt with
      | FILE kk => simp [resolveLoop] at hloopPath
      | DIR mm =>
        simp only [resolveLoop, Except.ok.injEq, Node.DIR.injEq] at hloopPath
        rw [hloopPath]
  have hmemd := hmGet_eq_some_mem hget
  have hdlen : d < s.dirs.length ∧ (dirD s d).parent = some parentIdx :=
    h.child_dir hparlen hmemd
  have hpard : parentIdx < d := h.parent_lt hdlen.1 hdlen.2
  have hrem := remove_dir_eq hres hpd hd0 rfl
  have hA : dirD (updDir { s with recording := s.recording ++ [Operation.REMOVE path] }
      parentIdx fun dd => { dd with children := hmRemove dd.children (split_path path).2 })
      d = dirD s d :=
    dirD_updDir_other _ parentIdx d _ (by omega)
  rw [hA] at hrem
  have hs' : (remove s path).2 =
      bfs ((updDir { s with recording := s.recording ++ [Operation.REMOVE path] }
          parentIdx fun dd =>
            { dd with children := hmRemove dd.children (split_path path).2 }).dirs.length +
        totalChildren (updDir { s with recording := s.recording ++ [Operation.REMOVE path] }
          parentIdx fun dd =>
            { dd with children := hmRemove dd.children (split_path path).2 }))
        (detachDir (updDir { s with recording := s.recording ++ [Operation.REMOVE path] }
          parentIdx fun dd =>
            { dd with children := hmRemove dd.children (split_path path).2 }) d)
        ((dirD s d).children.map fun e => (d, e.2)) := by
    rw [hrem]
  have hsub_eq : subtreeDirs s d =
      d :: removedDirs s ((dirD s d).children.map fun e => (d, e.2)) := by
    rw [removedDirs_kids]
    exact subtreeDirs_eq h hdlen.1
  have hnodup : (subtreeDirs s d).Nodup :=
    subtree_nodup h s.dirs.length d (by omega) hdlen.1
  have hnodup2 := hnodup
  rw [hsub_eq, List.nodup_cons] at hnodup2
  have hKbound : ∀ j ∈ removedDirs s ((dirD s d).children.map fun e => (d, e.2)),
      d < j ∧ j < s.dirs.length := by
    intro j hj
    have hjs : j ∈ subtreeDirs s d := by
      rw [hsub_eq]
      exact List.mem_cons_of_mem _ hj
    have hlb := subtree_lb h s.dirs.length d (by omega) hdlen.1 j hjs
    have hne : j ≠ d := by
      intro hh
      subst hh
      exact hnodup2.1 hj
    exact ⟨by omega, hlb.2⟩
  have hrange' : ∀ j ∈ removedDirs s ((dirD s d).children.map fun e => (d, e.2)),
      j < s.dirs.length ∧
      dirD (detachDir (updDir { s with recording := s.recording ++ [Operation.REMOVE path] }
        parentIdx fun dd =>
          { dd with children := hmRemove dd.children (split_path path).2 }) d) j =
        dirD s j := by
    intro j hj
    have hb := hKbound j hj
    refine ⟨hb.2, ?_⟩
    rw [dirD_detach_other _ (show j ≠ d by omega)]
    rw [dirD_updDir_other _ parentIdx j _ (show j ≠ parentIdx by omega)]
    rfl
  have hlen2 : (updDir { s with recording := s.recording ++ [Operation.REMOVE path] }
      parentIdx fun dd =>
        { dd with children := hmRemove dd.children (split_path path).2 }).dirs.length =
      s.dirs.length := by
    simp [updDir]
  have hsub_mem : ∀ j ∈ subtreeDirs s d, j < s.dirs.length := fun j hj =>
    (subtree_lb h s.dirs.length d (by omega) hdlen.1 j hj).2
  have hchild_eq : ∀ j ∈ subtreeDirs s d,
      dirD (updDir { s with recording := s.recording ++ [Operation.REMOVE path] }
        parentIdx fun dd =>
          { dd with children := hmRemove dd.children (split_path path).2 }) j = dirD s j := by
    intro j hj
    have hdj : d ≤ j := (subtree_lb h s.dirs.length d (by omega) hdlen.1 j hj).1
    rw [dirD_updDir_other _ parentIdx j _ (show j ≠ parentIdx by omega)]
    rfl
  have hfuel' : ((dirD s d).children.map fun e => ((d, e.2) : Nat × Node)).length +
      ((removedDirs s ((dirD s d).children.map fun e => (d, e.2))).map
        fun j => (dirD s j).children.length).sum ≤
      (updDir { s with recording := s.recording ++ [Operation.REMOVE path] }
        parentIdx fun dd =>
          { dd with children := hmRemove dd.children (split_path path).2 }).dirs.length +
      totalChildren (updDir { s with recording := s.recording ++ [Operation.REMOVE path] }
        parentIdx fun dd =>
          { dd with children := hmRemove dd.children (split_path path).2 }) := by
    have hL : ((dirD s d).children.map fun e => ((d, e.2) : Nat × Node)).length =
        (dirD s d).children.length := List.length_map _ _
    have hmapeq : ((subtreeDirs s d).map fun j => (dirD s j).children.length) =
        ((subtreeDirs s d).map fun j =>
          (dirD (updDir { s with recording := s.recording ++ [Operation.REMOVE path] }
            parentIdx fun dd =>
              { dd with children := hmRemove dd.children (split_path path).2 }) j).children.length) := by
      apply List.map_congr_left
      intro j hj
      rw [hchild_eq j hj]
    have hse := congrArg List.sum hmapeq
    have hsum_le : ((subtreeDirs s d).map fun j =>
        (dirD (updDir { s with recording := s.recording ++ [Operation.REMOVE path] }
          parentIdx fun dd =>
            { dd with children := hmRemove dd.children (split_path path).2 }) j).children.length).sum ≤
        totalChildren (updDir { s with recording := s.recording ++ [Operation.REMOVE path] }
          parentIdx fun dd =>
            { dd with children := hmRemove dd.children (split_path path).2 }) :=
      sum_getD_le _ (subtreeDirs s d) hnodup
        (fun j hj => by rw [hlen2]; exact hsub_mem j hj)
        (fun dd => dd.children.length) { parent := none, children := [] }
    have hexp : ((subtreeDirs s d).map fun j => (dirD s j).children.length).sum =
        (dirD s d).children.length +
        ((removedDirs s ((dirD s d).children.map fun e => (d, e.2))).map
          fun j => (dirD s j).children.length).sum := by
      rw [hsub_eq]
      simp
    omega
  obtain ⟨b1, b2, b3, b4, b5, b6⟩ :=
    bfs_spec h _ (detachDir (updDir { s with recording := s.recording ++ [Operation.REMOVE path] }
      parentIdx fun dd =>
        { dd with children := hmRemove dd.children (split_path path).2 }) d)
      ((dirD s d).children.map fun e => (d, e.2)) hnodup2.2 hrange' hfuel'
  refine ⟨hdlen.1, hpard, hparlen, by rw [hpr2]; exact hget, ?_, ?_, ?_, ?_, ?_, ?_, ?_⟩
  · rw [hs', b1]
    simp [detachDir, updDir]
  · rw [hs', b2]
    rfl
  · rw [hs']
    rw [b4 parentIdx (fun hin => by have := (hKbound parentIdx hin).1; omega),
      dirD_detach_other _ (show parentIdx ≠ d by omega),
      dirD_updDir_same _ parentIdx _ (by show parentIdx < s.dirs.length; omega)]
    rfl
  · intro j hjs hjp
    rw [hs']
    have hjK : j ∉ removedDirs s ((dirD s d).children.map fun e => (d, e.2)) := by
      intro hin
      exact hjs (by rw [hsub_eq]; exact List.mem_cons_of_mem _ hin)
    have hjd : j ≠ d := by
      intro hh
      subst hh
      exact hjs (self_mem_subtree h hdlen.1)
    rw [b4 j hjK, dirD_detach_other _ hjd, dirD_updDir_other _ parentIdx j _ hjp]
    rfl
  · intro j hj
    rw [hs']
    rw [hsub_eq] at hj
    rcases List.mem_cons.mp hj with hjd | hjK
    · subst hjd
      rw [b4 j hnodup2.1, dirD_detach_self]
    · rw [b5 j hjK]
  · intro k
    rw [hs', b6 k]
    apply List.filter_congr
    intro x hx
    have hx2 : x ∈ (fileD s k).parents := hx
    rcases Nat.lt_or_ge k s.files.length with hk | hk
    · have hfp := h.file_parent hk hx2
      rw [kids_any_hits h hdlen.1 k x, hfp.2.2]
      simp [decide_not]
    · exfalso
      rw [fileD_default s hk] at hx2
      cases hx2
  · rw [hs', b3]
    rfl

/-- A successful directory `remove` preserves the invariant and name
non-emptiness. -/
theorem remove_dir_preserves {s : AbstractExecutor} {path : Str} {d parentIdx : Nat}
    (h : Inv s) (hnn : NamesNonempty s)
    (hres : resolve_node s path = .ok (Node.DIR d))
    (hpd : resolve_dir s (split_path path).1 = .ok parentIdx)
    (hd0 : d ≠ 0) :
    Inv (remove s path).2 ∧ NamesNonempty (remove s path).2 := by
  obtain ⟨hdl, hpard, hparl, hget, hlenD, hlenF, hDpar, hDother, hDsub, hFpar, hRec⟩ :=
    remove_dir_state h hres hpd hd0
  have hmemd := hmGet_eq_some_mem hget
  have hkey : ∀ x ∈ (dirD s parentIdx).children,
      x.1 = (split_path path).2 → x.2 = Node.DIR d :=
    keyed_entry_unique (h.keys_nodup hparl) hget
  have hpns : parentIdx ∉ subtreeDirs s d := by
    intro hin
    have := (subtree_lb h s.dirs.length d (by omega) hdl parentIdx hin).1
    omega
  have hpar' : ∀ m, m ∉ subtreeDirs s d →
      (dirD (remove s path).2 m).parent = (dirD s m).parent := by
    intro m hm
    by_cases hmp : m = parentIdx
    · subst hmp
      rw [hDpar]
    · rw [hDother m hm hmp]
  have hmem' : ∀ i e, e ∈ (dirD (remove s path).2 i).children →
      e ∈ (dirD s i).children := by
    intro i e he
    by_cases his : i ∈ subtreeDirs s d
    · rw [hDsub i his] at he
      cases he
    · by_cases hip : i = parentIdx
      · subst hip
        rw [hDpar] at he
        simp only at he
        exact List.mem_of_mem_filter he
      · rw [hDother i his hip] at he
        exact he
  have hnm' : ∀ q j, j < s.dirs.length → j ∉ subtreeDirs s d →
      (dirD s j).parent = some q →
      parentNameOf (remove s path).2 q j = parentNameOf s q j := by
    intro q j hj hjs hq
    have hqs : q ∉ subtreeDirs s d := subtree_parent_out h hdl hj hjs hq
    unfold parentNameOf
    by_cases hqp : q = parentIdx
    · rw [hqp, hDpar]
      simp only
      have hcond : ∀ x ∈ (dirD s parentIdx).children,
          (fun e => decide (e.2 = Node.DIR j)) x = true →
          (fun e => decide (e.1 ≠ (split_path path).2)) x = true := by
        intro x hx hpx
        simp only [decide_eq_true_eq] at hpx
        refine decide_eq_true ?_
        intro hxb
        have hxd := hkey x hx hxb
        rw [hpx] at hxd
        injection hxd with hjd
        subst hjd
        exact hjs (self_mem_subtree h hdl)
      rw [show hmRemove (dirD s parentIdx).children (split_path path).2 =
        (dirD s parentIdx).children.filter
          (fun e => decide (e.1 ≠ (split_path path).2)) from rfl]
      rw [find?_filter _ _ _ hcond]
    · rw [hDother q hqs hqp]
  have hattach : ∀ j, j < s.dirs.length → j ∉ subtreeDirs s d →
      attachedNE s s.dirs.length j = true →
      attachedNE (remove s path).2 (remove s path).2.dirs.length j = true := by
    intro j hj hjs hA
    rw [hlenD]
    exact attachedNE_transfer_on h (fun m => m ∉ subtreeDirs s d)
      (fun j2 p hj2 hP hp => subtree_parent_out h hdl hj2 hP hp)
      (fun i _ hP => hpar' i hP)
      (fun q j2 hj2 hP hq => hnm' q j2 hj2 hP hq)
      s.dirs.length j hj hjs hA
  have hdirout : ∀ i, i < s.dirs.length → ∀ e,
      e ∈ (dirD (remove s path).2 i).children → ∀ m, e.2 = Node.DIR m →
      m ∉ subtreeDirs s d := by
    intro i hi e hmem m hv hms
    have hmemS := hmem' i e hmem
    have he2 : (e.1, Node.DIR m) ∈ (dirD s i).children := by
      rw [← hv]
      exact hmemS
    have hpm := (h.child_dir hi he2).2
    by_cases hmd : m = d
    · subst hmd
      obtain ⟨hip, hnb2⟩ := h.dir_uniq hi hparl he2 hmemd
      subst hip
      rw [hDpar] at hmem
      simp only at hmem
      have hf2 := (List.mem_filter.mp hmem).2
      rw [hnb2] at hf2
      simp at hf2
    · have hin := subtree_parent_in h hdl hms hmd hpm
      rw [hDsub i hin] at hmem
      cases hmem
  constructor
  · refine ⟨?_, ?_, ?_, ?_, ?_, ?_⟩
    · rw [hlenD]
      exact h.dirs_pos
    · -- parent indices decrease
      intro j hj p hpj
      rw [hlenD] at hj
      by_cases hjs : j ∈ subtreeDirs s d
      · rw [hDsub j hjs] at hpj
        simp at hpj
      · rw [hpar' j hjs] at hpj
        exact h.parent_lt hj hpj
    · -- keys nodup and childOk
      intro i hi
      rw [hlenD] at hi
      constructor
      · by_cases his : i ∈ subtreeDirs s d
        · rw [hDsub i his]
          exact List.nodup_nil
        · by_cases hip : i = parentIdx
          · subst hip
            rw [hDpar]
            simp only
            exact List.Nodup.sublist
              (List.Sublist.map _ (List.filter_sublist _)) (h.keys_nodup hparl)
          · rw [hDother i his hip]
            exact h.keys_nodup hi
      · intro e he
        have heS := hmem' i e he
        have hold := h.child_ok hi heS
        have his : i ∉ subtreeDirs s d := by
          intro hin
          rw [hDsub i hin] at he
          cases he
        refine ⟨hold.1, ?_, ?_⟩
        · intro hdir
          have h2 := hold.2.1 hdir
          have hmn : e.2.idx ∉ subtreeDirs s d := by
            apply hdirout i hi e he
            cases hv : e.2 with
            | FILE kk =>
              rw [hv] at hdir
              simp [Node.isDirN] at hdir
            | DIR m => rfl
          refine ⟨?_, ?_⟩
          · show e.2.idx < (remove s path).2.dirs.length
            rw [hlenD]
            exact h2.1
          · show (dirD (remove s path).2 e.2.idx).parent = some i
            rw [hpar' e.2.idx hmn]
            exact h2.2
        · intro hfile
          have h2 := hold.2.2 hfile
          refine ⟨?_, ?_⟩
          · show e.2.idx < (remove s path).2.files.length
            rw [hlenF]
            exact h2.1
          · show i ∈ (fileD (remove s path).2 e.2.idx).parents
            rw [hFpar e.2.idx]
            exact List.mem_filter.mpr ⟨h2.2, by simpa using his⟩
    · -- directory reference uniqueness
      intro i1 hi1 i2 hi2 e1 he1 e2 he2
      rw [hlenD] at hi1 hi2
      exact h.2.2.2.1 i1 hi1 i2 hi2 e1 (hmem' i1 e1 he1) e2 (hmem' i2 e2 he2)
    · -- dir_exists
      intro j hj p hpj
      rw [hlenD] at hj
      by_cases hjs : j ∈ subtreeDirs s d
      · rw [hDsub j hjs] at hpj
        simp at hpj
      · rw [hpar' j hjs] at hpj
        have hany := h.2.2.2.2.1 j hj p hpj
        have hps : p ∉ subtreeDirs s d := subtree_parent_out h hdl hj hjs hpj
        by_cases hpp : p = parentIdx
        · subst hpp
          rw [hDpar]
          simp only
          apply any_filter_of_any hany
          intro x hx hpx
          simp only [decide_eq_true_eq] at hpx
          refine decide_eq_true ?_
          intro hxb
          have hxd := hkey x hx hxb
          rw [hpx] at hxd
          injection hxd with hjd
          subst hjd
          exact hjs (self_mem_subtree h hdl)
        · rw [hDother p hps hpp]
          exact hany
    · -- files
      intro k hk
      rw [hlenF] at hk
      have hold := h.2.2.2.2.2 k hk
      constructor
      · rw [hFpar k]
        exact List.Nodup.filter _ hold.1
      · intro p hpk
        rw [hFpar k] at hpk
        obtain ⟨hpold, hpf⟩ := List.mem_filter.mp hpk
        have hps : p ∉ subtreeDirs s d := by simpa using hpf
        have h2 := hold.2 p hpold
        refine ⟨?_, ?_, ?_⟩
        · rw [hlenD]
          exact h2.1
        · exact hattach p h2.1 hps h2.2.1
        · by_cases hpp : p = parentIdx
          · subst hpp
            rw [hDpar]
            simp only
            apply any_filter_of_any h2.2.2
            intro x hx hpx
            simp only [decide_eq_true_eq] at hpx
            refine decide_eq_true ?_
            intro hxb
            have hxd := hkey x hx hxb
            rw [hpx] at hxd
            cases hxd
          · rw [hDother p hps hpp]
            exact h2.2.2
  · -- names stay non-empty
    intro i hi e he
    rw [hlenD] at hi
    exact hnn i hi e (hmem' i e he)

/-! ### `remove` of a file -/

theorem remove_get_entry {s : AbstractExecutor} {path : Str} {v : Node} {parentIdx : Nat}
    (h : Inv s)
    (hres : resolve_node s path = .ok v)
    (hpd : resolve_dir s (split_path path).1 = .ok parentIdx)
    (hnotroot : v ≠ Node.DIR 0) :
    parentIdx < s.dirs.length ∧
    (split_path path).2 ≠ [] ∧
    hmGet (dirD s parentIdx).children (split_path path).2 = some v := by
  obtain ⟨hval, hloopPath⟩ := resolve_node_ok_pieces hres
  obtain ⟨hval1, hloopPar⟩ := resolve_node_ok_pieces (resolve_dir_ok_node hpd)
  push_neg at hval
  obtain ⟨hvne, hvhead, hvlast⟩ := hval
  have hslash : '/' ∈ path := by
    cases path with
    | nil => exact absurd rfl hvne
    | cons c0 rest =>
      simp only [List.head?_cons, Option.some.injEq] at hvhead
      rw [hvhead]
      exact List.mem_cons_self _ _
  obtain ⟨i, hri⟩ : ∃ i, rfindIdx '/' path = some i := by
    cases hr : rfindIdx '/' path with
    | some i => exact ⟨i, rfl⟩
    | none => exact absurd hslash ((rfindIdx_eq_none_iff '/' path).mp hr)
  obtain ⟨a, b, hab, hlen, hnb⟩ := rfindIdx_eq_some '/' path i hri
  have hroot : resolve_node s ['/'] = .ok (Node.DIR 0) := by
    unfold resolve_node
    rw [if_neg (by simp)]
    rfl
  have hbne : b ≠ [] := by
    intro hb0
    subst hb0
    have hlast : path.getLast? = some '/' := by
      rw [hab]
      exact List.getLast?_concat a
    have hpr : path = ['/'] := by
      by_contra hne
      exact hvlast hne hlast
    rw [hpr, hroot] at hres
    simp only [Except.ok.injEq] at hres
    exact hnotroot hres.symm
  have hpr2 : (split_path path).2 = b := by
    rw [split_path_parts hab hnb]
  have hsegs := segs_split hab hnb hbne
  have hparlen : parentIdx < s.dirs.length :=
    (resolveLoop_ok_dir_lt h _ 0 [] parentIdx h.dirs_pos hloopPar).1
  have hget : hmGet (dirD s parentIdx).children b = some v := by
    rw [hsegs, resolveLoop_append, hloopPar] at hloopPath
    dsimp only at hloopPath
    simp only [resolveLoop] at hloopPath
    cases hg : hmGet (dirD s parentIdx).children b with
    | none =>
      rw [hg] at hloopPath
      simp at hloopPath
    | some nxt =>
      rw [hg] at hloopPath
      cases nxt with
      | FILE kk =>
        simp only [resolveLoop, Except.ok.injEq] at hloopPath
        rw [hloopPath]
      | DIR mm =>
        simp only [resolveLoop, Except.ok.injEq] at hloopPath
        rw [hloopPath]
  refine ⟨hparlen, ?_, ?_⟩
  · rw [hpr2]
    exact hbne
  · rw [hpr2]
    exact hget

theorem attachedNE_congr_dirs {s s' : AbstractExecutor} (hd : s.dirs = s'.dirs) :
    ∀ f j, attachedNE s f j = attachedNE s' f j := by
  have hdD : ∀ m, dirD s m = dirD s' m := by
    intro m
    unfold dirD
    rw [hd]
  have hpn : ∀ p c, parentNameOf s p c = parentNameOf s' p c := by
    intro p c
    unfold parentNameOf
    rw [hdD p]
  intro f
  induction f with
  | zero => intro j; rfl
  | succ f ih =>
    intro j
    simp only [attachedNE]
    rw [hdD j]
    cases (dirD s' j).parent with
    | none => rfl
    | some p =>
      dsimp only
      rw [hpn p j, ih p]

theorem remove_file_dirD {s : AbstractExecutor} {parentIdx : Nat}
    (hp : parentIdx < s.dirs.length) (rec2 : List Operation) (nm : Str) :
    ∀ j, dirD (updDir { s with recording := rec2 } parentIdx
        (fun dd => { dd with children := (hmRemove dd.children nm) })) j =
      if j = parentIdx then
        { dirD s parentIdx with children := (hmRemove (dirD s parentIdx).children nm) }
      else dirD s j := by
  intro j
  by_cases hjp : j = parentIdx
  · rw [if_pos hjp, hjp]
    exact dirD_updDir_same { s with recording := rec2 } parentIdx _ hp
  · rw [if_neg hjp]
    exact dirD_updDir_other { s with recording := rec2 } parentIdx j _ hjp

theorem remove_file_eq_true {s : AbstractExecutor} {path : Str} {k parentIdx : Nat}
    (hres : resolve_node s path = .ok (Node.FILE k))
    (hpd : resolve_dir s (split_path path).1 = .ok parentIdx)
    (hcond : ((dirD (updDir { s with recording := s.recording ++ [Operation.REMOVE path] }
        parentIdx fun dd => { dd with children := (hmRemove dd.children (split_path path).2) })
        parentIdx).children.any fun e => decide (e.2 = Node.FILE k)) = true) :
    remove s path = (.ok (),
      updDir { s with recording := s.recording ++ [Operation.REMOVE path] }
        parentIdx fun dd => { dd with children := (hmRemove dd.children (split_path path).2) }) := by
  unfold remove
  rw [hres]
  dsimp only
  rw [hpd]
  dsimp only
  rw [if_pos hcond]

theorem remove_file_eq_false {s : AbstractExecutor} {path : Str} {k parentIdx : Nat}
    (hres : resolve_node s path = .ok (Node.FILE k))
    (hpd : resolve_dir s (split_path path).1 = .ok parentIdx)
    (hcond : ((dirD (updDir { s with recording := s.recording ++ [Operation.REMOVE path] }
        parentIdx fun dd => { dd with children := (hmRemove dd.children (split_path path).2) })
        parentIdx).children.any fun e => decide (e.2 = Node.FILE k)) = false) :
    remove s path = (.ok (),
      updFile (updDir { s with recording := s.recording ++ [Operation.REMOVE path] }
        parentIdx fun dd => { dd with children := (hmRemove dd.children (split_path path).2) })
        k fun f => { f with parents := hsRemove f.parents parentIdx }) := by
  unfold remove
  rw [hres]
  dsimp only
  rw [hpd]
  dsimp only
  rw [if_neg (by simp [hcond])]

/-- A successful file `remove` preserves the invariant and name
non-emptiness. -/
theorem remove_file_preserves {s : AbstractExecutor} {path : Str} {k parentIdx : Nat}
    (h : Inv s) (hnn : NamesNonempty s)
    (hres : resolve_node s path = .ok (Node.FILE k))
    (hpd : resolve_dir s (split_path path).1 = .ok parentIdx) :
    Inv (remove s path).2 ∧ NamesNonempty (remove s path).2 := by
  obtain ⟨hparl, hbne, hget⟩ := remove_get_entry h hres hpd (by intro hh; cases hh)
  have hmemd := hmGet_eq_some_mem hget
  have hkf := h.child_file hparl hmemd
  have hkey : ∀ x ∈ (dirD s parentIdx).children,
      x.1 = (split_path path).2 → x.2 = Node.FILE k :=
    keyed_entry_unique (h.keys_nodup hparl) hget
  have hD := remove_file_dirD (s := s) hparl
    (s.recording ++ [Operation.REMOVE path]) (split_path path).2
  set S1 := updDir { s with recording := s.recording ++ [Operation.REMOVE path] }
    parentIdx (fun dd => { dd with children := (hmRemove dd.children (split_path path).2) })
    with hS1
  have hlen1 : S1.dirs.length = s.dirs.length := by
    rw [hS1]
    simp [updDir]
  have hfile1 : ∀ m, fileD S1 m = fileD s m := fun m => rfl
  have hflen1 : S1.files.length = s.files.length := rfl
  have hpar1 : ∀ m, (dirD S1 m).parent = (dirD s m).parent := by
    intro m
    rw [hD m]
    by_cases hmp : m = parentIdx
    · rw [if_pos hmp, hmp]
    · rw [if_neg hmp]
  have hch_par : (dirD S1 parentIdx).children =
      (dirD s parentIdx).children.filter fun e => decide (e.1 ≠ (split_path path).2) := by
    rw [hD parentIdx, if_pos rfl]
    rfl
  have hch_other : ∀ i, i ≠ parentIdx → (dirD S1 i).children = (dirD s i).children := by
    intro i hip
    rw [hD i, if_neg hip]
  have hmem1 : ∀ i e, e ∈ (dirD S1 i).children → e ∈ (dirD s i).children := by
    intro i e he
    by_cases hip : i = parentIdx
    · rw [hip] at he ⊢
      rw [hch_par] at he
      exact List.mem_of_mem_filter he
    · rw [hch_other i hip] at he
      exact he
  have hnm1 : ∀ q j, j < s.dirs.length → (dirD s j).parent = some q →
      parentNameOf S1 q j = parentNameOf s q j := by
    intro q j hj hq
    unfold parentNameOf
    by_cases hqp : q = parentIdx
    · rw [hqp, hch_par]
      have hcond2 : ∀ x ∈ (dirD s parentIdx).children,
          (fun e => decide (e.2 = Node.DIR j)) x = true →
          (fun e => decide (e.1 ≠ (split_path path).2)) x = true := by
        intro x hx hpx
        simp only [decide_eq_true_eq] at hpx
        refine decide_eq_true ?_
        intro hxb
        have hxd := hkey x hx hxb
        rw [hpx] at hxd
        cases hxd
      rw [find?_filter _ _ _ hcond2]
    · rw [hch_other q hqp]
  have hattach1 : ∀ j, j < s.dirs.length → attachedNE s s.dirs.length j = true →
      attachedNE S1 S1.dirs.length j = true := by
    intro j hj hA
    rw [hlen1]
    exact attachedNE_transfer_on h (fun _ => True) (fun _ _ _ _ _ => trivial)
      (fun i _ _ => hpar1 i) (fun q j2 hj2 _ hq => hnm1 q j2 hj2 hq)
      s.dirs.length j hj trivial hA
  have hanyDir : ∀ j p, j < s.dirs.length → (dirD s j).parent = some p →
      ((dirD S1 p).children.any fun e => decide (e.2 = Node.DIR j)) = true := by
    intro j p hj hpj
    have hany := h.2.2.2.2.1 j hj p hpj
    by_cases hpp : p = parentIdx
    · rw [hpp, hch_par]
      apply any_filter_of_any (by rw [← hpp]; exact hany)
      intro x hx hpx
      simp only [decide_eq_true_eq] at hpx
      refine decide_eq_true ?_
      intro hxb
      have hxd := hkey x hx hxb
      rw [hpx] at hxd
      cases hxd
    · rw [hch_other p hpp]
      exact hany
  have hanyFile : ∀ kk p, kk ≠ k →
      ((dirD s p).children.any fun e => decide (e.2 = Node.FILE kk)) = true →
      ((dirD S1 p).children.any fun e => decide (e.2 = Node.FILE kk)) = true := by
    intro kk p hkk hany
    by_cases hpp : p = parentIdx
    · rw [hpp, hch_par]
      apply any_filter_of_any (by rw [← hpp]; exact hany)
      intro x hx hpx
      simp only [decide_eq_true_eq] at hpx
      refine decide_eq_true ?_
      intro hxb
      have hxd := hkey x hx hxb
      rw [hpx] at hxd
      injection hxd with hkd
      exact hkk hkd
    · rw [hch_other p hpp]
      exact hany
  by_cases hcond : ((dirD S1 parentIdx).children.any
      fun e => decide (e.2 = Node.FILE k)) = true
  · -- another link to the file remains: only the parent entry is dropped
    have hre := remove_file_eq_true hres hpd (by rw [← hS1]; exact hcond)
    have hT : (remove s path).2 = S1 := by
      rw [hre, hS1]
    rw [hT]
    constructor
    · refine ⟨?_, ?_, ?_, ?_, ?_, ?_⟩
      · rw [hlen1]
        exact h.dirs_pos
      · intro j hj p hpj
        rw [hlen1] at hj
        rw [hpar1 j] at hpj
        exact h.parent_lt hj hpj
      · intro i hi
        rw [hlen1] at hi
        constructor
        · by_cases hip : i = parentIdx
          · rw [hip, hch_par]
            exact List.Nodup.sublist
              (List.Sublist.map _ (List.filter_sublist _)) (h.keys_nodup hparl)
          · rw [hch_other i hip]
            exact h.keys_nodup hi
        · intro e he
          have heS := hmem1 i e he
          have hold := h.child_ok hi heS
          refine ⟨hold.1, ?_, ?_⟩
          · intro hdir
            have h2 := hold.2.1 hdir
            refine ⟨?_, ?_⟩
            · show e.2.idx < S1.dirs.length
              rw [hlen1]
              exact h2.1
            · show (dirD S1 e.2.idx).parent = some i
              rw [hpar1 e.2.idx]
              exact h2.2
          · intro hfile
            have h2 := hold.2.2 hfile
            refine ⟨?_, ?_⟩
            · show e.2.idx < S1.files.length
              rw [hflen1]
              exact h2.1
            · show i ∈ (fileD S1 e.2.idx).parents
              rw [hfile1 e.2.idx]
              exact h2.2
      · intro i1 hi1 i2 hi2 e1 he1 e2 he2
        rw [hlen1] at hi1 hi2
        exact h.2.2.2.1 i1 hi1 i2 hi2 e1 (hmem1 i1 e1 he1) e2 (hmem1 i2 e2 he2)
      · intro j hj p hpj
        rw [hlen1] at hj
        rw [hpar1 j] at hpj
        exact hanyDir j p hj hpj
      · intro kk hk
        rw [hflen1] at hk
        have hold := h.2.2.2.2.2 kk hk
        rw [hfile1 kk]
        refine ⟨hold.1, ?_⟩
        intro p hpk
        have h2 := hold.2 p hpk
        refine ⟨?_, hattach1 p h2.1 h2.2.1, ?_⟩
        · rw [hlen1]
          exact h2.1
        · by_cases hkk : kk = k
          · subst hkk
            by_cases hpp : p = parentIdx
            · rw [hpp]
              exact hcond
            · rw [hch_other p hpp]
              exact h2.2.2
          · exact hanyFile kk p hkk h2.2.2
    · intro i hi e he
      rw [hlen1] at hi
      exact hnn i hi e (hmem1 i e he)
  · -- the last link in this directory: the parent is dropped from the file
    rw [Bool.not_eq_true] at hcond
    have hre := remove_file_eq_false hres hpd (by rw [← hS1]; exact hcond)
    have hT : (remove s path).2 =
        updFile S1 k fun f => { f with parents := hsRemove f.parents parentIdx } := by
      rw [hre, hS1]
    have hnoFk : ∀ e ∈ (dirD S1 parentIdx).children, e.2 ≠ Node.FILE k := by
      intro e he hv
      have := List.any_eq_false.mp hcond e he
      simp [hv] at this
    rw [hT]
    set T := updFile S1 k fun f => { f with parents := hsRemove f.parents parentIdx } with hTd
    have hdT : ∀ j, dirD T j = dirD S1 j := fun j => rfl
    have hlenT : T.dirs.length = S1.dirs.length := rfl
    have hflenT : T.files.length = s.files.length := by
      rw [hTd]
      show (S1.files.set k _).length = s.files.length
      rw [List.length_set]
      exact hflen1
    have hfT : ∀ m, fileD T m =
        if m = k then { parents := hsRemove (fileD s k).parents parentIdx }
        else fileD s m := by
      intro m
      by_cases hmk : m = k
      · rw [if_pos hmk, hmk]
        have := fileD_updFile_same S1 k
          (fun f => { f with parents := hsRemove f.parents parentIdx })
          (show k < S1.files.length from hkf.1)
        rw [hTd] at *
        exact this
      · rw [if_neg hmk]
        exact fileD_updFile_other S1 k m _ hmk
    constructor
    · refine ⟨?_, ?_, ?_, ?_, ?_, ?_⟩
      · rw [hlenT, hlen1]
        exact h.dirs_pos
      · intro j hj p hpj
        rw [hlenT, hlen1] at hj
        rw [hdT j, hpar1 j] at hpj
        exact h.parent_lt hj hpj
      · intro i hi
        rw [hlenT, hlen1] at hi
        constructor
        · rw [hdT i]
          by_cases hip : i = parentIdx
          · rw [hip, hch_par]
            exact List.Nodup.sublist
              (List.Sublist.map _ (List.filter_sublist _)) (h.keys_nodup hparl)
          · rw [hch_other i hip]
            exact h.keys_nodup hi
        · intro e he
          rw [hdT i] at he
          have heS := hmem1 i e he
          have hold := h.child_ok hi heS
          refine ⟨hold.1, ?_, ?_⟩
          · intro hdir
            have h2 := hold.2.1 hdir
            refine ⟨?_, ?_⟩
            · show e.2.idx < T.dirs.length
              rw [hlenT, hlen1]
              exact h2.1
            · show (dirD T e.2.idx).parent = some i
              rw [hdT e.2.idx, hpar1 e.2.idx]
              exact h2.2
          · intro hfile
            have h2 := hold.2.2 hfile
            refine ⟨?_, ?_⟩
            · show e.2.idx < T.files.length
              rw [hflenT]
              exact h2.1
            · show i ∈ (fileD T e.2.idx).parents
              rw [hfT e.2.idx]
              by_cases hek : e.2.idx = k
              · rw [if_pos hek]
                have hip : i ≠ parentIdx := by
                  intro hh
                  subst hh
                  apply hnoFk e he
                  cases hv : e.2 with
                  | DIR m =>
                    rw [hv] at hfile
                    simp [Node.isDirN] at hfile
                  | FILE m =>
                    rw [hv] at hek
                    simp only [Node.idx] at hek
                    rw [hek]
                show i ∈ (fileD s k).parents.filter fun y => decide (y ≠ parentIdx)
                refine List.mem_filter.mpr ⟨?_, by simpa using hip⟩
                rw [← hek]
                exact h2.2
              · rw [if_neg hek]
                exact h2.2
      · intro i1 hi1 i2 hi2 e1 he1 e2 he2
        rw [hlenT, hlen1] at hi1 hi2
        rw [hdT i1] at he1
        rw [hdT i2] at he2
        exact h.2.2.2.1 i1 hi1 i2 hi2 e1 (hmem1 i1 e1 he1) e2 (hmem1 i2 e2 he2)
      · intro j hj p hpj
        rw [hlenT, hlen1] at hj
        rw [hdT j, hpar1 j] at hpj
        rw [hdT p]
        exact hanyDir j p hj hpj
      · intro kk hk
        rw [hflenT] at hk
        have hold := h.2.2.2.2.2 kk hk
        rw [hfT kk]
        by_cases hkk : kk = k
        · subst hkk
          rw [if_pos rfl]
          show ((fileD s kk).parents.filter fun y => decide (y ≠ parentIdx)).Nodup ∧ _
          refine ⟨List.Nodup.filter _ hold.1, ?_⟩
          intro p hpk
          obtain ⟨hpold, hpf⟩ := List.mem_filter.mp hpk
          have hpp : p ≠ parentIdx := by simpa using hpf
          have h2 := hold.2 p hpold
          refine ⟨?_, ?_, ?_⟩
          · rw [hlenT, hlen1]
            exact h2.1
          · rw [attachedNE_congr_dirs (show T.dirs = S1.dirs from rfl) T.dirs.length p]
            exact attachedNE_transfer_on h (fun _ => True) (fun _ _ _ _ _ => trivial)
              (fun i _ _ => hpar1 i) (fun q j2 hj2 _ hq => hnm1 q j2 hj2 hq)
              T.dirs.length p h2.1 trivial
              (by rw [show T.dirs.length = s.dirs.length from by rw [hlenT, hlen1]]
                  exact h2.2.1)
          · rw [hdT p, hch_other p hpp]
            exact h2.2.2
        · rw [if_neg hkk]
          refine ⟨hold.1, ?_⟩
          intro p hpk
          have h2 := hold.2 p hpk
          refine ⟨?_, ?_, ?_⟩
          · rw [hlenT, hlen1]
            exact h2.1
          · rw [attachedNE_congr_dirs (show T.dirs = S1.dirs from rfl) T.dirs.length p]
            exact attachedNE_transfer_on h (fun _ => True) (fun _ _ _ _ _ => trivial)
              (fun i _ _ => hpar1 i) (fun q j2 hj2 _ hq => hnm1 q j2 hj2 hq)
              T.dirs.length p h2.1 trivial
              (by rw [show T.dirs.length = s.dirs.length from by rw [hlenT, hlen1]]
                  exact h2.2.1)
          · rw [hdT p]
            exact hanyFile kk p hkk h2.2.2
    · intro i hi e he
      rw [hlenT, hlen1] at hi
      rw [hdT i] at he
      exact hnn i hi e (hmem1 i e he)

/-! ### Success analysis per operation -/

theorem split_path_facts {s : AbstractExecutor} {path : Str} {parent : Nat}
    (hpd : resolve_dir s (split_path path).1 = .ok parent)
    (hlast : path.getLast? ≠ some '/') :
    '/' ∉ (split_path path).2 ∧ (split_path path).2 ≠ [] := by
  cases hr : rfindIdx '/' path with
  | none =>
    exfalso
    have hsp : (split_path path).1 = path := by
      unfold split_path
      rw [hr]
    rw [hsp] at hpd
    obtain ⟨hval1, _⟩ := resolve_node_ok_pieces (resolve_dir_ok_node hpd)
    push_neg at hval1
    obtain ⟨hvne, hvhead, _⟩ := hval1
    have hslash : '/' ∈ path := by
      cases path with
      | nil => exact absurd rfl hvne
      | cons c0 rest =>
        simp only [List.head?_cons, Option.some.injEq] at hvhead
        rw [hvhead]
        exact List.mem_cons_self _ _
    exact (rfindIdx_eq_none_iff '/' path).mp hr hslash
  | some i =>
    obtain ⟨a, b, hab, hlen, hnb⟩ := rfindIdx_eq_some '/' path i hr
    have hsp := split_path_parts hab hnb
    rw [hsp]
    refine ⟨hnb, ?_⟩
    intro hb0
    dsimp only at hb0
    subst hb0
    apply hlast
    rw [hab]
    exact List.getLast?_concat a

/-- One successful `applyOp` step on a path-ok operation preserves the
invariant and name non-emptiness. -/
theorem applyOp_preserves {s : AbstractExecutor} {op : Operation}
    (h : Inv s) (hnn : NamesNonempty s)
    (hok : (applyOp s op).1 = .ok ())
    (hop : opPathOk op = true) :
    Inv (applyOp s op).2 ∧ NamesNonempty (applyOp s op).2 := by
  cases op with
  | MKDIR path mode =>
    simp only [applyOp] at hok ⊢
    cases hpd : resolve_dir s (split_path path).1 with
    | error e =>
      exfalso
      have hm : (mkdir s path mode).1 = .error e := by
        unfold mkdir
        dsimp only
        rw [hpd]
      rw [hm] at hok
      cases hok
    | ok parent =>
      cases hnx : name_exists s parent (split_path path).2 with
      | true =>
        exfalso
        have hm : (mkdir s path mode).1 =
            .error (.NameAlreadyExists (make_path s parent (split_path path).2)) := by
          unfold mkdir
          dsimp only
          rw [hpd]
          dsimp only
          rw [if_pos (by simp [hnx])]
        rw [hm] at hok
        cases hok
      | false =>
        obtain ⟨hsl, hne2⟩ := split_path_facts hpd (by simpa [opPathOk] using hop)
        exact mkdir_preserves h hnn hpd hnx hsl hne2
  | CREATE path mode =>
    simp only [applyOp] at hok ⊢
    cases hpd : resolve_dir s (split_path path).1 with
    | error e =>
      exfalso
      have hm : (create s path mode).1 = .error e := by
        unfold create
        dsimp only
        rw [hpd]
      rw [hm] at hok
      cases hok
    | ok parent =>
      cases hnx : name_exists s parent (split_path path).2 with
      | true =>
        exfalso
        have hm : (create s path mode).1 =
            .error (.NameAlreadyExists (make_path s parent (split_path path).2)) := by
          unfold create
          dsimp only
          rw [hpd]
          dsimp only
          rw [if_pos (by simp [hnx])]
        rw [hm] at hok
        cases hok
      | false =>
        obtain ⟨hsl, hne2⟩ := split_path_facts hpd (by simpa [opPathOk] using hop)
        exact create_preserves h hnn hpd hnx hsl hne2
  | HARDLINK old_path new_path =>
    simp only [applyOp] at hok ⊢
    cases hof : resolve_file s old_path with
    | error e =>
      exfalso
      have hm : (hardlink s old_path new_path).1 = .error e := by
        unfold hardlink
        dsimp only
        rw [hof]
      rw [hm] at hok
      cases hok
    | ok oldFile =>
      cases hpd : resolve_dir s (split_path new_path).1 with
      | error e =>
        exfalso
        have hm : (hardlink s old_path new_path).1 = .error e := by
          unfold hardlink
          dsimp only
          rw [hof]
          dsimp only
          rw [hpd]
        rw [hm] at hok
        cases hok
      | ok parent =>
        cases hnx : name_exists s parent (split_path new_path).2 with
        | true =>
          exfalso
          have hm : (hardlink s old_path new_path).1 =
              .error (.NameAlreadyExists (make_path s parent (split_path new_path).2)) := by
            unfold hardlink
            dsimp only
            rw [hof]
            dsimp only
            rw [hpd]
            dsimp only
            rw [if_pos (by simp [hnx])]
          rw [hm] at hok
          cases hok
        | false =>
          obtain ⟨hsl, hne2⟩ := split_path_facts hpd (by simpa [opPathOk] using hop)
          exact hardlink_preserves h hnn hof hpd hnx hsl hne2
  | REMOVE path =>
    simp only [applyOp] at hok ⊢
    cases hres : resolve_node s path with
    | error e =>
      exfalso
      have hm : (remove s path).1 = .error e := by
        unfold remove
        rw [hres]
      rw [hm] at hok
      cases hok
    | ok node =>
      cases hpdd : resolve_dir s (split_path path).1 with
      | error e =>
        exfalso
        have hm : (remove s path).1 = .error e := by
          unfold remove
          rw [hres]
          dsimp only
          rw [hpdd]
        rw [hm] at hok
        cases hok
      | ok parentIdx =>
        cases node with
        | DIR d =>
          by_cases hd0 : d = 0
          · exfalso
            subst hd0
            have hm : (remove s path).1 = .error .RootRemovalForbidden := by
              unfold remove
              rw [hres]
              dsimp only
              rw [hpdd]
              dsimp only
              rw [if_pos rfl]
            rw [hm] at hok
            cases hok
          · exact remove_dir_preserves h hnn hres hpdd hd0
        | FILE kk => exact remove_file_preserves h hnn hres hpdd

/-! ### Canonical re-recording: support lemmas -/

theorem find?_append_left_none {α : Type} (l1 l2 : List α) (p : α → Bool) :
    (∀ y ∈ l1, p y = false) → (l1 ++ l2).find? p = l2.find? p := by
  induction l1 with
  | nil => intro _; rfl
  | cons a rest ih =>
    intro h1
    rw [List.cons_append, List.find?_cons_of_neg _ (by simp [h1 a (by simp)])]
    exact ih (fun y hy => h1 y (by simp [hy]))

theorem dirSegsRev_congr_dirs {s s' : AbstractExecutor} (hd : s.dirs = s'.dirs) :
    ∀ f j, dirSegsRev s f j = dirSegsRev s' f j := by
  have hdD : ∀ m, dirD s m = dirD s' m := by
    intro m
    unfold dirD
    rw [hd]
  have hpn : ∀ p c, parentNameOf s p c = parentNameOf s' p c := by
    intro p c
    unfold parentNameOf
    rw [hdD p]
  intro f
  induction f with
  | zero => intro j; rfl
  | succ f ih =>
    intro j
    simp only [dirSegsRev]
    rw [hdD j]
    cases (dirD s' j).parent with
    | none => rfl
    | some p =>
      dsimp only
      rw [hpn p j, ih p]

theorem resolve_dir_path_congr_dirs {s s' : AbstractExecutor} (hd : s.dirs = s'.dirs)
    (i : Nat) : resolve_dir_path s i = resolve_dir_path s' i := by
  unfold resolve_dir_path
  rw [show s.dirs.length = s'.dirs.length from by rw [hd], dirSegsRev_congr_dirs hd _ i]

theorem make_path_congr_dirs {s s' : AbstractExecutor} (hd : s.dirs = s'.dirs)
    (p : Nat) (n : Str) : make_path s p n = make_path s' p n := by
  unfold make_path
  by_cases h0 : p = 0
  · rw [if_pos h0, if_pos h0]
  · rw [if_neg h0, if_neg h0, resolve_dir_path_congr_dirs hd p]

theorem chainOf_transfer {s s' : AbstractExecutor} (h : Inv s) (h' : Inv s')
    (hlen : s.dirs.length ≤ s'.dirs.length)
    (hpar : ∀ i, i < s.dirs.length → (dirD s' i).parent = (dirD s i).parent)
    (hnm : ∀ p j, j < s.dirs.length → (dirD s j).parent = some p →
      parentNameOf s' p j = parentNameOf s p j)
    {j : Nat} (hj : j < s.dirs.length) :
    chainOf s' j = chainOf s j := by
  show (dirSegsRev s' s'.dirs.length j).reverse = (dirSegsRev s s.dirs.length j).reverse
  rw [dirSegsRev_fuel_stable h' j (by omega) s'.dirs.length s.dirs.length (by omega) (by omega)]
  rw [dirSegsRev_transfer_on h (fun _ => True) (fun _ _ _ _ _ => trivial)
    (fun i hi _ => hpar i hi) (fun p j2 hj2 _ hq => hnm p j2 hj2 hq)
    s.dirs.length j hj trivial]

theorem split_path_canonical {names : List Str} {nm : Str}
    (hall : ∀ n ∈ names, n ≠ [] ∧ ∀ c ∈ n, c ≠ '/')
    (hnm : '/' ∉ nm) :
    split_path ('/' :: List.intercalate ['/'] (names ++ [nm])) =
      (if names = [] then ['/'] else '/' :: List.intercalate ['/'] names, nm) := by
  by_cases hn : names = []
  · subst hn
    rw [if_pos rfl, List.nil_append, intercalate_singleton]
    have := @split_path_parts ('/' :: nm) ([] : Str) nm rfl hnm
    rw [if_pos rfl] at this
    exact this
  · rw [if_neg hn]
    have hform : ('/' :: List.intercalate ['/'] (names ++ [nm]) : Str) =
        ('/' :: List.intercalate ['/'] names) ++ '/' :: nm := by
      rw [intercalate_append_singleton ['/'] nm names hn]
      simp
    have := split_path_parts hform hnm
    rw [if_neg (by simp)] at this
    exact this

theorem resolve_dir_root (s : AbstractExecutor) : resolve_dir s ['/'] = .ok 0 := by
  unfold resolve_dir
  rw [show resolve_node s ['/'] = .ok (Node.DIR 0) from by
    unfold resolve_node
    rw [if_neg (by simp)]
    rfl]

theorem chainOf_ne_nil_of_nonroot {s : AbstractExecutor} (h : Inv s) {p : Nat}
    (hp : p < s.dirs.length) (hA : attachedNE s s.dirs.length p = true)
    (h0 : p ≠ 0) : chainOf s p ≠ [] := by
  obtain ⟨q, hq⟩ := attachedNE_nonroot_parent h hp hA h0
  rw [chainOf_step h hp hq]
  simp

theorem chainOf_nil_root {s : AbstractExecutor} (h : Inv s) {p : Nat}
    (hp : p < s.dirs.length) (hA : attachedNE s s.dirs.length p = true)
    (hc : chainOf s p = []) : p = 0 := by
  by_contra h0
  exact chainOf_ne_nil_of_nonroot h hp hA h0 hc

theorem resolve_file_path_mem_resolves {s : AbstractExecutor} (h : Inv s)
    (hn : NamesNonempty s) {f : Nat} (hf : f < s.files.length) :
    ∀ p ∈ resolve_file_path s f, resolve_node s p = .ok (Node.FILE f) := by
  intro p hp
  unfold resolve_file_path at hp
  rw [(sortStrs_perm _).mem_iff, List.mem_flatMap] at hp
  obtain ⟨d, hd, hp2⟩ := hp
  rw [List.mem_map] at hp2
  obtain ⟨e, he, rfl⟩ := hp2
  rw [List.mem_filter] at he
  obtain ⟨hech, hee⟩ := he
  simp only [decide_eq_true_eq] at hee
  obtain ⟨nm, v⟩ := e
  cases hee
  have hfp := h.file_parent hf hd
  exact resolve_node_link h hfp.1 hfp.2.1 (hn d hfp.1 _ hech) hech

theorem resolve_file_path_has {s : AbstractExecutor} (h : Inv s)
    {f p : Nat} {nm : Str} (hp : p < s.dirs.length)
    (hmem : (nm, Node.FILE f) ∈ (dirD s p).children) :
    make_path s p nm ∈ resolve_file_path s f := by
  have hpf := (h.child_file hp hmem).2
  unfold resolve_file_path
  rw [(sortStrs_perm _).mem_iff, List.mem_flatMap]
  exact ⟨p, hpf, List.mem_map.mpr ⟨(nm, Node.FILE f),
    List.mem_filter.mpr ⟨hmem, by simp⟩, rfl⟩⟩

/-- The `MKDIR` record is the canonical path of the new directory, and
re-running `mkdir` on it reproduces the identical result. -/
theorem mkdir_rerecord {s : AbstractExecutor} {path : Str} {mode : Mode} {parent : Nat}
    (h : Inv s) (hnn : NamesNonempty s)
    (hpd : resolve_dir s (split_path path).1 = .ok parent)
    (hnx : name_exists s parent (split_path path).2 = false)
    (hsl : '/' ∉ (split_path path).2) (hne2 : (split_path path).2 ≠ []) :
    ∃ P, (mkdir s path mode).2.recording = s.recording ++ [Operation.MKDIR P mode] ∧
      mkdir s P mode = mkdir s path mode := by
  obtain ⟨hp, hAp⟩ := resolve_dir_ok_attached h hpd
  obtain ⟨hInv2, _⟩ := @mkdir_preserves s path mode parent h hnn hpd hnx hsl hne2
  rw [mkdir_eq hpd hnx] at hInv2 ⊢
  have hD := mkdir_dirD (s := s) hp rfl (split_path path).2
    (s.recording ++ [Operation.MKDIR (resolve_dir_path
      (updDir { s with dirs := s.dirs ++ [{ parent := some parent, children := [] }] }
        parent (fun dd => { dd with children := (hmInsert dd.children
          (split_path path).2 (Node.DIR s.dirs.length)) }))
      s.dirs.length) mode]) (s.nodes_created + 1)
  set S2 := ({ (updDir { s with dirs := s.dirs ++ [{ parent := some parent, children := [] }] }
      parent (fun dd => { dd with children := (hmInsert dd.children
        (split_path path).2 (Node.DIR s.dirs.length)) })) with
    recording := (s.recording ++
      [Operation.MKDIR (resolve_dir_path
        (updDir { s with dirs := s.dirs ++ [{ parent := some parent, children := [] }] }
          parent (fun dd => { dd with children := (hmInsert dd.children
            (split_path path).2 (Node.DIR s.dirs.length)) }))
        s.dirs.length) mode]),
    nodes_created := s.nodes_created + 1 } : AbstractExecutor) with hS2
  have hdirs_eq : S2.dirs =
      (updDir { s with dirs := s.dirs ++ [{ parent := some parent, children := [] }] }
        parent (fun dd => { dd with children := (hmInsert dd.children
          (split_path path).2 (Node.DIR s.dirs.length)) })).dirs := by
    rw [hS2]
  have hlen2 : S2.dirs.length = s.dirs.length + 1 := by
    rw [hS2]
    simp [updDir]
  have hins := hmInsert_fresh hnx (Node.DIR s.dirs.length)
  have hpar' : ∀ m, m < s.dirs.length → (dirD S2 m).parent = (dirD s m).parent := by
    intro m hm
    rw [hD m]
    by_cases hmp : m = parent
    · rw [if_pos hmp, hmp]
    · rw [if_neg hmp, if_neg (by omega)]
  have hchildren_par : (dirD S2 parent).children =
      (dirD s parent).children ++ [((split_path path).2, Node.DIR s.dirs.length)] := by
    rw [hD parent, if_pos rfl]
    simp only
    exact hins
  have hnm' : ∀ q j, j < s.dirs.length → (dirD s j).parent = some q →
      parentNameOf S2 q j = parentNameOf s q j := by
    intro q j hj hq
    have hql : q < s.dirs.length := lt_trans (h.parent_lt hj hq) hj
    unfold parentNameOf
    by_cases hqp : q = parent
    · rw [hqp, hchildren_par, find?_append_right_none]
      intro y hy
      simp only [List.mem_singleton] at hy
      subst hy
      simp only [decide_eq_false_iff_not]
      intro hcon
      cases hcon
      omega
    · rw [hD q, if_neg hqp, if_neg (by omega)]
  -- the canonical path of the new directory
  have hpnew : (dirD S2 s.dirs.length).parent = some parent := by
    rw [hD s.dirs.length, if_neg (by omega), if_pos rfl]
  have hpname : parentNameOf S2 parent s.dirs.length = (split_path path).2 := by
    unfold parentNameOf
    rw [hchildren_par, find?_append_left_none]
    · simp
    · intro y hy
      simp only [decide_eq_false_iff_not]
      intro hv
      have hok := h.child_ok hp hy
      have := (hok.2.1 (by rw [hv]; rfl)).1
      rw [hv] at this
      simp only [Node.idx] at this
      omega
  have hI2 : Inv S2 := hInv2
  have hchain2 : chainOf S2 parent = chainOf s parent :=
    chainOf_transfer h hI2 (by omega) hpar' hnm' hp
  have hchainNew : chainOf S2 s.dirs.length =
      chainOf s parent ++ [(split_path path).2] := by
    rw [chainOf_step hI2 (by omega) hpnew, hchain2, hpname]
  have hPdef : resolve_dir_path S2 s.dirs.length =
      '/' :: List.intercalate ['/'] (chainOf s parent ++ [(split_path path).2]) := by
    rw [show resolve_dir_path S2 s.dirs.length =
      '/' :: List.intercalate ['/'] (chainOf S2 s.dirs.length) from rfl, hchainNew]
  have hnames := chainOf_names h parent hp hAp
  have hsplitP : split_path (resolve_dir_path S2 s.dirs.length) =
      (if chainOf s parent = [] then ['/']
        else '/' :: List.intercalate ['/'] (chainOf s parent), (split_path path).2) := by
    rw [hPdef]
    exact split_path_canonical hnames hsl
  have hsp1 : resolve_dir s (split_path (resolve_dir_path S2 s.dirs.length)).1 =
      .ok parent := by
    rw [hsplitP]
    dsimp only
    by_cases hc0 : chainOf s parent = []
    · rw [if_pos hc0]
      rw [chainOf_nil_root h hp hAp hc0]
      exact resolve_dir_root s
    · rw [if_neg hc0]
      exact resolve_dir_path_resolves h hp hAp
  have hsp2 : (split_path (resolve_dir_path S2 s.dirs.length)).2 = (split_path path).2 := by
    rw [hsplitP]
  refine ⟨resolve_dir_path S2 s.dirs.length, ?_, ?_⟩
  · -- the record
    have hcongr := resolve_dir_path_congr_dirs hdirs_eq s.dirs.length
    rw [hcongr, hS2]
  · -- re-running on the canonical path
    rw [mkdir_eq hsp1 (by rw [hsp2]; exact hnx)]
    rw [hsp2, hS2]

/-- The `CREATE` record is the canonical path of the new file's link, and
re-running `create` on it reproduces the identical result. -/
theorem create_rerecord {s : AbstractExecutor} {path : Str} {mode : Mode} {parent : Nat}
    (h : Inv s) (hnn : NamesNonempty s)
    (hpd : resolve_dir s (split_path path).1 = .ok parent)
    (hnx : name_exists s parent (split_path path).2 = false)
    (hsl : '/' ∉ (split_path path).2) (hne2 : (split_path path).2 ≠ []) :
    ∃ P, (create s path mode).2.recording = s.recording ++ [Operation.CREATE P mode] ∧
      create s P mode = create s path mode := by
  obtain ⟨hp, hAp⟩ := resolve_dir_ok_attached h hpd
  obtain ⟨hInv2, _⟩ := @create_preserves s path mode parent h hnn hpd hnx hsl hne2
  rw [create_eq hpd hnx] at hInv2 ⊢
  have hD := create_dirD (s := s) hp (split_path path).2 s.files.length
    (s.files ++ [{ parents := [parent] }])
    (s.recording ++ [Operation.CREATE (make_path
      (updDir { s with files := s.files ++ [{ parents := [parent] }] }
        parent (fun dd => { dd with children := (hmInsert dd.children
          (split_path path).2 (Node.FILE s.files.length)) }))
      parent (split_path path).2) mode]) (s.nodes_created + 1)
  set S2 := ({ (updDir { s with files := s.files ++ [{ parents := [parent] }] }
      parent (fun dd => { dd with children := (hmInsert dd.children
        (split_path path).2 (Node.FILE s.files.length)) })) with
    recording := (s.recording ++
      [Operation.CREATE (make_path
        (updDir { s with files := s.files ++ [{ parents := [parent] }] }
          parent (fun dd => { dd with children := (hmInsert dd.children
            (split_path path).2 (Node.FILE s.files.length)) }))
        parent (split_path path).2) mode]),
    nodes_created := s.nodes_created + 1 } : AbstractExecutor) with hS2
  have hI2 : Inv S2 := hInv2
  have hdirs_eq : S2.dirs =
      (updDir { s with files := s.files ++ [{ parents := [parent] }] }
        parent (fun dd => { dd with children := (hmInsert dd.children
          (split_path path).2 (Node.FILE s.files.length)) })).dirs := by
    rw [hS2]
  have hlen2 : S2.dirs.length = s.dirs.length := by
    rw [hS2]
    simp [updDir]
  have hins := hmInsert_fresh hnx (Node.FILE s.files.length)
  have hpar' : ∀ m, (dirD S2 m).parent = (dirD s m).parent := by
    intro m
    rw [hD m]
    by_cases hmp : m = parent
    · rw [if_pos hmp, hmp]
    · rw [if_neg hmp]
  have hchildren_par : (dirD S2 parent).children =
      (dirD s parent).children ++ [((split_path path).2, Node.FILE s.files.length)] := by
    rw [hD parent, if_pos rfl]
    simp only
    exact hins
  have hnm' : ∀ q j, j < s.dirs.length → (dirD s j).parent = some q →
      parentNameOf S2 q j = parentNameOf s q j := by
    intro q j hj hq
    unfold parentNameOf
    by_cases hqp : q = parent
    · rw [hqp, hchildren_par, find?_append_right_none]
      intro y hy
      simp only [List.mem_singleton] at hy
      subst hy
      simp
    · rw [hD q, if_neg hqp]
  have hA2 : attachedNE S2 S2.dirs.length parent = true := by
    rw [hlen2]
    exact attachedNE_transfer_on h (fun _ => True) (fun _ _ _ _ _ => trivial)
      (fun i _ _ => hpar' i) (fun q j2 hj2 _ hq => hnm' q j2 hj2 hq)
      s.dirs.length parent hp trivial hAp
  have hchain2 : chainOf S2 parent = chainOf s parent :=
    chainOf_transfer h hI2 (by omega) (fun i _ => hpar' i) hnm' hp
  have hPdef : make_path S2 parent (split_path path).2 =
      '/' :: List.intercalate ['/'] (chainOf s parent ++ [(split_path path).2]) := by
    rw [make_path_eq_chain hI2 (split_path path).2 (by omega) hA2, hchain2]
  have hnames := chainOf_names h parent hp hAp
  have hsplitP : split_path (make_path S2 parent (split_path path).2) =
      (if chainOf s parent = [] then ['/']
        else '/' :: List.intercalate ['/'] (chainOf s parent), (split_path path).2) := by
    rw [hPdef]
    exact split_path_canonical hnames hsl
  have hsp1 : resolve_dir s (split_path (make_path S2 parent (split_path path).2)).1 =
      .ok parent := by
    rw [hsplitP]
    dsimp only
    by_cases hc0 : chainOf s parent = []
    · rw [if_pos hc0]
      rw [chainOf_nil_root h hp hAp hc0]
      exact resolve_dir_root s
    · rw [if_neg hc0]
      exact resolve_dir_path_resolves h hp hAp
  have hsp2 : (split_path (make_path S2 parent (split_path path).2)).2 =
      (split_path path).2 := by
    rw [hsplitP]
  refine ⟨make_path S2 parent (split_path path).2, ?_, ?_⟩
  · have hcongr := make_path_congr_dirs hdirs_eq parent (split_path path).2
    rw [hcongr, hS2]
  · rw [create_eq hsp1 (by rw [hsp2]; exact hnx)]
    rw [hsp2, hS2]

theorem mem_of_getLast?_eq {α : Type} : ∀ (l : List α) (x : α), l.getLast? = some x → x ∈ l := by
  intro l
  induction l with
  | nil =>
    intro x hx
    cases hx
  | cons a rest ih =>
    intro x hx
    cases rest with
    | nil =>
      simp only [List.getLast?_singleton, Option.some.injEq] at hx
      simp [hx]
    | cons b rest2 =>
      rw [List.getLast?_cons_cons] at hx
      exact List.mem_cons_of_mem a (ih x hx)

/-- The `HARDLINK` record pairs the greatest existing link path of the file
with the canonical path of the new link; re-running `hardlink` on the
recorded pair reproduces the identical result. -/
theorem hardlink_rerecord {s : AbstractExecutor} {old_path new_path : Str}
    {oldFile parent : Nat}
    (h : Inv s) (hnn : NamesNonempty s)
    (hof : resolve_file s old_path = .ok oldFile)
    (hpd : resolve_dir s (split_path new_path).1 = .ok parent)
    (hnx : name_exists s parent (split_path new_path).2 = false)
    (hsl : '/' ∉ (split_path new_path).2) (hne2 : (split_path new_path).2 ≠ []) :
    ∃ P1 P2, (hardlink s old_path new_path).2.recording =
        s.recording ++ [Operation.HARDLINK P1 P2] ∧
      hardlink s P1 P2 = hardlink s old_path new_path := by
  obtain ⟨hp, hAp⟩ := resolve_dir_ok_attached h hpd
  have ho : oldFile < s.files.length := resolve_file_ok_lt h hof
  obtain ⟨hInv2, _⟩ := hardlink_preserves h hnn hof hpd hnx hsl hne2
  -- the old recorded path resolves back to the file
  have hof2 : resolve_file s ((resolve_path s (Node.FILE oldFile)).getLast?.getD []) =
      .ok oldFile := by
    have hwalk : resolve_node s old_path = .ok (Node.FILE oldFile) := by
      unfold resolve_file at hof
      cases hr : resolve_node s old_path with
      | error e =>
        rw [hr] at hof
        cases hof
      | ok node =>
        rw [hr] at hof
        cases node with
        | DIR d => cases hof
        | FILE kk =>
          simp only [Except.ok.injEq] at hof
          rw [hof]
    obtain ⟨_, hloop⟩ := resolve_node_ok_pieces hwalk
    obtain ⟨_, p0, nm0, hp0, hmem0⟩ :=
      resolveLoop_ok_file h _ 0 [] oldFile h.dirs_pos hloop
    have hhas := resolve_file_path_has h hp0 hmem0
    have hne : resolve_file_path s oldFile ≠ [] := by
      intro hnil
      rw [hnil] at hhas
      cases hhas
    show resolve_file s ((resolve_file_path s oldFile).getLast?.getD []) = .ok oldFile
    cases hgl : (resolve_file_path s oldFile).getLast? with
    | none =>
      exfalso
      exact hne (List.getLast?_eq_none_iff.mp hgl)
    | some x =>
      have hx : x ∈ resolve_file_path s oldFile := mem_of_getLast?_eq _ _ hgl
      have hres := resolve_file_path_mem_resolves h hnn ho x hx
      show resolve_file s x = .ok oldFile
      unfold resolve_file
      rw [hres]
  rw [hardlink_eq hof hpd hnx] at hInv2 ⊢
  have hD := hardlink_dirD (s := s) hp (split_path new_path).2 oldFile
    (fun f => { f with parents := hsInsert f.parents parent }) oldFile
    (s.recording ++ [Operation.HARDLINK ((resolve_path s (Node.FILE oldFile)).getLast?.getD [])
      (make_path
        (updDir (updFile s oldFile
            (fun f => { f with parents := hsInsert f.parents parent }))
          parent (fun dd => { dd with children := (hmInsert dd.children
            (split_path new_path).2 (Node.FILE oldFile)) }))
        parent (split_path new_path).2)]) (s.nodes_created + 1)
  set S2 := ({ (updDir (updFile s oldFile
        (fun f => { f with parents := hsInsert f.parents parent }))
      parent (fun dd => { dd with children := (hmInsert dd.children
        (split_path new_path).2 (Node.FILE oldFile)) })) with
    recording := (s.recording ++
      [Operation.HARDLINK ((resolve_path s (Node.FILE oldFile)).getLast?.getD [])
        (make_path
          (updDir (updFile s oldFile
              (fun f => { f with parents := hsInsert f.parents parent }))
            parent (fun dd => { dd with children := (hmInsert dd.children
              (split_path new_path).2 (Node.FILE oldFile)) }))
          parent (split_path new_path).2)]),
    nodes_created := s.nodes_created + 1 } : AbstractExecutor) with hS2
  have hI2 : Inv S2 := hInv2
  have hdirs_eq : S2.dirs =
      (updDir (updFile s oldFile
          (fun f => { f with parents := hsInsert f.parents parent }))
        parent (fun dd => { dd with children := (hmInsert dd.children
          (split_path new_path).2 (Node.FILE oldFile)) })).dirs := by
    rw [hS2]
  have hlen2 : S2.dirs.length = s.dirs.length := by
    rw [hS2]
    simp [updDir, updFile]
  have hins := hmInsert_fresh hnx (Node.FILE oldFile)
  have hpar' : ∀ m, (dirD S2 m).parent = (dirD s m).parent := by
    intro m
    rw [hD m]
    by_cases hmp : m = parent
    · rw [if_pos hmp, hmp]
    · rw [if_neg hmp]
  have hchildren_par : (dirD S2 parent).children =
      (dirD s parent).children ++ [((split_path new_path).2, Node.FILE oldFile)] := by
    rw [hD parent, if_pos rfl]
    simp only
    exact hins
  have hnm' : ∀ q j, j < s.dirs.length → (dirD s j).parent = some q →
      parentNameOf S2 q j = parentNameOf s q j := by
    intro q j hj hq
    unfold parentNameOf
    by_cases hqp : q = parent
    · rw [hqp, hchildren_par, find?_append_right_none]
      intro y hy
      simp only [List.mem_singleton] at hy
      subst hy
      simp
    · rw [hD q, if_neg hqp]
  have hA2 : attachedNE S2 S2.dirs.length parent = true := by
    rw [hlen2]
    exact attachedNE_transfer_on h (fun _ => True) (fun _ _ _ _ _ => trivial)
      (fun i _ _ => hpar' i) (fun q j2 hj2 _ hq => hnm' q j2 hj2 hq)
      s.dirs.length parent hp trivial hAp
  have hchain2 : chainOf S2 parent = chainOf s parent :=
    chainOf_transfer h hI2 (by omega) (fun i _ => hpar' i) hnm' hp
  have hPdef : make_path S2 parent (split_path new_path).2 =
      '/' :: List.intercalate ['/'] (chainOf s parent ++ [(split_path new_path).2]) := by
    rw [make_path_eq_chain hI2 (split_path new_path).2 (by omega) hA2, hchain2]
  have hnames := chainOf_names h parent hp hAp
  have hsplitP : split_path (make_path S2 parent (split_path new_path).2) =
      (if chainOf s parent = [] then ['/']
        else '/' :: List.intercalate ['/'] (chainOf s parent), (split_path new_path).2) := by
    rw [hPdef]
    exact split_path_canonical hnames hsl
  have hsp1 : resolve_dir s
      (split_path (make_path S2 parent (split_path new_path).2)).1 = .ok parent := by
    rw [hsplitP]
    dsimp only
    by_cases hc0 : chainOf s parent = []
    · rw [if_pos hc0]
      rw [chainOf_nil_root h hp hAp hc0]
      exact resolve_dir_root s
    · rw [if_neg hc0]
      exact resolve_dir_path_resolves h hp hAp
  have hsp2 : (split_path (make_path S2 parent (split_path new_path).2)).2 =
      (split_path new_path).2 := by
    rw [hsplitP]
  refine ⟨(resolve_path s (Node.FILE oldFile)).getLast?.getD [],
    make_path S2 parent (split_path new_path).2, ?_, ?_⟩
  · have hcongr := make_path_congr_dirs hdirs_eq parent (split_path new_path).2
    rw [hcongr, hS2]
  · rw [hardlink_eq hof2 hsp1 (by rw [hsp2]; exact hnx)]
    rw [hsp2, hS2]

/-- Every successful, path-ok operation appends exactly one record, and
replaying that record from the same pre-state reproduces the exact same
post-state (recording included). -/
theorem applyOp_rerecord {s : AbstractExecutor} {op : Operation}
    (h : Inv s) (hnn : NamesNonempty s)
    (hok : (applyOp s op).1 = .ok ())
    (hop : opPathOk op = true) :
    ∃ rec, (applyOp s op).2.recording = s.recording ++ [rec] ∧
      applyOp s rec = (.ok (), (applyOp s op).2) := by
  cases op with
  | MKDIR path mode =>
    simp only [applyOp] at hok ⊢
    cases hpd : resolve_dir s (split_path path).1 with
    | error e =>
      exfalso
      have hm : (mkdir s path mode).1 = .error e := by
        unfold mkdir
        dsimp only
        rw [hpd]
      rw [hm] at hok
      cases hok
    | ok parent =>
      cases hnx : name_exists s parent (split_path path).2 with
      | true =>
        exfalso
        have hm : (mkdir s path mode).1 =
            .error (.NameAlreadyExists (make_path s parent (split_path path).2)) := by
          unfold mkdir
          dsimp only
          rw [hpd]
          dsimp only
          rw [if_pos (by simp [hnx])]
        rw [hm] at hok
        cases hok
      | false =>
        obtain ⟨hsl, hne2⟩ := split_path_facts hpd (by simpa [opPathOk] using hop)
        obtain ⟨P, hrec, hrun⟩ := @mkdir_rerecord s path mode parent h hnn hpd hnx hsl hne2
        refine ⟨Operation.MKDIR P mode, hrec, ?_⟩
        show ((mkdir s P mode).1.map fun _ => (), (mkdir s P mode).2) =
          (.ok (), (mkdir s path mode).2)
        rw [hrun]
        exact Prod.ext hok rfl
  | CREATE path mode =>
    simp only [applyOp] at hok ⊢
    cases hpd : resolve_dir s (split_path path).1 with
    | error e =>
      exfalso
      have hm : (create s path mode).1 = .error e := by
        unfold create
        dsimp only
        rw [hpd]
      rw [hm] at hok
      cases hok
    | ok parent =>
      cases hnx : name_exists s parent (split_path path).2 with
      | true =>
        exfalso
        have hm : (create s path mode).1 =
            .error (.NameAlreadyExists (make_path s parent (split_path path).2)) := by
          unfold create
          dsimp only
          rw [hpd]
          dsimp only
          rw [if_pos (by simp [hnx])]
        rw [hm] at hok
        cases hok
      | false =>
        obtain ⟨hsl, hne2⟩ := split_path_facts hpd (by simpa [opPathOk] using hop)
        obtain ⟨P, hrec, hrun⟩ := @create_rerecord s path mode parent h hnn hpd hnx hsl hne2
        refine ⟨Operation.CREATE P mode, hrec, ?_⟩
        show ((create s P mode).1.map fun _ => (), (create s P mode).2) =
          (.ok (), (create s path mode).2)
        rw [hrun]
        exact Prod.ext hok rfl
  | HARDLINK old_path new_path =>
    simp only [applyOp] at hok ⊢
    cases hof : resolve_file s old_path with
    | error e =>
      exfalso
      have hm : (hardlink s old_path new_path).1 = .error e := by
        unfold hardlink
        dsimp only
        rw [hof]
      rw [hm] at hok
      cases hok
    | ok oldFile =>
      cases hpd : resolve_dir s (split_path new_path).1 with
      | error e =>
        exfalso
        have hm : (hardlink s old_path new_path).1 = .error e := by
          unfold hardlink
          dsimp only
          rw [hof]
          dsimp only
          rw [hpd]
        rw [hm] at hok
        cases hok
      | ok parent =>
        cases hnx : name_exists s parent (split_path new_path).2 with
        | true =>
          exfalso
          have hm : (hardlink s old_path new_path).1 =
              .error (.NameAlreadyExists (make_path s parent (split_path new_path).2)) := by
            unfold hardlink
            dsimp only
            rw [hof]
            dsimp only
            rw [hpd]
            dsimp only
            rw [if_pos (by simp [hnx])]
          rw [hm] at hok
          cases hok
        | false =>
          obtain ⟨hsl, hne2⟩ := split_path_facts hpd (by simpa [opPathOk] using hop)
          obtain ⟨P1, P2, hrec, hrun⟩ := hardlink_rerecord h hnn hof hpd hnx hsl hne2
          refine ⟨Operation.HARDLINK P1 P2, hrec, ?_⟩
          show ((hardlink s P1 P2).1.map fun _ => (), (hardlink s P1 P2).2) =
            (.ok (), (hardlink s old_path new_path).2)
          rw [hrun]
          exact Prod.ext hok rfl
  | REMOVE path =>
    simp only [applyOp] at hok ⊢
    refine ⟨Operation.REMOVE path, ?_, ?_⟩
    · cases hres : resolve_node s path with
      | error e =>
        exfalso
        have hm : (remove s path).1 = .error e := by
          unfold remove
          rw [hres]
        rw [hm] at hok
        cases hok
      | ok node =>
        cases hpdd : resolve_dir s (split_path path).1 with
        | error e =>
          exfalso
          have hm : (remove s path).1 = .error e := by
            unfold remove
            rw [hres]
            dsimp only
            rw [hpdd]
          rw [hm] at hok
          cases hok
        | ok parentIdx =>
          cases node with
          | DIR d =>
            by_cases hd0 : d = 0
            · exfalso
              subst hd0
              have hm : (remove s path).1 = .error .RootRemovalForbidden := by
                unfold remove
                rw [hres]
                dsimp only
                rw [hpdd]
                dsimp only
                rw [if_pos rfl]
              rw [hm] at hok
              cases hok
            · obtain ⟨_, _, _, _, _, _, _, _, _, _, hRec⟩ :=
                remove_dir_state h hres hpdd hd0
              exact hRec
          | FILE kk =>
            by_cases hcond : ((dirD (updDir { s with
                recording := s.recording ++ [Operation.REMOVE path] }
                parentIdx fun dd => { dd with children :=
                  (hmRemove dd.children (split_path path).2) })
                parentIdx).children.any fun e => decide (e.2 = Node.FILE kk)) = true
            · rw [remove_file_eq_true hres hpdd hcond]
              rfl
            · rw [Bool.not_eq_true] at hcond
              rw [remove_file_eq_false hres hpdd hcond]
              rfl
    · show remove s path = (.ok (), (remove s path).2)
      rw [← hok]

/-- Round trip: a successful workload replayed from scratch leaves a
recording that, replayed from scratch, reproduces the exact same state —
and every reached state satisfies the executor invariant. -/
theorem replay_roundtrip :
    ∀ W s, replay new W = (.ok (), s) →
      (∀ op ∈ W, opPathOk op = true) →
      Inv s ∧ NamesNonempty s ∧ replay new s.recording = (.ok (), s) := by
  intro W
  induction W using List.reverseRecOn with
  | nil =>
    intro s hrep hops
    simp only [replay] at hrep
    have hs : new = s := by
      simpa using hrep
    subst hs
    exact ⟨by decide, by decide, rfl⟩
  | append_singleton W0 op ih =>
    intro s hrep hops
    rw [replay_append] at hrep
    cases hmid : replay new W0 with
    | mk r mid =>
      rw [hmid] at hrep
      cases r with
      | error e => simp at hrep
      | ok u =>
        cases u
        obtain ⟨hI0, hN0, hrt0⟩ :=
          ih mid hmid (fun op2 hop2 => hops op2 (List.mem_append_left _ hop2))
        simp only [replay] at hrep
        cases happ : applyOp mid op with
        | mk r2 s2 =>
          rw [happ] at hrep
          cases r2 with
          | error e => simp at hrep
          | ok u2 =>
            cases u2
            simp only [replay] at hrep
            have hs2 : s2 = s := by
              simpa using hrep
            subst hs2
            have hok : (applyOp mid op).1 = .ok () := by
              rw [happ]
            have hopok : opPathOk op = true :=
              hops op (List.mem_append_right _ (by simp))
            obtain ⟨hIs, hNs⟩ := applyOp_preserves hI0 hN0 hok hopok
            obtain ⟨rec, hrec, hrun⟩ := applyOp_rerecord hI0 hN0 hok hopok
            have h2s : (applyOp mid op).2 = s2 := by
              rw [happ]
            rw [h2s] at hIs hNs hrec hrun
            refine ⟨hIs, hNs, ?_⟩
            rw [hrec, replay_append, hrt0]
            simp only [replay]
            rw [hrun]

/-- C1 (amended): for every workload `W` whose replay from a fresh executor
succeeds and whose creating operations' paths do not end in `/`, the
recording left behind — the workload's canonicalised form — replayed from a
fresh executor reproduces the exact same final state (recording included),
and the same holds for every prefix of `W`. -/
theorem C1_replay_roundtrip (W : List Operation) (s : AbstractExecutor)
    (hops : ∀ op ∈ W, opPathOk op = true)
    (hrep : replay new W = (.ok (), s)) :
    replay new s.recording = (.ok (), s) ∧
    ∀ k, ∃ sk, replay new (W.take k) = (.ok (), sk) ∧
      replay new sk.recording = (.ok (), sk) := by
  refine ⟨(replay_roundtrip W s hrep hops).2.2, ?_⟩
  intro k
  have hsplit : W.take k ++ W.drop k = W := List.take_append_drop k W
  rw [← hsplit, replay_append] at hrep
  cases hmid : replay new (W.take k) with
  | mk r mid =>
    rw [hmid] at hrep
    cases r with
    | error e => simp at hrep
    | ok u =>
      cases u
      refine ⟨mid, rfl, ?_⟩
      exact (replay_roundtrip (W.take k) mid hmid
        (fun op2 hop2 => hops op2 (List.take_subset k W hop2))).2.2

theorem C1_replay_roundtrip_witness :
    (∀ op ∈ ([Operation.MKDIR "/a".data [], Operation.CREATE "/b".data [],
        Operation.HARDLINK "/b".data "/a/c".data, Operation.REMOVE "/b".data] :
        List Operation), opPathOk op = true) ∧
    replay new [Operation.MKDIR "/a".data [], Operation.CREATE "/b".data [],
        Operation.HARDLINK "/b".data "/a/c".data, Operation.REMOVE "/b".data] =
      (.ok (), stFrom [Operation.MKDIR "/a".data [], Operation.CREATE "/b".data [],
        Operation.HARDLINK "/b".data "/a/c".data, Operation.REMOVE "/b".data]) ∧
    (replay new (stFrom [Operation.MKDIR "/a".data [], Operation.CREATE "/b".data [],
        Operation.HARDLINK "/b".data "/a/c".data,
        Operation.REMOVE "/b".data]).recording =
      (.ok (), stFrom [Operation.MKDIR "/a".data [], Operation.CREATE "/b".data [],
        Operation.HARDLINK "/b".data "/a/c".data, Operation.REMOVE "/b".data]) ∧
    ∀ k, ∃ sk, replay new (([Operation.MKDIR "/a".data [], Operation.CREATE "/b".data [],
        Operation.HARDLINK "/b".data "/a/c".data, Operation.REMOVE "/b".data] :
        List Operation).take k) = (.ok (), sk) ∧
      replay new sk.recording = (.ok (), sk)) :=
  ⟨by decide, by decide,
    C1_replay_roundtrip _ _ (by decide) (by decide)⟩


end OldFs

end DIFFuzzer
